import Mathlib

/-!
Verification of the maze-generator repository.

This file gives a shallow embedding, in Lean 4, of the repository's core:

* `src/maze-utils.ts` / `src/types.ts` — the cell/wall grid model, the
  `removeWalls`, `getNeighbors`, `getUnvisitedNeighbors` helpers and the
  Mulberry32 seeded pseudo-random generator (`createSeededRandom`);
* `src/maze-generator.ts` — the multi-algorithm `MazeGenerator` class
  (constructor validation and the carving algorithms);
* `src/maze.ts` — the legacy single-algorithm generator snapshot;
* `src/data-structures/priority-queue.ts` — the binary min-heap;
* the `MazeSolver` (single-direction A* and bidirectional A*).

Machine integers are modelled as `Nat` with explicit `% 2 ^ 32` where the
JavaScript code relies on 32-bit coercions; JavaScript floating-point values
in `[0, 1)` produced by the RNG are modelled as exact rationals (`ℚ`), which
agrees with the double-precision values for the quantities computed here.
Mutation is modelled by explicit state passing; `while` loops whose bound is
not structural are given a `fuel` parameter (exhausted fuel returns the
state reached so far, or a designated failure value, as documented at each
definition).
-/

namespace MazeRepo

/-! ## Seeded RNG (`createSeededRandom` in `src/maze-utils.ts`)

JavaScript bitwise operators coerce their operands with `ToInt32`/`ToUint32`;
on bit patterns this is reduction mod `2 ^ 32`, so the whole computation is
carried out on naturals below `2 ^ 32`.
-/

/-- `2 ^ 32`, the modulus of all JavaScript 32-bit coercions. -/
def U32 : ℕ := 4294967296

/-- `Math.imul`: 32-bit integer multiplication (bit pattern). -/
def imul (a b : ℕ) : ℕ := (a * b) % U32

/-- One call of the closure returned by `createSeededRandom`, acting on the
captured `seed` state: `seed += 0x6D2B79F5` followed by the Mulberry32
mixing rounds.  Returns the new state together with the 32-bit output word. -/
def mulberryStep (state : ℕ) : ℕ × ℕ :=
  let s := (state + 0x6D2B79F5) % U32
  let t1 := imul (Nat.xor s (s >>> 15)) (s ||| 1)
  let t2 := Nat.xor t1 ((t1 + imul (Nat.xor t1 (t1 >>> 7)) (t1 ||| 61)) % U32)
  (s, Nat.xor t2 (t2 >>> 14))

/-- State of the seeded generator after `n` calls (the captured `seed`). -/
def mulberryState (seed : ℕ) : ℕ → ℕ
  | 0 => seed % U32
  | n + 1 => (mulberryStep (mulberryState seed n)).1

/-- `createSeededRandom seed`, viewed as the stream of values returned by
successive calls of the closure: call `n` (0-based) returns
`word / 2 ^ 32 ∈ [0, 1)`. -/
def createSeededRandom (seed : ℕ) : ℕ → ℚ :=
  fun n => ((mulberryStep (mulberryState seed n)).2 : ℚ) / (U32 : ℚ)

/-- A random source: the stream of values produced by successive calls of
`this.random` (either a seeded stream or ambient `Math.random` values). -/
def RandStream : Type := ℕ → ℚ

/-- `Math.random` results are in `[0, 1)`; a stream is valid when every value
is.  `createSeededRandom` streams are valid (`createSeededRandom_valid`). -/
def ValidStream (s : RandStream) : Prop := ∀ n, 0 ≤ s n ∧ s n < 1

/-- `Math.floor(r * n)` used for random list indexing, as a natural. -/
def randIndex (r : ℚ) (n : ℕ) : ℕ := (Int.toNat ⌊r * (n : ℚ)⌋)

/-! ## Grid model (`Cell` in `src/types.ts`, helpers in `src/maze-utils.ts`)

A `Cell` carries its coordinates, the four wall flags and the transient
`visited` flag, exactly as the TypeScript interface.  The grid `Cell[][]`
(indexed `grid[y][x]`) is modelled as a total map from coordinates to cells;
only indices `x < width`, `y < height` are ever read by the embedded code.
Cell identity is by grid position, and mutation of a cell object is modelled
by writing the updated cell back at its coordinates. -/

structure Walls where
  top : Bool
  right : Bool
  bottom : Bool
  left : Bool
deriving DecidableEq, Repr

structure Cell where
  x : ℕ
  y : ℕ
  walls : Walls
  visited : Bool
deriving DecidableEq, Repr

instance : Inhabited Cell := ⟨⟨0, 0, ⟨true, true, true, true⟩, false⟩⟩

/-- The grid `Cell[][]`, as a map `(x, y) ↦ cell`. -/
def GridMap : Type := ℕ → ℕ → Cell

/-- Write a cell at position `(x, y)` (mutation of `grid[y][x]`). -/
def setCell (g : GridMap) (x y : ℕ) (c : Cell) : GridMap :=
  fun x' y' => if x' = x ∧ y' = y then c else g x' y'

/-- `initializeGrid` in `src/maze-generator.ts`: every wall present, nothing
visited, coordinates stored in the cell. -/
def initializeGrid : GridMap :=
  fun x y => ⟨x, y, ⟨true, true, true, true⟩, false⟩

/-- `removeWalls(a, b)` from `src/maze-utils.ts`: the two `switch` blocks on
`dx = a.x - b.x` and `dy = a.y - b.y`, returning the updated pair of cells. -/
def removeWalls (a b : Cell) : Cell × Cell :=
  let dx : ℤ := (a.x : ℤ) - (b.x : ℤ)
  let dy : ℤ := (a.y : ℤ) - (b.y : ℤ)
  let p :=
    if dx = 1 then
      ({ a with walls := { a.walls with left := false } },
       { b with walls := { b.walls with right := false } })
    else if dx = -1 then
      ({ a with walls := { a.walls with right := false } },
       { b with walls := { b.walls with left := false } })
    else (a, b)
  let a := p.1
  let b := p.2
  if dy = 1 then
    ({ a with walls := { a.walls with top := false } },
     { b with walls := { b.walls with bottom := false } })
  else if dy = -1 then
    ({ a with walls := { a.walls with bottom := false } },
     { b with walls := { b.walls with top := false } })
  else (a, b)

/-- A call `removeWalls(a, b)` on two grid-resident cells, with the updated
objects written back at their positions (shared mutable cell references in
the TypeScript code). -/
def carve (g : GridMap) (a b : Cell) : GridMap :=
  let p := removeWalls a b
  setCell (setCell g a.x a.y p.1) b.x b.y p.2

/-- `grid[y][x].visited = true` for the cell at `(x, y)`. -/
def markVisited (g : GridMap) (x y : ℕ) : GridMap :=
  setCell g x y { g x y with visited := true }

/-- `getNeighbors(cell, grid, width, height)`: the up-to-four physically
adjacent cells, in the fixed order up, right, down, left. -/
def getNeighbors (cell : Cell) (g : GridMap) (width height : ℕ) : List Cell :=
  let dirs : List (ℤ × ℤ) := [(0, -1), (1, 0), (0, 1), (-1, 0)]
  (dirs.filterMap fun d =>
    let newX : ℤ := (cell.x : ℤ) + d.1
    let newY : ℤ := (cell.y : ℤ) + d.2
    if 0 ≤ newX ∧ newX < (width : ℤ) ∧ 0 ≤ newY ∧ newY < (height : ℤ) then
      some (g newX.toNat newY.toNat)
    else none)

/-- `getUnvisitedNeighbors(cell, grid, width, height)`. -/
def getUnvisitedNeighbors (cell : Cell) (g : GridMap) (width height : ℕ) : List Cell :=
  (getNeighbors cell g width height).filter fun n => !n.visited

/-! ## The multi-algorithm `MazeGenerator` (`src/maze-generator.ts`)

Every loop whose iteration count is not structurally bounded takes a `fuel`
parameter; on exhaustion it returns the grid carved so far (the loop body
never runs partially).  Random draws are `stream k` with the call counter
`k` threaded through. -/

/-- A grid position `(x, y)`: the identity of a cell object. -/
abbrev Pos : Type := ℕ × ℕ

/-- `list[Math.floor(r * list.length)]` selection plus the consumed draw. -/
def pickRand (s : RandStream) (k : ℕ) (l : List Cell) : Cell × ℕ :=
  (l.getD (randIndex (s k) l.length) default, k + 1)

/-- JavaScript array destructuring swap `[l[i], l[j]] = [l[j], l[i]]`. -/
def listSwap {α : Type} (l : List α) (i j : ℕ) : List α :=
  match l.get? i, l.get? j with
  | some a, some b => (l.set i b).set j a
  | _, _ => l

/-- The Fisher–Yates loop `for (let i = n-1; i > 0; i--) { j = ⌊r*(i+1)⌋; swap }`,
by recursion on the loop variable `i`. -/
def shuffleAux {α : Type} (s : RandStream) : ℕ → List α → ℕ → List α × ℕ
  | 0, l, k => (l, k)
  | i + 1, l, k => shuffleAux s i (listSwap l (i + 1) (randIndex (s k) (i + 2))) (k + 1)

/-- Shuffle a list in place with the source's Fisher–Yates loop. -/
def shuffleList {α : Type} (s : RandStream) (l : List α) (k : ℕ) : List α × ℕ :=
  shuffleAux s (l.length - 1) l k

/-- `MazeGenerationAlgorithm` from `src/types.ts` (with the two later
additions `aldous-broder` and `sidewinder` dispatched by `generate`). -/
inductive MazeGenerationAlgorithm
  | recursiveBacktracker
  | recursiveBacktrackerBiased
  | prim
  | kruskal
  | wilson
  | growingTree
  | binaryTree
  | aldousBroder
  | sidewinder
deriving DecidableEq, Repr

inductive GrowingTreeStrategy
  | newest
  | random
  | oldest
deriving DecidableEq, Repr

inductive BinaryTreeBias
  | northWest
  | northEast
  | southWest
  | southEast
deriving DecidableEq, Repr

/-- `bias.includes('north')` etc. for the four bias strings. -/
def BinaryTreeBias.hasNorth : BinaryTreeBias → Bool
  | .northWest | .northEast => true
  | _ => false

def BinaryTreeBias.hasSouth : BinaryTreeBias → Bool
  | .southWest | .southEast => true
  | _ => false

def BinaryTreeBias.hasWest : BinaryTreeBias → Bool
  | .northWest | .southWest => true
  | _ => false

def BinaryTreeBias.hasEast : BinaryTreeBias → Bool
  | .northEast | .southEast => true
  | _ => false

/-- The optional `MazeGeneratorOptions` object handed to the constructor. -/
structure MazeGeneratorOptions where
  seed : Option ℕ := none
  growingTreeStrategy : Option GrowingTreeStrategy := none
  straightBias : Option ℚ := none
  binaryTreeBias : Option BinaryTreeBias := none

/-- The options after the constructor has spread the defaults
(`growingTreeStrategy: 'random'`, `straightBias: 0.75`,
`binaryTreeBias: 'north-west'`). -/
structure ResolvedOptions where
  seed : Option ℕ
  growingTreeStrategy : GrowingTreeStrategy
  straightBias : ℚ
  binaryTreeBias : BinaryTreeBias

/-- A successfully constructed `MazeGenerator` object. -/
structure MazeGenerator where
  width : ℕ
  height : ℕ
  algorithm : MazeGenerationAlgorithm
  options : ResolvedOptions
  random : RandStream

/-- The `MazeGenerator` constructor.  `width`/`height` are JavaScript
numbers that may be non-positive, hence `ℤ`.  `ambient` stands for the
built-in `Math.random` stream used when no seed is supplied. -/
def MazeGenerator.make (width height : ℤ) (algorithm : MazeGenerationAlgorithm)
    (opts : MazeGeneratorOptions) (ambient : RandStream) : Except String MazeGenerator :=
  if width ≤ 0 ∨ height ≤ 0 then
    .error "Width and height must be greater than 0."
  else
    let resolved : ResolvedOptions :=
      { seed := opts.seed
        growingTreeStrategy := opts.growingTreeStrategy.getD .random
        straightBias := opts.straightBias.getD (3 / 4)
        binaryTreeBias := opts.binaryTreeBias.getD .northWest }
    if resolved.straightBias < 0 ∨ resolved.straightBias > 1 then
      .error "straightBias option must be between 0.0 and 1.0."
    else
      .ok { width := width.toNat
            height := height.toNat
            algorithm := algorithm
            options := resolved
            random := match opts.seed with
              | some s => createSeededRandom s
              | none => ambient }

/-- The next-cell choice of the backtracker loop: in the biased variant,
look for the neighbor continuing the previous move and keep straight with
probability `bias`, otherwise (and in the plain variant) pick a uniformly
random unvisited neighbor.  Returns the chosen cell and the advanced draw
counter. -/
def rbChooseNext (biased : Bool) (bias : ℚ) (s : RandStream) (k : ℕ)
    (neighbors : List Cell) (current : Cell) (prev : Option Pos) : Cell × ℕ :=
  if biased then
    let straight : Option Cell :=
      match prev with
      | some prev =>
        neighbors.find? fun n =>
          (n.x : ℤ) - (current.x : ℤ) = (current.x : ℤ) - (prev.1 : ℤ) ∧
          (n.y : ℤ) - (current.y : ℤ) = (current.y : ℤ) - (prev.2 : ℤ)
      | none => none
    match straight with
    | some sn => if s k < bias then (sn, k + 1) else pickRand s (k + 1) neighbors
    | none => pickRand s k neighbors
  else pickRand s k neighbors

/-- Loop body of `generateWithRecursiveBacktracker` (plain and biased),
recursing on the explicit stack (head = top of stack). -/
def rbLoop (w h : ℕ) (biased : Bool) (bias : ℚ) (s : RandStream) :
    ℕ → GridMap → List Pos → ℕ → GridMap
  | 0, g, _, _ => g
  | fuel + 1, g, stack, k =>
    match stack with
    | [] => g
    | top :: rest =>
      let current := g top.1 top.2
      let neighbors := getUnvisitedNeighbors current g w h
      if neighbors.isEmpty then
        rbLoop w h biased bias s fuel g rest k
      else
        let chosen := rbChooseNext biased bias s k neighbors current rest.head?
        let next := chosen.1
        let g' := carve g current next
        let g'' := markVisited g' next.x next.y
        rbLoop w h biased bias s fuel g'' ((next.x, next.y) :: top :: rest) chosen.2

/-- `generateWithRecursiveBacktracker`: start from `(0, 0)`, marked visited. -/
def generateWithRecursiveBacktracker (w h : ℕ) (biased : Bool) (bias : ℚ)
    (s : RandStream) (fuel : ℕ) : GridMap :=
  rbLoop w h biased bias s fuel (markVisited initializeGrid 0 0) [(0, 0)] 0

/-- `addFrontier(cell)` in Prim's algorithm: the `(from, to)` wall entries
pushed for a newly visited cell, in source order (up, right, down, left). -/
def primFrontierOf (x y w h : ℕ) : List (Pos × Pos) :=
  (if 0 < y then [((x, y), (x, y - 1))] else []) ++
  (if x < w - 1 then [((x, y), (x + 1, y))] else []) ++
  (if y < h - 1 then [((x, y), (x, y + 1))] else []) ++
  (if 0 < x then [((x, y), (x - 1, y))] else [])

/-- Loop body of `generateWithPrim`. -/
def primLoop (w h : ℕ) (s : RandStream) :
    ℕ → GridMap → List (Pos × Pos) → ℕ → GridMap
  | 0, g, _, _ => g
  | fuel + 1, g, frontier, k =>
    match frontier with
    | [] => g
    | _ :: _ =>
      let i := randIndex (s k) frontier.length
      let entry := frontier.getD i (default, default)
      let frontier' := frontier.eraseIdx i
      let toPos := entry.2
      if (g toPos.1 toPos.2).visited then
        primLoop w h s fuel g frontier' (k + 1)
      else
        let fromPos := entry.1
        let g' := carve g (g fromPos.1 fromPos.2) (g toPos.1 toPos.2)
        let g'' := markVisited g' toPos.1 toPos.2
        primLoop w h s fuel g'' (frontier' ++ primFrontierOf toPos.1 toPos.2 w h) (k + 1)

/-- `generateWithPrim`: random start cell
`grid[⌊r₀·height⌋][⌊r₁·width⌋]`, then the frontier loop. -/
def generateWithPrim (w h : ℕ) (s : RandStream) (fuel : ℕ) : GridMap :=
  let y0 := randIndex (s 0) h
  let x0 := randIndex (s 1) w
  primLoop w h s fuel (markVisited initializeGrid x0 y0) (primFrontierOf x0 y0 w h) 2

/-- The internal-wall list of Kruskal's algorithm, in source order:
row-major over cells, vertical wall (to the cell below) first, then
horizontal wall (to the cell to the right). -/
def kruskalWalls (w h : ℕ) : List (Pos × Pos) :=
  (List.range h).flatMap fun y =>
    (List.range w).flatMap fun x =>
      (if y < h - 1 then [((x, y), (x, y + 1))] else []) ++
      (if x < w - 1 then [((x, y), (x + 1, y))] else [])

/-- `DisjointSet.find` with path compression, fuelled (the parent forest of
a well-formed run is acyclic, so any fuel `≥ w*h` reaches the root). -/
def dsuFind (parent : Pos → Pos) (p : Pos) : ℕ → Pos × (Pos → Pos)
  | 0 => (p, parent)
  | fuel + 1 =>
    let root := parent p
    if root = p then (p, parent)
    else
      let r := dsuFind parent root fuel
      (r.1, fun q => if q = p then r.1 else r.2 q)

/-- `DisjointSet.union` (union by rank), fuelled through `find`. -/
def dsuUnion (parent : Pos → Pos) (rank : Pos → ℕ) (p q : Pos) (fuel : ℕ) :
    (Pos → Pos) × (Pos → ℕ) :=
  let f1 := dsuFind parent p fuel
  let f2 := dsuFind f1.2 q fuel
  let root1 := f1.1
  let root2 := f2.1
  let parent' := f2.2
  if root1 = root2 then (parent', rank)
  else
    let rank1 := rank root1
    let rank2 := rank root2
    if rank1 < rank2 then (fun r => if r = root1 then root2 else parent' r, rank)
    else if rank2 < rank1 then (fun r => if r = root2 then root1 else parent' r, rank)
    else ((fun r => if r = root2 then root1 else parent' r),
          fun r => if r = root1 then rank1 + 1 else rank r)

/-- Loop of `generateWithKruskal` over the shuffled wall list:
`connected` (two finds, with compression), then `union` and carve. -/
def kruskalLoop (dsuFuel : ℕ) : List (Pos × Pos) → GridMap → (Pos → Pos) → (Pos → ℕ) → GridMap
  | [], g, _, _ => g
  | wall :: rest, g, parent, rank =>
    let f1 := dsuFind parent wall.1 dsuFuel
    let f2 := dsuFind f1.2 wall.2 dsuFuel
    if f1.1 = f2.1 then
      kruskalLoop dsuFuel rest g f2.2 rank
    else
      let u := dsuUnion f2.2 rank wall.1 wall.2 dsuFuel
      let g' := carve g (g wall.1.1 wall.1.2) (g wall.2.1 wall.2.2)
      kruskalLoop dsuFuel rest g' u.1 u.2

/-- `generateWithKruskal`. -/
def generateWithKruskal (w h : ℕ) (s : RandStream) : GridMap :=
  let shuffled := shuffleList s (kruskalWalls w h) 0
  kruskalLoop (w * h + 1) shuffled.1 initializeGrid (fun p => p) (fun _ => 0)

/-- The loop-erased random walk of Wilson's algorithm: walk over all
physical neighbors until a visited cell is hit, truncating at loops.
Returns `none` on fuel exhaustion (the whole generation then aborts,
returning the grid carved so far). -/
def wilsonWalk (w h : ℕ) (s : RandStream) (g : GridMap) :
    ℕ → List Pos → Pos → ℕ → Option (List Pos × ℕ)
  | 0, _, _, _ => none
  | fuel + 1, walkPath, current, k =>
    if (g current.1 current.2).visited then some (walkPath, k)
    else
      let neighbors := getNeighbors (g current.1 current.2) g w h
      let nextCell := neighbors.getD (randIndex (s k) neighbors.length) default
      let nextPos : Pos := (nextCell.x, nextCell.y)
      let walkPath' :=
        match walkPath.indexOf? nextPos with
        | some i => walkPath.take (i + 1)
        | none => walkPath ++ [nextPos]
      wilsonWalk w h s g fuel walkPath' nextPos (k + 1)

/-- Carve the finished walk into the maze: open each consecutive pair and
mark the earlier cell visited (the final cell was already in the maze). -/
def wilsonCarve (g : GridMap) : List Pos → GridMap
  | [] => g
  | [_] => g
  | p :: q :: rest =>
    wilsonCarve (markVisited (carve g (g p.1 p.2) (g q.1 q.2)) p.1 p.2) (q :: rest)

/-- Outer loop of `generateWithWilson` over the shuffled unvisited list. -/
def wilsonOuter (w h : ℕ) (s : RandStream) (walkFuel : ℕ) :
    List Pos → GridMap → ℕ → GridMap
  | [], g, _ => g
  | p :: rest, g, k =>
    if (g p.1 p.2).visited then wilsonOuter w h s walkFuel rest g k
    else
      match wilsonWalk w h s g walkFuel [p] p k with
      | none => g
      | some (path, k') => wilsonOuter w h s walkFuel rest (wilsonCarve g path) k'

/-- `generateWithWilson`. -/
def generateWithWilson (w h : ℕ) (s : RandStream) (walkFuel : ℕ) : GridMap :=
  let y0 := randIndex (s 0) h
  let x0 := randIndex (s 1) w
  let g0 := markVisited initializeGrid x0 y0
  let unvisited := ((List.range h).flatMap fun y => (List.range w).map fun x => ((x, y) : Pos)).filter
    fun p => !(g0 p.1 p.2).visited
  let shuffled := shuffleList s unvisited 2
  wilsonOuter w h s walkFuel shuffled.1 g0 shuffled.2

/-- The index selection `switch (strategy)` of the growing-tree loop,
returning the selected index and the advanced draw counter. -/
def gtSelect (strategy : GrowingTreeStrategy) (s : RandStream) (k len : ℕ) : ℕ × ℕ :=
  match strategy with
  | .newest => (len - 1, k)
  | .oldest => (0, k)
  | .random => (randIndex (s k) len, k + 1)

/-- Loop body of `generateWithGrowingTree`. -/
def gtLoop (w h : ℕ) (strategy : GrowingTreeStrategy) (s : RandStream) :
    ℕ → GridMap → List Pos → ℕ → GridMap
  | 0, g, _, _ => g
  | fuel + 1, g, active, k =>
    match active with
    | [] => g
    | _ :: _ =>
      let sel := gtSelect strategy s k active.length
      let index := sel.1
      let k' := sel.2
      let cur := active.getD index default
      let current := g cur.1 cur.2
      let neighbors := getUnvisitedNeighbors current g w h
      if neighbors.isEmpty then
        gtLoop w h strategy s fuel g (active.eraseIdx index) k'
      else
        let chosen := pickRand s k' neighbors
        let next := chosen.1
        let g' := carve g current next
        let g'' := markVisited g' next.x next.y
        gtLoop w h strategy s fuel g'' (active ++ [(next.x, next.y)]) chosen.2

/-- `generateWithGrowingTree`. -/
def generateWithGrowingTree (w h : ℕ) (strategy : GrowingTreeStrategy)
    (s : RandStream) (fuel : ℕ) : GridMap :=
  let y0 := randIndex (s 0) h
  let x0 := randIndex (s 1) w
  gtLoop w h strategy s fuel (markVisited initializeGrid x0 y0) [(x0, y0)] 2

/-- The `neighborsToCarve` candidate list of the binary-tree step: the
in-bounds neighbors in the configured bias pair, in source order
(north, south, west, east). -/
def btNeighborsToCarve (g : GridMap) (w h : ℕ) (bias : BinaryTreeBias)
    (cell : Cell) : List Cell :=
  (if bias.hasNorth ∧ 0 < cell.y then [g cell.x (cell.y - 1)] else []) ++
  (if bias.hasSouth ∧ cell.y < h - 1 then [g cell.x (cell.y + 1)] else []) ++
  (if bias.hasWest ∧ 0 < cell.x then [g (cell.x - 1) cell.y] else []) ++
  (if bias.hasEast ∧ cell.x < w - 1 then [g (cell.x + 1) cell.y] else [])

/-- Per-cell step of `generateWithBinaryTree`. -/
def btCellStep (w h : ℕ) (bias : BinaryTreeBias) (s : RandStream)
    (st : GridMap × ℕ) (x y : ℕ) : GridMap × ℕ :=
  let g := st.1
  let k := st.2
  let cell := g x y
  let neighborsToCarve := btNeighborsToCarve g w h bias cell
  if neighborsToCarve.isEmpty then (g, k)
  else
    let chosen := pickRand s k neighborsToCarve
    (carve g cell chosen.1, chosen.2)

/-- `generateWithBinaryTree`: a single row-major pass. -/
def generateWithBinaryTree (w h : ℕ) (bias : BinaryTreeBias) (s : RandStream) : GridMap :=
  ((List.range h).foldl
    (fun st y => (List.range w).foldl (fun st x => btCellStep w h bias s st x y) st)
    (initializeGrid, 0)).1

/-- Loop body of `generateWithAldousBroder`. -/
def abLoop (w h : ℕ) (s : RandStream) :
    ℕ → GridMap → Pos → ℕ → ℕ → GridMap
  | 0, g, _, _, _ => g
  | fuel + 1, g, cur, count, k =>
    if count = 0 then g
    else
      let neighbors := getNeighbors (g cur.1 cur.2) g w h
      let nextCell := neighbors.getD (randIndex (s k) neighbors.length) default
      let nextPos : Pos := (nextCell.x, nextCell.y)
      if nextCell.visited then
        abLoop w h s fuel g nextPos count (k + 1)
      else
        let g' := carve g (g cur.1 cur.2) nextCell
        let g'' := markVisited g' nextPos.1 nextPos.2
        abLoop w h s fuel g'' nextPos (count - 1) (k + 1)

/-- `generateWithAldousBroder`. -/
def generateWithAldousBroder (w h : ℕ) (s : RandStream) (fuel : ℕ) : GridMap :=
  let y0 := randIndex (s 0) h
  let x0 := randIndex (s 1) w
  abLoop w h s fuel (markVisited initializeGrid x0 y0) (x0, y0) (w * h - 1) 2

/-- Per-cell step of `generateWithSidewinder`: the state is
`(grid, rng counter, current run)`. -/
def swCellStep (w : ℕ) (s : RandStream) (y : ℕ)
    (st : GridMap × ℕ × List Pos) (x : ℕ) : GridMap × ℕ × List Pos :=
  let g := st.1
  let k := st.2.1
  let run' := st.2.2 ++ [((x, y) : Pos)]
  let atEastBoundary := x = w - 1
  let atNorthBoundary := y = 0
  -- `atEastBoundary || (!atNorthBoundary && random() < 0.5)` with JavaScript
  -- short-circuiting: the coin is drawn only when not at either boundary case.
  let dec : Bool × ℕ :=
    if atEastBoundary then (true, k)
    else if atNorthBoundary then (false, k)
    else (decide (s k < 1 / 2), k + 1)
  if dec.1 then
    let passage := run'.getD (randIndex (s dec.2) run'.length) default
    let k' := dec.2 + 1
    let g' :=
      if atNorthBoundary then g
      else carve g (g passage.1 passage.2) (g passage.1 (passage.2 - 1))
    (g', k', [])
  else
    (carve g (g x y) (g (x + 1) y), dec.2, run')

/-- `generateWithSidewinder`: row-major, the run reset at each row start. -/
def generateWithSidewinder (w h : ℕ) (s : RandStream) : GridMap :=
  ((List.range h).foldl
    (fun (st : GridMap × ℕ) y =>
      let r := (List.range w).foldl (swCellStep w s y) (st.1, st.2, [])
      (r.1, r.2.1))
    (initializeGrid, 0)).1

/-- `MazeGenerator.generate()`: fresh grid, then dispatch on the algorithm.
`fuel` bounds the non-structural loops (see the individual algorithms). -/
def MazeGenerator.generate (mg : MazeGenerator) (fuel : ℕ) : GridMap :=
  let w := mg.width
  let h := mg.height
  let s := mg.random
  match mg.algorithm with
  | .prim => generateWithPrim w h s fuel
  | .kruskal => generateWithKruskal w h s
  | .wilson => generateWithWilson w h s fuel
  | .growingTree => generateWithGrowingTree w h mg.options.growingTreeStrategy s fuel
  | .binaryTree => generateWithBinaryTree w h mg.options.binaryTreeBias s
  | .aldousBroder => generateWithAldousBroder w h s fuel
  | .sidewinder => generateWithSidewinder w h s
  | .recursiveBacktracker => generateWithRecursiveBacktracker w h false mg.options.straightBias s fuel
  | .recursiveBacktrackerBiased => generateWithRecursiveBacktracker w h true mg.options.straightBias s fuel

/-! ## The legacy single-algorithm generator (`src/maze.ts`)

Its DFS loop is the unbiased recursive-backtracker loop (same neighbor
order, same draws), so it is shared with `rbLoop`; unlike
`maze-generator.ts`, its `generate()` finishes by carving the entrance
(`grid[0][0].walls.top = false`) and the exit
(`grid[height-1][width-1].walls.bottom = false`). -/

def mazeTsGenerate (w h : ℕ) (s : RandStream) (fuel : ℕ) : GridMap :=
  let g := rbLoop w h false 0 s fuel (markVisited initializeGrid 0 0) [(0, 0)] 0
  let g1 := setCell g 0 0 { g 0 0 with walls := { (g 0 0).walls with top := false } }
  setCell g1 (w - 1) (h - 1)
    { g1 (w - 1) (h - 1) with walls := { (g1 (w - 1) (h - 1)).walls with bottom := false } }

/-! ## The binary min-heap (`src/data-structures/priority-queue.ts`)

The heap array holds `{ item, priority }` nodes, modelled as pairs; lower
priority is extracted first. -/

section PriorityQueue

variable {α : Type} {P : Type} [LinearOrder P]

/-- `this.heap[i].priority < this.heap[j].priority` (both indices valid in
every use by the source). -/
def nodeLt (l : List (α × P)) (i j : ℕ) : Bool :=
  match l.get? i, l.get? j with
  | some a, some b => decide (a.2 < b.2)
  | _, _ => false

/-- `siftUp(i)`: bubble the node at `i` up while it beats its parent. -/
def siftUp (l : List (α × P)) (i : ℕ) : List (α × P) :=
  if h : 0 < i ∧ nodeLt l i ((i - 1) / 2) then
    siftUp (listSwap l i ((i - 1) / 2)) ((i - 1) / 2)
  else l
termination_by i
decreasing_by
  obtain ⟨h1, -⟩ := h
  omega

/-- The `minIndex` reached by the two child comparisons of `siftDown(i)`. -/
def sdTarget (l : List (α × P)) (i : ℕ) : ℕ :=
  let m1 := if 2 * i + 1 < l.length ∧ nodeLt l (2 * i + 1) i then 2 * i + 1 else i
  if 2 * i + 2 < l.length ∧ nodeLt l (2 * i + 2) m1 then 2 * i + 2 else m1

/-- `siftDown(i)`: push the node at `i` down toward the smaller child. -/
def siftDown (l : List (α × P)) (i : ℕ) : List (α × P) :=
  if h : i ≠ sdTarget l i then siftDown (listSwap l i (sdTarget l i)) (sdTarget l i) else l
termination_by l.length - i
decreasing_by
  have hlen : (listSwap l i (sdTarget l i)).length = l.length := by
    unfold listSwap
    cases l.get? i <;> cases l.get? (sdTarget l i) <;> simp
  have hrange : sdTarget l i = i ∨ (i < sdTarget l i ∧ sdTarget l i < l.length) := by
    unfold sdTarget
    by_cases h1 : 2 * i + 1 < l.length ∧ nodeLt l (2 * i + 1) i = true
    · simp only [if_pos h1]
      by_cases h2 : 2 * i + 2 < l.length ∧ nodeLt l (2 * i + 2) (2 * i + 1) = true
      · simp only [if_pos h2]; right; exact ⟨by omega, h2.1⟩
      · simp only [if_neg h2]; right; exact ⟨by omega, h1.1⟩
    · simp only [if_neg h1]
      by_cases h3 : 2 * i + 2 < l.length ∧ nodeLt l (2 * i + 2) i = true
      · simp only [if_pos h3]; right; exact ⟨by omega, h3.1⟩
      · simp only [if_neg h3]; left; trivial
  rw [hlen]
  rcases hrange with heq | ⟨hlt, hsize⟩
  · exact absurd heq.symm h
  · omega

/-- `PriorityQueue.insert(item, priority)`. -/
def pqInsert (l : List (α × P)) (item : α) (priority : P) : List (α × P) :=
  siftUp (l ++ [(item, priority)]) ((l ++ [(item, priority)]).length - 1)

/-- `PriorityQueue.extractMin()`: `null` on the empty queue, else swap the
root with the last slot, pop it, and restore the heap; returns the item
together with the remaining heap. -/
def pqExtractMin (l : List (α × P)) : Option α × List (α × P) :=
  match l with
  | [] => (none, [])
  | _ :: _ =>
    let l1 := listSwap l 0 (l.length - 1)
    let item := l1.getLast?.map (·.1)
    let l2 := l1.dropLast
    (item, if l2.isEmpty then l2 else siftDown l2 0)

/-- `PriorityQueue.isEmpty()`. -/
def pqIsEmpty (l : List (α × P)) : Bool := l.isEmpty

end PriorityQueue

/-! ## The `MazeSolver` (single-direction A* and bidirectional A*)

The single-direction `solve` is the earlier `MazeSolver` snapshot built on
the priority queue; `solveBidirectional` is the later snapshot's
bidirectional search (whose `solve` merely delegates to it).  `gScore`
values live in `ℕ∞` with `⊤` for the JavaScript `Infinity` default of
`gScore.get(c) ?? Infinity`; the closed `Set<Cell>` is modelled as the
list of closed positions in closure order (most recent first). -/

/-- Manhattan-distance heuristic. -/
def heuristic (a b : Pos) : ℕ :=
  ((a.1 : ℤ) - (b.1 : ℤ)).natAbs + ((a.2 : ℤ) - (b.2 : ℤ)).natAbs

/-- The traversable neighbors of the cell at `p`: physical neighbors behind
an open wall of `p`'s cell, in source order (top, right, bottom, left). -/
def traversableNeighbors (grid : GridMap) (w h : ℕ) (p : Pos) : List Pos :=
  let c := grid p.1 p.2
  (if !c.walls.top ∧ 0 < p.2 then [(p.1, p.2 - 1)] else []) ++
  (if !c.walls.right ∧ p.1 < w - 1 then [(p.1 + 1, p.2)] else []) ++
  (if !c.walls.bottom ∧ p.2 < h - 1 then [(p.1, p.2 + 1)] else []) ++
  (if !c.walls.left ∧ 0 < p.1 then [(p.1 - 1, p.2)] else [])

/-- State of one A* search direction. -/
structure SearchState where
  openHeap : List (Pos × ℕ∞)
  closed : List Pos
  cameFrom : Pos → Option Pos
  gScore : Pos → ℕ∞

/-- The body of the `for (neighbor of traversableNeighbors)` relaxation. -/
def relaxStep (goal cur : Pos) (st : SearchState) (nb : Pos) : SearchState :=
  let tentative := st.gScore cur + 1
  if tentative < st.gScore nb then
    { st with
      cameFrom := fun p => if p = nb then some cur else st.cameFrom p
      gScore := fun p => if p = nb then tentative else st.gScore p
      openHeap := pqInsert st.openHeap nb (tentative + (heuristic nb goal : ℕ∞)) }
  else st

/-- Expand all traversable neighbors of `cur` toward `goal`
(`_expandNeighbors` in the bidirectional snapshot; the inlined loop of the
single-direction `solve`). -/
def expandNeighbors (grid : GridMap) (w h : ℕ) (cur goal : Pos) (st : SearchState) :
    SearchState :=
  (traversableNeighbors grid w h cur).foldl (relaxStep goal cur) st

/-- Walk `cameFrom` back from `cur` and return the chain root-first
(`path.unshift` loop).  `fuel` exceeds every chain arising in a run. -/
def reconstructPath (came : Pos → Option Pos) : ℕ → Pos → List Pos
  | 0, cur => [cur]
  | fuel + 1, cur =>
    match came cur with
    | none => [cur]
    | some prev => reconstructPath came fuel prev ++ [cur]

/-- Main loop of the single-direction `solve`. -/
def solveLoop (grid : GridMap) (w h : ℕ) (endP : Pos) : ℕ → SearchState → List Pos
  | 0, _ => []
  | fuel + 1, st =>
    match pqExtractMin st.openHeap with
    | (none, _) => []
    | (some cur, rest) =>
      let st1 := { st with openHeap := rest }
      if cur ∈ st1.closed then solveLoop grid w h endP fuel st1
      else
        let st2 := { st1 with closed := cur :: st1.closed }
        if cur = endP then reconstructPath st2.cameFrom (w * h + 1) endP
        else solveLoop grid w h endP fuel (expandNeighbors grid w h cur endP st2)

/-- `MazeSolver.solve(start, end)` (single-direction A*), with `fuel`
bounding the loop; `solve` supplies fuel that provably suffices. -/
def solve (grid : GridMap) (w h : ℕ) (start endP : Pos) : List Pos :=
  let st0 : SearchState :=
    { openHeap := pqInsert [] start ((heuristic start endP : ℕ∞))
      closed := []
      cameFrom := fun _ => none
      gScore := fun p => if p = start then 0 else ⊤ }
  solveLoop grid w h endP (4 * (w * h) + 2) st0

/-- Main loop of `solveBidirectional`; the state is the forward and the
backward `SearchState`. -/
def bidirLoop (grid : GridMap) (w h : ℕ) (start endP : Pos) :
    ℕ → SearchState → SearchState → List Pos
  | 0, _, _ => []
  | fuel + 1, stF, stB =>
    if stF.openHeap.isEmpty ∨ stB.openHeap.isEmpty then []
    else
      match pqExtractMin stF.openHeap with
      | (none, _) => []
      | (some curF, restF) =>
        let stF1 := { stF with openHeap := restF }
        if curF ∈ stF1.closed then bidirLoop grid w h start endP fuel stF1 stB
        else
          let stF2 := { stF1 with closed := curF :: stF1.closed }
          if curF ∈ stB.closed then
            let pathForward := reconstructPath stF2.cameFrom (w * h + 1) curF
            let pathBackward := reconstructPath stB.cameFrom (w * h + 1) curF
            pathForward ++ pathBackward.reverse.drop 1
          else
            let stF3 := expandNeighbors grid w h curF endP stF2
            match pqExtractMin stB.openHeap with
            | (none, _) => []
            | (some curB, restB) =>
              let stB1 := { stB with openHeap := restB }
              if curB ∈ stB1.closed then bidirLoop grid w h start endP fuel stF3 stB1
              else
                let stB2 := { stB1 with closed := curB :: stB1.closed }
                if curB ∈ stF3.closed then
                  let pathForward := reconstructPath stF3.cameFrom (w * h + 1) curB
                  let pathBackward := reconstructPath stB2.cameFrom (w * h + 1) curB
                  pathForward ++ pathBackward.reverse.drop 1
                else
                  bidirLoop grid w h start endP fuel stF3
                    (expandNeighbors grid w h curB start stB2)

/-- `MazeSolver.solveBidirectional(start, end)`: the `start === end`
short-circuit, then the alternating two-sided search. -/
def solveBidirectional (grid : GridMap) (w h : ℕ) (start endP : Pos) : List Pos :=
  if start = endP then [start]
  else
    let stF0 : SearchState :=
      { openHeap := pqInsert [] start ((heuristic start endP : ℕ∞))
        closed := []
        cameFrom := fun _ => none
        gScore := fun p => if p = start then 0 else ⊤ }
    let stB0 : SearchState :=
      { openHeap := pqInsert [] endP ((heuristic endP start : ℕ∞))
        closed := []
        cameFrom := fun _ => none
        gScore := fun p => if p = endP then 0 else ⊤ }
    bidirLoop grid w h start endP (8 * (w * h) + 4) stF0 stB0



/-! ## Grid well-formedness and wall invariants

Predicates used by the invariant claims: cells carry their own position,
wall flags agree across every shared boundary, and the outer boundary walls
of the grid are present. -/

/-- Every cell of the map stores its own coordinates.  This holds for
`initializeGrid` and is preserved by every embedded operation; it is what
makes position a faithful stand-in for object identity. -/
def WFCells (g : GridMap) : Prop := ∀ x y, (g x y).x = x ∧ (g x y).y = y

/-- Wall symmetry: the two flags guarding each shared boundary of
horizontally or vertically adjacent cells agree. -/
def SymmetricWalls (g : GridMap) (w h : ℕ) : Prop :=
  (∀ x y, x + 1 < w → y < h → (g x y).walls.right = (g (x + 1) y).walls.left) ∧
  (∀ x y, x < w → y + 1 < h → (g x y).walls.bottom = (g x (y + 1)).walls.top)

/-- All outer boundary walls are present: top walls of row `0`, bottom walls
of row `h-1`, left walls of column `0`, right walls of column `w-1`. -/
def BoundaryIntact (g : GridMap) (w h : ℕ) : Prop :=
  (∀ x, x < w → (g x 0).walls.top = true) ∧
  (∀ x, x < w → (g x (h - 1)).walls.bottom = true) ∧
  (∀ y, y < h → (g 0 y).walls.left = true) ∧
  (∀ y, y < h → (g (w - 1) y).walls.right = true)

/-- The bundled invariant threaded through every generation algorithm. -/
def GridInv (g : GridMap) (w h : ℕ) : Prop :=
  WFCells g ∧ SymmetricWalls g w h ∧ BoundaryIntact g w h

/-- Grid adjacency of two positions (Manhattan distance `1`). -/
def AdjacentPos (p q : Pos) : Prop :=
  (p.1 = q.1 ∧ (p.2 = q.2 + 1 ∨ q.2 = p.2 + 1)) ∨
  (p.2 = q.2 ∧ (p.1 = q.1 + 1 ∨ q.1 = p.1 + 1))

/-- `p` is a position inside the `w × h` grid. -/
def InBounds (p : Pos) (w h : ℕ) : Prop := p.1 < w ∧ p.2 < h

/-! ## Priority-queue invariants and the drain of a heap -/

/-- The binary-heap invariant: every non-root node's priority is at least
its parent's priority (indices in the array layout `parent j = (j-1)/2`). -/
def IsHeap {α P : Type} [LinearOrder P] (l : List (α × P)) : Prop :=
  ∀ j x y, 0 < j → l.get? j = some x → l.get? ((j - 1) / 2) = some y → y.2 ≤ x.2

/-- The invariant threaded through `siftDown i`: every parent-child edge
holds except possibly the two edges from `i` to its children, and (when `i`
is not the root) `i`'s parent is already at most `i`'s children. -/
def HeapExceptDown {α P : Type} [LinearOrder P] (l : List (α × P)) (i : ℕ) : Prop :=
  (∀ j x y, 0 < j → j ≠ 2 * i + 1 → j ≠ 2 * i + 2 →
    l.get? j = some x → l.get? ((j - 1) / 2) = some y → y.2 ≤ x.2) ∧
  (∀ j x y, 0 < i → (j = 2 * i + 1 ∨ j = 2 * i + 2) →
    l.get? j = some x → l.get? ((i - 1) / 2) = some y → y.2 ≤ x.2)

/-- The invariant threaded through `siftUp i`: every parent-child edge
holds except possibly the edge from `i`'s parent to `i`, and (when `i` is
not the root) `i`'s parent is already at most `i`'s children. -/
def HeapExceptUp {α P : Type} [LinearOrder P] (l : List (α × P)) (i : ℕ) : Prop :=
  (∀ j x y, 0 < j → j ≠ i →
    l.get? j = some x → l.get? ((j - 1) / 2) = some y → y.2 ≤ x.2) ∧
  (∀ j x y, 0 < i → (j = 2 * i + 1 ∨ j = 2 * i + 2) →
    l.get? j = some x → l.get? ((i - 1) / 2) = some y → y.2 ≤ x.2)

/-- Repeated `extractMin` until the heap is empty, collecting the popped
root nodes in order; `fuel` bounds the number of pops. -/
def pqDrainAux {α P : Type} [LinearOrder P] : ℕ → List (α × P) → List (α × P)
  | 0, _ => []
  | fuel + 1, l =>
    match l with
    | [] => []
    | x :: _ => x :: pqDrainAux fuel (pqExtractMin l).2

/-- Drain the whole heap (the heap shrinks by one node per pop, so
`l.length` pops suffice). -/
def pqDrain {α P : Type} [LinearOrder P] (l : List (α × P)) : List (α × P) :=
  pqDrainAux l.length l

/-- Build a heap by inserting a list of `(item, priority)` pairs in order
into the empty queue. -/
def pqInsertAll {α P : Type} [LinearOrder P] (xs : List (α × P)) : List (α × P) :=
  xs.foldl (fun l ab => pqInsert l ab.1 ab.2) []

/-! ## Invariants of the single-direction A* solver and the bidirectional meeting argument (claims C5 and C3) -/

def stepRel (grid : GridMap) (w h : ℕ) (p q : Pos) : Prop :=
  q ∈ traversableNeighbors grid w h p

structure SolveInvCore (grid : GridMap) (w h : ℕ) (start endP : Pos)
    (st : SearchState) : Prop where
  gstart : st.gScore start = 0
  cstart : st.cameFrom start = none
  came_step : ∀ p q, st.cameFrom p = some q →
    p ∈ traversableNeighbors grid w h q ∧ st.gScore q < st.gScore p ∧ st.gScore p ≠ ⊤
  came_ex : ∀ p, p ≠ start → st.gScore p ≠ ⊤ → (st.cameFrom p).isSome = true
  reach_in : ∀ p, st.gScore p ≠ ⊤ → InBounds p w h
  heap_reached : ∀ e ∈ st.openHeap, st.gScore e.1 ≠ ⊤
  closed_nodup : st.closed.Nodup
  closed_reached : ∀ p ∈ st.closed, st.gScore p ≠ ⊤
  reached_loc : ∀ p, st.gScore p ≠ ⊤ → p ∈ st.closed ∨ ∃ pr, (p, pr) ∈ st.openHeap
  g_bound : ∀ p, st.gScore p ≠ ⊤ → st.gScore p ≤ (st.closed.length : ℕ∞)
  came_closed : ∀ p q, st.cameFrom p = some q → q ∈ st.closed
  end_open : endP ∉ st.closed

def ExpAll (grid : GridMap) (w h : ℕ) (st : SearchState) : Prop :=
  ∀ p ∈ st.closed, ∀ nb ∈ traversableNeighbors grid w h p, st.gScore nb ≠ ⊤

def solvePhi (w h : ℕ) (st : SearchState) : ℕ :=
  st.openHeap.length + 4 * (w * h - st.closed.length)

def SimplePath (grid : GridMap) (w h : ℕ) (l : List Pos) (a b : Pos) : Prop :=
  List.Chain' (stepRel grid w h) l ∧ l.head? = some a ∧ l.getLast? = some b ∧ l.Nodup

def PerfectMaze (grid : GridMap) (w h : ℕ) : Prop :=
  (∀ p q, InBounds p w h → stepRel grid w h p q → stepRel grid w h q p) ∧
  (∀ a b, InBounds a w h → InBounds b w h →
    ∃! l : List Pos, SimplePath grid w h l a b)

/-! ## C5 lemmas -/

/-! # Theorems

Everything below is a statement about the definitions above; no further
definitions are introduced except where a claim explicitly requires a
spec-side counterpart. -/

theorem mulberryStep_out_lt (state : ℕ) : (mulberryStep state).2 < U32 := by
  have hU : 0 < U32 := by decide
  have hU32 : U32 = 2 ^ 32 := by decide
  have hshift : ∀ a k : ℕ, a >>> k ≤ a := fun a k => by
    rw [Nat.shiftRight_eq_div_pow]; exact Nat.div_le_self _ _
  unfold mulberryStep imul
  simp only
  have ht1 : (Nat.xor ((state + 0x6D2B79F5) % U32) (((state + 0x6D2B79F5) % U32) >>> 15) *
      ((state + 0x6D2B79F5) % U32 ||| 1)) % U32 < 2 ^ 32 := hU32 ▸ Nat.mod_lt _ hU
  set t1 := (Nat.xor ((state + 0x6D2B79F5) % U32) (((state + 0x6D2B79F5) % U32) >>> 15) *
      ((state + 0x6D2B79F5) % U32 ||| 1)) % U32 with ht1def
  have ht2 : Nat.xor t1 ((t1 + (Nat.xor t1 (t1 >>> 7) * (t1 ||| 61)) % U32) % U32) < 2 ^ 32 :=
    Nat.xor_lt_two_pow ht1 (hU32 ▸ Nat.mod_lt _ hU)
  set t2 := Nat.xor t1 ((t1 + (Nat.xor t1 (t1 >>> 7) * (t1 ||| 61)) % U32) % U32) with ht2def
  exact hU32 ▸ Nat.xor_lt_two_pow ht2 (Nat.lt_of_le_of_lt (hshift t2 14) ht2)

theorem createSeededRandom_valid (seed : ℕ) : ValidStream (createSeededRandom seed) := by
  intro n
  unfold createSeededRandom
  constructor
  · positivity
  · rw [div_lt_one (by norm_num [U32])]
    exact_mod_cast mulberryStep_out_lt (mulberryState seed n)

theorem randIndex_lt {r : ℚ} (h0 : 0 ≤ r) (h1 : r < 1) {n : ℕ} (hn : 0 < n) :
    randIndex r n < n := by
  unfold randIndex
  have hfloor : ⌊r * (n : ℚ)⌋ < (n : ℤ) := by
    apply Int.floor_lt.2
    push_cast
    exact mul_lt_of_lt_one_left (by exact_mod_cast hn) h1
  omega

theorem listSwap_length {β : Type} (l : List β) (i j : ℕ) :
    (listSwap l i j).length = l.length := by
  unfold listSwap
  cases l.get? i <;> cases l.get? j <;> simp

section PriorityQueueLemmas

variable {α : Type} {P : Type} [LinearOrder P]

theorem sdTarget_range (l : List (α × P)) (i : ℕ) :
    sdTarget l i = i ∨ (i < sdTarget l i ∧ sdTarget l i < l.length) := by
  unfold sdTarget
  by_cases h1 : 2 * i + 1 < l.length ∧ nodeLt l (2 * i + 1) i = true
  · simp only [if_pos h1]
    by_cases h2 : 2 * i + 2 < l.length ∧ nodeLt l (2 * i + 2) (2 * i + 1) = true
    · simp only [if_pos h2]; right; exact ⟨by omega, h2.1⟩
    · simp only [if_neg h2]; right; exact ⟨by omega, h1.1⟩
  · simp only [if_neg h1]
    by_cases h3 : 2 * i + 2 < l.length ∧ nodeLt l (2 * i + 2) i = true
    · simp only [if_pos h3]; right; exact ⟨by omega, h3.1⟩
    · simp only [if_neg h3]; left; trivial


end PriorityQueueLemmas

/-! ### The heap laws behind claim C6 -/

section HeapLaws

variable {α : Type} {P : Type} [LinearOrder P]

theorem listSwap_len {l : List α} {i j : ℕ} : (listSwap l i j).length = l.length := by
  unfold listSwap
  cases l.get? i <;> cases l.get? j <;> simp

theorem set_cons_perm : ∀ (l : List α) (i : ℕ) (a b : α),
    l.get? i = some a → List.Perm (a :: l.set i b) (b :: l)
  | [], i, a, b, h => by simp at h
  | c :: t, 0, a, b, h => by
    simp only [List.get?] at h
    injection h with h
    subst h
    simpa using List.Perm.swap b c t
  | c :: t, i + 1, a, b, h => by
    simp only [List.get?] at h
    have ih := set_cons_perm t i a b h
    have step : (c :: t).set (i + 1) b = c :: t.set i b := by simp [List.set]
    rw [step]
    exact ((List.Perm.swap c a _).trans (List.Perm.cons c ih)).trans (List.Perm.swap b c t)

theorem listSwap_perm (l : List α) (i j : ℕ) : List.Perm (listSwap l i j) l := by
  unfold listSwap
  rcases hi : l.get? i with _ | a
  · exact List.Perm.refl l
  · rcases hj : l.get? j with _ | b
    · exact List.Perm.refl l
    · dsimp only
      by_cases hij : i = j
      · subst hij
        rw [hi] at hj
        injection hj with hj
        subst hj
        rw [List.set_set]
        exact List.Perm.cons_inv (set_cons_perm l i a a hi)
      · have h1 : (l.set i b).get? j = some b := by
          rw [List.get?_set_ne _ _ hij]
          exact hj
        have h2 := set_cons_perm (l.set i b) j b a h1
        have h3 := set_cons_perm l i a b hi
        exact List.Perm.cons_inv (h2.trans h3)

theorem listSwap_get_left {l : List α} {i j : ℕ} {a b : α}
    (hi : l.get? i = some a) (hj : l.get? j = some b) :
    (listSwap l i j).get? i = some b := by
  unfold listSwap
  rw [hi, hj]
  dsimp only
  by_cases hij : i = j
  · subst hij
    rw [List.set_set]
    rw [hi] at hj
    injection hj with hj
    subst hj
    rw [List.get?_set_eq]
    rw [hi]
    rfl
  · rw [List.get?_set_ne _ _ (fun hc => hij hc.symm), List.get?_set_eq, hi]
    rfl

theorem listSwap_get_right {l : List α} {i j : ℕ} {a b : α}
    (hi : l.get? i = some a) (hj : l.get? j = some b) :
    (listSwap l i j).get? j = some a := by
  unfold listSwap
  rw [hi, hj]
  dsimp only
  rw [List.get?_set_eq]
  have hsb : (l.set i b).get? j = some b := by
    by_cases hij : i = j
    · subst hij; rw [List.get?_set_eq, hi]; rfl
    · rw [List.get?_set_ne _ _ hij]; exact hj
  rw [hsb]
  rfl

theorem listSwap_get_other {l : List α} {i j k : ℕ}
    (hki : k ≠ i) (hkj : k ≠ j) :
    (listSwap l i j).get? k = l.get? k := by
  unfold listSwap
  cases hi : l.get? i <;> cases hj : l.get? j
  · rfl
  · rfl
  · rfl
  · dsimp only
    rw [List.get?_set_ne _ _ (fun hc => hkj hc.symm),
      List.get?_set_ne _ _ (fun hc => hki hc.symm)]

theorem nodeLt_eq_true {l : List (α × P)} {a b : ℕ} (h : nodeLt l a b = true) :
    ∃ pa pb, l.get? a = some pa ∧ l.get? b = some pb ∧ pa.2 < pb.2 := by
  unfold nodeLt at h
  rcases ha : l.get? a with _ | pa <;> rw [ha] at h
  · simp at h
  · rcases hb : l.get? b with _ | pb <;> rw [hb] at h
    · simp at h
    · exact ⟨pa, pb, rfl, rfl, by simpa using h⟩

theorem nodeLt_eq_false {l : List (α × P)} {a b : ℕ} (h : ¬ nodeLt l a b = true)
    {pa pb : α × P} (ha : l.get? a = some pa) (hb : l.get? b = some pb) :
    pb.2 ≤ pa.2 := by
  unfold nodeLt at h
  rw [ha, hb] at h
  simp only [decide_eq_true_eq] at h
  exact not_lt.mp h

theorem sdTarget_ne_spec {l : List (α × P)} {i : ℕ} (h : sdTarget l i ≠ i) :
    (sdTarget l i = 2 * i + 1 ∨ sdTarget l i = 2 * i + 2) ∧
    ∃ ci ct, l.get? i = some ci ∧ l.get? (sdTarget l i) = some ct ∧ ct.2 < ci.2 ∧
      ∀ c x, (c = 2 * i + 1 ∨ c = 2 * i + 2) → l.get? c = some x → ct.2 ≤ x.2 := by
  unfold sdTarget at h ⊢
  dsimp only at h ⊢
  by_cases h1 : 2 * i + 1 < l.length ∧ nodeLt l (2 * i + 1) i = true
  · simp only [if_pos h1] at h ⊢
    obtain ⟨c1, ci, hc1, hci, hlt1⟩ := nodeLt_eq_true h1.2
    by_cases h2 : 2 * i + 2 < l.length ∧ nodeLt l (2 * i + 2) (2 * i + 1) = true
    · simp only [if_pos h2] at h ⊢
      obtain ⟨c2, c1x, hc2, hc1x, hlt2⟩ := nodeLt_eq_true h2.2
      rw [hc1] at hc1x
      injection hc1x with hc1x
      subst hc1x
      refine ⟨Or.inr trivial, ci, c2, hci, hc2, hlt2.trans hlt1, ?_⟩
      rintro c x (rfl | rfl) hx
      · rw [hc1] at hx; injection hx with hx; subst hx; exact hlt2.le
      · rw [hc2] at hx; injection hx with hx; subst hx; exact le_refl _
    · simp only [if_neg h2] at h ⊢
      refine ⟨Or.inl trivial, ci, c1, hci, hc1, hlt1, ?_⟩
      rintro c x (rfl | rfl) hx
      · rw [hc1] at hx; injection hx with hx; subst hx; exact le_refl _
      · have hclen : 2 * i + 2 < l.length := by
          rcases List.get?_eq_some.mp hx with ⟨hl, -⟩
          exact hl
        have hnlt : ¬ nodeLt l (2 * i + 2) (2 * i + 1) = true := fun hc => h2 ⟨hclen, hc⟩
        exact nodeLt_eq_false hnlt hx hc1
  · simp only [if_neg h1] at h ⊢
    by_cases h2 : 2 * i + 2 < l.length ∧ nodeLt l (2 * i + 2) i = true
    · simp only [if_pos h2] at h ⊢
      obtain ⟨c2, ci, hc2, hci, hlt2⟩ := nodeLt_eq_true h2.2
      refine ⟨Or.inr trivial, ci, c2, hci, hc2, hlt2, ?_⟩
      rintro c x (rfl | rfl) hx
      · have hclen : 2 * i + 1 < l.length := by
          rcases List.get?_eq_some.mp hx with ⟨hl, -⟩
          exact hl
        have hnlt : ¬ nodeLt l (2 * i + 1) i = true := fun hc => h1 ⟨hclen, hc⟩
        exact hlt2.le.trans (nodeLt_eq_false hnlt hx hci)
      · rw [hc2] at hx; injection hx with hx; subst hx; exact le_refl _
    · simp only [if_neg h2] at h
      exact absurd rfl h

theorem sdTarget_eq_spec {l : List (α × P)} {i : ℕ} (h : sdTarget l i = i) :
    ∀ c x y, (c = 2 * i + 1 ∨ c = 2 * i + 2) →
      l.get? c = some x → l.get? i = some y → y.2 ≤ x.2 := by
  unfold sdTarget at h
  dsimp only at h
  by_cases h1 : 2 * i + 1 < l.length ∧ nodeLt l (2 * i + 1) i = true
  · simp only [if_pos h1] at h
    by_cases h2 : 2 * i + 2 < l.length ∧ nodeLt l (2 * i + 2) (2 * i + 1) = true
    · rw [if_pos h2] at h; omega
    · rw [if_neg h2] at h; omega
  · simp only [if_neg h1] at h
    by_cases h2 : 2 * i + 2 < l.length ∧ nodeLt l (2 * i + 2) i = true
    · rw [if_pos h2] at h; omega
    · rintro c x y (rfl | rfl) hx hy
      · have hclen : 2 * i + 1 < l.length := by
          rcases List.get?_eq_some.mp hx with ⟨hl, -⟩
          exact hl
        exact nodeLt_eq_false (fun hc => h1 ⟨hclen, hc⟩) hx hy
      · have hclen : 2 * i + 2 < l.length := by
          rcases List.get?_eq_some.mp hx with ⟨hl, -⟩
          exact hl
        exact nodeLt_eq_false (fun hc => h2 ⟨hclen, hc⟩) hx hy

theorem siftDown_perm (l : List (α × P)) (i : ℕ) : List.Perm (siftDown l i) l := by
  induction l, i using siftDown.induct with
  | case1 l i h ih =>
    rw [siftDown, dif_pos h]
    exact ih.trans (listSwap_perm l i (sdTarget l i))
  | case2 l i h =>
    rw [siftDown, dif_neg h]

theorem siftDown_len (l : List (α × P)) (i : ℕ) :
    (siftDown l i).length = l.length :=
  (siftDown_perm l i).length_eq

theorem siftDown_isHeap : ∀ (l : List (α × P)) (i : ℕ),
    HeapExceptDown l i → IsHeap (siftDown l i) := by
  intro l i
  induction l, i using siftDown.induct with
  | case1 l i h ih =>
    intro hx
    rw [siftDown, dif_pos h]
    apply ih
    obtain ⟨htor, ci, ct, hci, hct, hlt, hmin⟩ := sdTarget_ne_spec (Ne.symm h)
    set t := sdTarget l i with htdef
    have hti : i < t := by omega
    have hpt : (t - 1) / 2 = i := by omega
    have hL1 : (listSwap l i t).get? i = some ct := listSwap_get_left hci hct
    have hL2 : (listSwap l i t).get? t = some ci := listSwap_get_right hci hct
    constructor
    · intro j x y hj hj1 hj2 hxj hyj
      by_cases hjt : j = t
      · subst hjt
        rw [hL2] at hxj
        injection hxj with hxj
        subst hxj
        rw [hpt, hL1] at hyj
        injection hyj with hyj
        subst hyj
        exact hlt.le
      · by_cases hji : j = i
        · subst hji
          have hpj_ne_i : (j - 1) / 2 ≠ j := by omega
          have hpj_ne_t : (j - 1) / 2 ≠ t := by omega
          rw [listSwap_get_other hpj_ne_i hpj_ne_t] at hyj
          rw [hL1] at hxj
          injection hxj with hxj
          exact hxj ▸ hx.2 t ct y hj htor hct hyj
        · have hpj_ne_t : (j - 1) / 2 ≠ t := by omega
          by_cases hpji : (j - 1) / 2 = i
          · have hjch : j = 2 * i + 1 ∨ j = 2 * i + 2 := by omega
            rw [listSwap_get_other hji hjt] at hxj
            rw [hpji, hL1] at hyj
            injection hyj with hyj
            subst hyj
            exact hmin j x hjch hxj
          · rw [listSwap_get_other hji hjt] at hxj
            rw [listSwap_get_other hpji hpj_ne_t] at hyj
            exact hx.1 j x y hj (by omega) (by omega) hxj hyj
    · intro j x y ht0 hjch hxj hyj
      rw [hpt, hL1] at hyj
      injection hyj with hyj
      subst hyj
      have hji : j ≠ i := by omega
      have hjt : j ≠ t := by omega
      rw [listSwap_get_other hji hjt] at hxj
      have hparent : (j - 1) / 2 = t := by omega
      have hyct : l.get? ((j - 1) / 2) = some ct := by rw [hparent]; exact hct
      exact hx.1 j x ct (by omega) (by omega) (by omega) hxj hyct
  | case2 l i h =>
    intro hx
    rw [siftDown, dif_neg h]
    intro j x y hj hxj hyj
    by_cases hjch : j = 2 * i + 1 ∨ j = 2 * i + 2
    · have hpj : (j - 1) / 2 = i := by omega
      rw [hpj] at hyj
      exact sdTarget_eq_spec (Eq.symm (not_ne_iff.mp h)) j x y hjch hxj hyj
    · exact hx.1 j x y hj (by omega) (by omega) hxj hyj

theorem siftUp_perm (l : List (α × P)) (i : ℕ) : List.Perm (siftUp l i) l := by
  induction l, i using siftUp.induct with
  | case1 l i h ih =>
    rw [siftUp, dif_pos h]
    exact ih.trans (listSwap_perm l i ((i - 1) / 2))
  | case2 l i h =>
    rw [siftUp, dif_neg h]

theorem siftUp_isHeap : ∀ (l : List (α × P)) (i : ℕ),
    HeapExceptUp l i → IsHeap (siftUp l i) := by
  intro l i
  induction l, i using siftUp.induct with
  | case1 l i h ih =>
    intro hx
    rw [siftUp, dif_pos h]
    apply ih
    obtain ⟨h0, hnlt⟩ := h
    obtain ⟨ci, cp, hci, hcp, hlt⟩ := nodeLt_eq_true hnlt
    set p := (i - 1) / 2 with hpdef
    have hpi : p < i := by omega
    have hL1 : (listSwap l i p).get? i = some cp := listSwap_get_left hci hcp
    have hL2 : (listSwap l i p).get? p = some ci := listSwap_get_right hci hcp
    constructor
    · intro j x y hj hjp hxj hyj
      by_cases hji : j = i
      · subst hji
        rw [hL1] at hxj
        injection hxj with hxj
        have hpj : (j - 1) / 2 = p := rfl
        rw [hpj, hL2] at hyj
        injection hyj with hyj
        rw [← hxj, ← hyj]
        exact hlt.le
      · by_cases hpj_i : (j - 1) / 2 = i
        · have hjch : j = 2 * i + 1 ∨ j = 2 * i + 2 := by omega
          have hjne_p : j ≠ p := by omega
          rw [listSwap_get_other hji hjne_p] at hxj
          rw [hpj_i, hL1] at hyj
          injection hyj with hyj
          have hcp2 : l.get? ((i - 1) / 2) = some cp := hcp
          exact hyj ▸ hx.2 j x cp h0 hjch hxj hcp2
        · by_cases hpj_p : (j - 1) / 2 = p
          · have hjch : j = 2 * p + 1 ∨ j = 2 * p + 2 := by omega
            have hjne_p : j ≠ p := by omega
            rw [listSwap_get_other hji hjne_p] at hxj
            rw [hpj_p, hL2] at hyj
            injection hyj with hyj
            have hedge : cp.2 ≤ x.2 := hx.1 j x cp hj hji hxj (by rw [hpj_p]; exact hcp)
            exact hyj ▸ (hlt.le.trans hedge)
          · have hjne_p : j ≠ p := hjp
            rw [listSwap_get_other hji hjne_p] at hxj
            rw [listSwap_get_other hpj_i hpj_p] at hyj
            exact hx.1 j x y hj hji hxj hyj
    · intro j x y hp0 hjch hxj hyj
      have hppne_i : (p - 1) / 2 ≠ i := by omega
      have hppne_p : (p - 1) / 2 ≠ p := by omega
      rw [listSwap_get_other hppne_i hppne_p] at hyj
      by_cases hji : j = i
      · subst hji
        rw [hL1] at hxj
        injection hxj with hxj
        have hedge : y.2 ≤ cp.2 := hx.1 p cp y hp0 (by omega) hcp hyj
        exact hxj ▸ hedge
      · have hjne_p : j ≠ p := by omega
        rw [listSwap_get_other hji hjne_p] at hxj
        have hedge1 : y.2 ≤ cp.2 := hx.1 p cp y hp0 (by omega) hcp hyj
        have hparj : (j - 1) / 2 = p := by omega
        have hedge2 : cp.2 ≤ x.2 := hx.1 j x cp (by omega) hji hxj (by rw [hparj]; exact hcp)
        exact hedge1.trans hedge2
  | case2 l i h =>
    intro hx
    rw [siftUp, dif_neg h]
    intro j x y hj hxj hyj
    by_cases hji : j = i
    · subst hji
      have hnlt : ¬ nodeLt l j ((j - 1) / 2) = true := fun hc => h ⟨hj, hc⟩
      exact nodeLt_eq_false hnlt hxj hyj
    · exact hx.1 j x y hj hji hxj hyj

theorem pqInsert_perm (l : List (α × P)) (a : α) (pr : P) :
    List.Perm (pqInsert l a pr) ((a, pr) :: l) := by
  unfold pqInsert
  exact (siftUp_perm _ _).trans (List.perm_append_singleton (a, pr) l)

theorem pqInsert_isHeap {l : List (α × P)} (hh : IsHeap l) (a : α) (pr : P) :
    IsHeap (pqInsert l a pr) := by
  unfold pqInsert
  apply siftUp_isHeap
  have hlen : (l ++ [(a, pr)]).length - 1 = l.length := by simp
  rw [hlen]
  constructor
  · intro j x y hj hjn hxj hyj
    have hjlt : j < (l ++ [(a, pr)]).length := (List.get?_eq_some.mp hxj).1
    have hjl : j < l.length := by simp at hjlt; omega
    have hpjl : (j - 1) / 2 < l.length := by omega
    rw [List.get?_append hjl] at hxj
    rw [List.get?_append hpjl] at hyj
    exact hh j x y hj hxj hyj
  · intro j x y hn0 hjch hxj hyj
    have hjlt : j < (l ++ [(a, pr)]).length := (List.get?_eq_some.mp hxj).1
    simp at hjlt
    omega

theorem isHeap_root_le {l : List (α × P)} (hh : IsHeap l) :
    ∀ j x r, l.get? j = some x → l.get? 0 = some r → r.2 ≤ x.2 := by
  intro j
  induction j using Nat.strong_induction_on with
  | _ j ih =>
    intro x r hx hr
    rcases Nat.eq_zero_or_pos j with rfl | hj
    · rw [hx] at hr
      injection hr with hr
      rw [hr]
    · have hpj : (j - 1) / 2 < j := by omega
      have hjlen : j < l.length := (List.get?_eq_some.mp hx).1
      have hplen : (j - 1) / 2 < l.length := by omega
      have hy := List.get?_eq_get hplen
      exact (ih _ hpj _ r hy hr).trans (hh j x _ hj hx hy)

theorem pqExtractMin_cons_eq (x : α × P) (xs : List (α × P)) :
    ∃ l2 : List (α × P),
      pqExtractMin (x :: xs) = (some x.1, if l2.isEmpty then l2 else siftDown l2 0) ∧
      List.Perm l2 xs ∧
      ∀ k, 0 < k → k < l2.length → l2.get? k = (x :: xs).get? k := by
  have hlen : (x :: xs).length - 1 = xs.length := by simp
  have hget0 : (x :: xs).get? 0 = some x := rfl
  have hlastlt : xs.length < (x :: xs).length := by simp
  have hgetlast := List.get?_eq_get hlastlt
  set lastel := (x :: xs).get ⟨xs.length, hlastlt⟩ with hlastdef
  set l1 := listSwap (x :: xs) 0 ((x :: xs).length - 1) with hl1def
  have hl1len : l1.length = xs.length + 1 := by
    rw [hl1def, listSwap_len]
    simp
  have hl1last : l1.get? xs.length = some x := by
    rw [hl1def, hlen]
    exact listSwap_get_right hget0 hgetlast
  have hl1ne : l1 ≠ [] := by
    intro hc
    rw [hc] at hl1len
    simp at hl1len
  have hlast? : l1.getLast? = some x := by
    rw [List.getLast?_eq_get? l1, hl1len]
    simpa using hl1last
  refine ⟨l1.dropLast, ?_, ?_, ?_⟩
  · show pqExtractMin (x :: xs) = _
    unfold pqExtractMin
    dsimp only
    rw [← hl1def, hlast?]
    rfl
  · have hsplit : l1.dropLast ++ [l1.getLast hl1ne] = l1 := List.dropLast_append_getLast hl1ne
    have hgl : l1.getLast hl1ne = x := by
      have := List.getLast?_eq_getLast l1 hl1ne
      rw [hlast?] at this
      injection this with h
      exact h.symm
    rw [hgl] at hsplit
    have hperm1 : List.Perm (x :: l1.dropLast) l1 := by
      have h1 := (List.perm_append_singleton x l1.dropLast).symm
      rw [hsplit] at h1
      exact h1
    exact List.Perm.cons_inv (hperm1.trans (listSwap_perm (x :: xs) 0 ((x :: xs).length - 1)))
  · intro k hk0 hklen
    have hdl : l1.dropLast.length = xs.length := by
      rw [List.length_dropLast, hl1len]
      simp
    have hkxs : k < xs.length := by rw [hdl] at hklen; exact hklen
    have htake : l1.dropLast = l1.take (l1.length - 1) := List.dropLast_eq_take l1
    have h1 : l1.dropLast.get? k = l1.get? k := by
      rw [htake, List.get?_eq_getElem?, List.getElem?_take, if_pos (by omega), ← List.get?_eq_getElem?]
    rw [h1, hl1def, hlen]
    exact listSwap_get_other (by omega) (by omega)

theorem pqExtractMin_cons_fst (x : α × P) (xs : List (α × P)) :
    (pqExtractMin (x :: xs)).1 = some x.1 := by
  obtain ⟨l2, heq, -, -⟩ := pqExtractMin_cons_eq x xs
  rw [heq]

theorem pqExtractMin_fst (l : List (α × P)) :
    (pqExtractMin l).1 = l.head?.map (fun ab => ab.1) := by
  cases l with
  | nil => rfl
  | cons x xs => rw [pqExtractMin_cons_fst]; rfl

theorem pqExtractMin_rest_perm (x : α × P) (xs : List (α × P)) :
    List.Perm (pqExtractMin (x :: xs)).2 xs := by
  obtain ⟨l2, heq, hperm, -⟩ := pqExtractMin_cons_eq x xs
  rw [heq]
  by_cases he : l2.isEmpty
  · simpa [he] using hperm
  · simp only [if_neg he]
    exact (siftDown_perm l2 0).trans hperm

theorem pqExtractMin_rest_isHeap {x : α × P} {xs : List (α × P)}
    (hh : IsHeap (x :: xs)) : IsHeap (pqExtractMin (x :: xs)).2 := by
  obtain ⟨l2, heq, hperm, hpres⟩ := pqExtractMin_cons_eq x xs
  rw [heq]
  by_cases he : l2.isEmpty
  · simp only [if_pos he]
    intro j z y hj hz hy
    rw [List.isEmpty_iff] at he
    rw [he] at hz
    simp at hz
  · simp only [if_neg he]
    apply siftDown_isHeap
    constructor
    · intro j z y hj hj1 hj2 hzj hyj
      have hjlen : j < l2.length := (List.get?_eq_some.mp hzj).1
      have hpjlen : (j - 1) / 2 < l2.length := by omega
      have hpj0 : 0 < (j - 1) / 2 ∨ (j - 1) / 2 = 0 := by omega
      have hj3 : 3 ≤ j := by omega
      rw [hpres j hj hjlen] at hzj
      rw [hpres ((j - 1) / 2) (by omega) hpjlen] at hyj
      exact hh j z y hj hzj hyj
    · intro j z y h0
      exact absurd h0 (lt_irrefl 0)

theorem pqDrainAux_spec : ∀ (fuel : ℕ) (l : List (α × P)), IsHeap l → l.length ≤ fuel →
    List.Chain' (fun a b : α × P => a.2 ≤ b.2) (pqDrainAux fuel l) ∧
    List.Perm (pqDrainAux fuel l) l := by
  intro fuel
  induction fuel with
  | zero =>
    intro l hh hlen
    have hnil : l = [] := List.length_eq_zero.mp (Nat.le_zero.mp hlen)
    subst hnil
    exact ⟨List.chain'_nil, List.Perm.refl _⟩
  | succ fuel ih =>
    intro l hh hlen
    match l with
    | [] => exact ⟨List.chain'_nil, List.Perm.refl _⟩
    | x :: xs =>
      have hrh : IsHeap (pqExtractMin (x :: xs)).2 := pqExtractMin_rest_isHeap hh
      have hrperm := pqExtractMin_rest_perm x xs
      have hrlen : (pqExtractMin (x :: xs)).2.length ≤ fuel := by
        rw [hrperm.length_eq]
        simpa using Nat.lt_succ_iff.mp (Nat.lt_of_lt_of_le (by simp) hlen)
      obtain ⟨hchain, hperm⟩ := ih _ hrh hrlen
      have hstep : pqDrainAux (fuel + 1) (x :: xs) =
          x :: pqDrainAux fuel (pqExtractMin (x :: xs)).2 := rfl
      constructor
      · rw [hstep, List.chain'_cons']
        refine ⟨?_, hchain⟩
        intro z hz
        have hz1 : z ∈ pqDrainAux fuel (pqExtractMin (x :: xs)).2 :=
          List.mem_of_mem_head? hz
        have hz2 : z ∈ x :: xs :=
          List.mem_cons_of_mem x (hrperm.mem_iff.mp (hperm.mem_iff.mp hz1))
        obtain ⟨k, hk⟩ := List.get?_of_mem hz2
        exact isHeap_root_le hh k z x hk rfl
      · rw [hstep]
        exact List.Perm.cons x (hperm.trans hrperm)

theorem pqInsertAll_spec (xs : List (α × P)) :
    IsHeap (pqInsertAll xs) ∧ List.Perm (pqInsertAll xs) xs := by
  have key : ∀ (ys : List (α × P)) (l : List (α × P)), IsHeap l →
      IsHeap (ys.foldl (fun acc ab => pqInsert acc ab.1 ab.2) l) ∧
      List.Perm (ys.foldl (fun acc ab => pqInsert acc ab.1 ab.2) l) (l ++ ys) := by
    intro ys
    induction ys with
    | nil =>
      intro l hl
      refine ⟨hl, ?_⟩
      simp
    | cons ab ys ih =>
      intro l hl
      obtain ⟨hh1, hp1⟩ := ih (pqInsert l ab.1 ab.2) (pqInsert_isHeap hl ab.1 ab.2)
      refine ⟨hh1, ?_⟩
      have hmid : List.Perm (pqInsert l ab.1 ab.2 ++ ys) (l ++ ab :: ys) := by
        have h1 : List.Perm (pqInsert l ab.1 ab.2 ++ ys) ((ab :: l) ++ ys) :=
          (pqInsert_perm l ab.1 ab.2).append_right ys
      
        exact h1.trans (List.perm_middle.symm)
      exact hp1.trans hmid
  have h := key xs [] (by intro j x y hj hx hy; simp at hx)
  simpa using h

theorem pqDrain_spec {l : List (α × P)} (hh : IsHeap l) :
    List.Chain' (fun a b : α × P => a.2 ≤ b.2) (pqDrain l) ∧
    List.Perm (pqDrain l) l :=
  pqDrainAux_spec l.length l hh (le_refl _)

end HeapLaws




/-! ## Grid basics -/

theorem setCell_self (g : GridMap) (x y : ℕ) (c : Cell) : setCell g x y c x y = c := by
  simp [setCell]

theorem setCell_of_ne (g : GridMap) (x y : ℕ) (c : Cell) (a b : ℕ)
    (hne : ¬(a = x ∧ b = y)) : setCell g x y c a b = g a b := by
  simp [setCell, hne]

theorem removeWalls_coords (a b : Cell) :
    (removeWalls a b).1.x = a.x ∧ (removeWalls a b).1.y = a.y ∧
    (removeWalls a b).2.x = b.x ∧ (removeWalls a b).2.y = b.y := by
  simp only [removeWalls]
  split_ifs <;> simp

theorem removeWalls_visited (a b : Cell) :
    (removeWalls a b).1.visited = a.visited ∧ (removeWalls a b).2.visited = b.visited := by
  simp only [removeWalls]
  split_ifs <;> simp

theorem wfCells_initializeGrid : WFCells initializeGrid := fun _ _ => ⟨rfl, rfl⟩

theorem wfCells_setCell {g : GridMap} (hg : WFCells g) {x y : ℕ} {c : Cell}
    (hcx : c.x = x) (hcy : c.y = y) : WFCells (setCell g x y c) := by
  intro a b
  by_cases hab : a = x ∧ b = y
  · obtain ⟨h1, h2⟩ := hab
    subst h1; subst h2
    rw [setCell_self]
    exact ⟨hcx, hcy⟩
  · rw [setCell_of_ne _ _ _ _ _ _ hab]
    exact hg a b

theorem wfCells_carve {g : GridMap} (hg : WFCells g) (a b : Cell) :
    WFCells (carve g a b) := by
  unfold carve
  have h := removeWalls_coords a b
  exact wfCells_setCell (wfCells_setCell hg h.1 h.2.1) h.2.2.1 h.2.2.2

theorem wfCells_markVisited {g : GridMap} (hg : WFCells g) (x y : ℕ) :
    WFCells (markVisited g x y) := by
  unfold markVisited
  exact wfCells_setCell hg (hg x y).1 (hg x y).2

/-! ## The effect of one adjacent carve -/

theorem carve_toRight {g : GridMap} (hwf : WFCells g) (x y : ℕ) :
    carve g (g x y) (g (x + 1) y) =
      setCell (setCell g x y { g x y with walls := { (g x y).walls with right := false } })
        (x + 1) y { g (x + 1) y with walls := { (g (x + 1) y).walls with left := false } } := by
  unfold carve removeWalls
  simp only [(hwf x y).1, (hwf x y).2, (hwf (x + 1) y).1, (hwf (x + 1) y).2]
  split_ifs <;> first | rfl | (exfalso; omega)


theorem setCell2_read (g : GridMap) (x1 y1 x2 y2 : ℕ) (A B : Cell) (a b : ℕ) :
    setCell (setCell g x1 y1 A) x2 y2 B a b =
      if a = x2 ∧ b = y2 then B else if a = x1 ∧ b = y1 then A else g a b := rfl

theorem symmetricWalls_open_h {g : GridMap} {w h x y : ℕ}
    (hs : SymmetricWalls g w h) (hx : x + 1 < w) (hy : y < h) :
    SymmetricWalls
      (setCell (setCell g x y { g x y with walls := { (g x y).walls with right := false } })
        (x + 1) y { g (x + 1) y with walls := { (g (x + 1) y).walls with left := false } })
      w h := by
  obtain ⟨hsh, hsv⟩ := hs
  constructor <;> intro a b h1 h2 <;> simp only [setCell2_read] <;>
    split_ifs <;> simp_all

theorem setCell_comm (g : GridMap) (x1 y1 : ℕ) (c1 : Cell) (x2 y2 : ℕ) (c2 : Cell)
    (hne : ¬(x1 = x2 ∧ y1 = y2)) :
    setCell (setCell g x1 y1 c1) x2 y2 c2 = setCell (setCell g x2 y2 c2) x1 y1 c1 := by
  funext a b
  simp only [setCell2_read]
  split_ifs <;> simp_all

theorem symmetricWalls_open_v {g : GridMap} {w h x y : ℕ}
    (hs : SymmetricWalls g w h) (hx : x < w) (hy : y + 1 < h) :
    SymmetricWalls
      (setCell (setCell g x y { g x y with walls := { (g x y).walls with bottom := false } })
        x (y + 1) { g x (y + 1) with walls := { (g x (y + 1)).walls with top := false } })
      w h := by
  obtain ⟨hsh, hsv⟩ := hs
  constructor <;> intro a b h1 h2 <;> simp only [setCell2_read] <;>
    split_ifs <;> simp_all

theorem boundaryIntact_open_h {g : GridMap} {w h x y : ℕ}
    (hb : BoundaryIntact g w h) (hx : x + 1 < w) (hy : y < h) :
    BoundaryIntact
      (setCell (setCell g x y { g x y with walls := { (g x y).walls with right := false } })
        (x + 1) y { g (x + 1) y with walls := { (g (x + 1) y).walls with left := false } })
      w h := by
  obtain ⟨b1, b2, b3, b4⟩ := hb
  refine ⟨?_, ?_, ?_, ?_⟩ <;> intro a ha <;> simp only [setCell2_read] <;>
    split_ifs <;> simp_all <;> omega

theorem boundaryIntact_open_v {g : GridMap} {w h x y : ℕ}
    (hb : BoundaryIntact g w h) (hx : x < w) (hy : y + 1 < h) :
    BoundaryIntact
      (setCell (setCell g x y { g x y with walls := { (g x y).walls with bottom := false } })
        x (y + 1) { g x (y + 1) with walls := { (g x (y + 1)).walls with top := false } })
      w h := by
  obtain ⟨b1, b2, b3, b4⟩ := hb
  refine ⟨?_, ?_, ?_, ?_⟩ <;> intro a ha <;> simp only [setCell2_read] <;>
    split_ifs <;> simp_all <;> omega

theorem carve_toLeft {g : GridMap} (hwf : WFCells g) (x y : ℕ) :
    carve g (g (x + 1) y) (g x y) =
      setCell (setCell g x y { g x y with walls := { (g x y).walls with right := false } })
        (x + 1) y { g (x + 1) y with walls := { (g (x + 1) y).walls with left := false } } := by
  unfold carve removeWalls
  simp only [(hwf x y).1, (hwf x y).2, (hwf (x + 1) y).1, (hwf (x + 1) y).2]
  split_ifs <;> try (exfalso; omega)
  simp only [(hwf x y).1, (hwf x y).2, (hwf (x + 1) y).1, (hwf (x + 1) y).2]
  exact setCell_comm g (x + 1) y _ x y _ (by intro hcon; omega)

theorem carve_toDown {g : GridMap} (hwf : WFCells g) (x y : ℕ) :
    carve g (g x y) (g x (y + 1)) =
      setCell (setCell g x y { g x y with walls := { (g x y).walls with bottom := false } })
        x (y + 1) { g x (y + 1) with walls := { (g x (y + 1)).walls with top := false } } := by
  unfold carve removeWalls
  simp only [(hwf x y).1, (hwf x y).2, (hwf x (y + 1)).1, (hwf x (y + 1)).2]
  split_ifs <;> try (exfalso; omega)
  simp only [(hwf x y).1, (hwf x y).2, (hwf x (y + 1)).1, (hwf x (y + 1)).2]

theorem carve_toUp {g : GridMap} (hwf : WFCells g) (x y : ℕ) :
    carve g (g x (y + 1)) (g x y) =
      setCell (setCell g x y { g x y with walls := { (g x y).walls with bottom := false } })
        x (y + 1) { g x (y + 1) with walls := { (g x (y + 1)).walls with top := false } } := by
  unfold carve removeWalls
  simp only [(hwf x y).1, (hwf x y).2, (hwf x (y + 1)).1, (hwf x (y + 1)).2]
  split_ifs <;> try (exfalso; omega)
  simp only [(hwf x y).1, (hwf x y).2, (hwf x (y + 1)).1, (hwf x (y + 1)).2]
  exact setCell_comm g x (y + 1) _ x y _ (by intro hcon; omega)

theorem gridInv_open_h {g : GridMap} {w h x y : ℕ}
    (hinv : GridInv g w h) (hx : x + 1 < w) (hy : y < h) :
    GridInv
      (setCell (setCell g x y { g x y with walls := { (g x y).walls with right := false } })
        (x + 1) y { g (x + 1) y with walls := { (g (x + 1) y).walls with left := false } })
      w h := by
  obtain ⟨hwf, hs, hb⟩ := hinv
  refine ⟨?_, symmetricWalls_open_h hs hx hy, boundaryIntact_open_h hb hx hy⟩
  refine wfCells_setCell (wfCells_setCell hwf ?_ ?_) ?_ ?_
  · exact (hwf x y).1
  · exact (hwf x y).2
  · exact (hwf (x + 1) y).1
  · exact (hwf (x + 1) y).2

theorem gridInv_open_v {g : GridMap} {w h x y : ℕ}
    (hinv : GridInv g w h) (hx : x < w) (hy : y + 1 < h) :
    GridInv
      (setCell (setCell g x y { g x y with walls := { (g x y).walls with bottom := false } })
        x (y + 1) { g x (y + 1) with walls := { (g x (y + 1)).walls with top := false } })
      w h := by
  obtain ⟨hwf, hs, hb⟩ := hinv
  refine ⟨?_, symmetricWalls_open_v hs hx hy, boundaryIntact_open_v hb hx hy⟩
  refine wfCells_setCell (wfCells_setCell hwf ?_ ?_) ?_ ?_
  · exact (hwf x y).1
  · exact (hwf x y).2
  · exact (hwf x (y + 1)).1
  · exact (hwf x (y + 1)).2

/-- The central invariant step: one `removeWalls` call on two in-bounds,
grid-adjacent cells preserves well-formedness, wall symmetry and the outer
boundary. -/
theorem carve_adj_inv {g : GridMap} {w h : ℕ} (hinv : GridInv g w h) {p q : Pos}
    (hp : InBounds p w h) (hq : InBounds q w h) (hadj : AdjacentPos p q) :
    GridInv (carve g (g p.1 p.2) (g q.1 q.2)) w h := by
  have hwf := hinv.1
  obtain ⟨a, b⟩ := p
  obtain ⟨c, d⟩ := q
  unfold InBounds at hp hq
  unfold AdjacentPos at hadj
  simp only at hp hq hadj
  rcases hadj with ⟨hcol, hv | hv⟩ | ⟨hrow, hh | hh⟩
  · subst hcol; subst hv
    rw [carve_toUp hwf a d]
    exact gridInv_open_v hinv hp.1 hp.2
  · subst hcol; subst hv
    rw [carve_toDown hwf a b]
    exact gridInv_open_v hinv hp.1 hq.2
  · subst hrow; subst hh
    rw [carve_toLeft hwf c b]
    exact gridInv_open_h hinv hp.1 hp.2
  · subst hrow; subst hh
    rw [carve_toRight hwf a b]
    exact gridInv_open_h hinv hq.1 hp.2


/-! ## Membership and neighbor lemmas -/

theorem getD_mem {α : Type} {l : List α} {i : ℕ} (h : i < l.length) (d : α) :
    l.getD i d ∈ l := by
  rw [List.getD_eq_getElem?_getD, List.getElem?_eq_getElem h]
  exact List.getElem_mem h

theorem pickRand_mem {s : RandStream} (hv : ValidStream s) (k : ℕ) {l : List Cell}
    (hl : l ≠ []) : (pickRand s k l).1 ∈ l := by
  unfold pickRand
  exact getD_mem (randIndex_lt (hv k).1 (hv k).2 (List.length_pos.2 hl)) _

theorem mem_listSwap {α : Type} {l : List α} {i j : ℕ} {a : α}
    (ha : a ∈ listSwap l i j) : a ∈ l := by
  unfold listSwap at ha
  rcases h1 : l.get? i with _ | c1 <;> rcases h2 : l.get? j with _ | c2 <;>
    rw [h1, h2] at ha
  · exact ha
  · exact ha
  · exact ha
  · rcases List.mem_or_eq_of_mem_set ha with hb | hb
    · rcases List.mem_or_eq_of_mem_set hb with hc | hc
      · exact hc
      · subst hc; exact List.get?_mem h2
    · subst hb; exact List.get?_mem h1

theorem mem_shuffleAux {α : Type} {s : RandStream} {i : ℕ} {l : List α} {k : ℕ} {a : α}
    (ha : a ∈ (shuffleAux s i l k).1) : a ∈ l := by
  induction i generalizing l k with
  | zero => exact ha
  | succ n ih => exact mem_listSwap (ih ha)

theorem mem_shuffleList {α : Type} {s : RandStream} {l : List α} {k : ℕ} {a : α}
    (ha : a ∈ (shuffleList s l k).1) : a ∈ l :=
  mem_shuffleAux ha

theorem mem_ite_singleton {α : Type} {c : Prop} [Decidable c] {e a : α}
    (ha : a ∈ (if c then [e] else [])) : c ∧ a = e := by
  split at ha
  · simp at ha
    exact ⟨by assumption, ha⟩
  · simp at ha

/-- Decomposition of `getNeighbors` membership: every neighbor is a grid read
at an in-bounds position adjacent to the queried cell. -/
theorem mem_getNeighbors {g : GridMap} {w h : ℕ} (hwf : WFCells g) {x y : ℕ} {n : Cell}
    (hn : n ∈ getNeighbors (g x y) g w h) :
    ∃ q : Pos, n = g q.1 q.2 ∧ InBounds q w h ∧ AdjacentPos (x, y) q := by
  unfold getNeighbors at hn
  rw [List.mem_filterMap] at hn
  obtain ⟨d, hd, hfd⟩ := hn
  simp only [(hwf x y).1, (hwf x y).2] at hfd
  have hcases : d = ((0 : ℤ), (-1 : ℤ)) ∨ d = (1, 0) ∨ d = (0, 1) ∨ d = (-1, 0) := by
    simpa using hd
  rcases hcases with rfl | rfl | rfl | rfl <;> simp only at hfd <;> split at hfd <;>
      first | (exact Option.noConfusion hfd) | skip
  · rename_i hcond
    refine ⟨(x, y - 1), ?_, ?_, ?_⟩
    · have hx' : ((x : ℤ) + 0).toNat = x := by omega
      have hy' : ((y : ℤ) + -1).toNat = y - 1 := by omega
      rw [hx', hy'] at hfd
      exact (Option.some_inj.1 hfd).symm
    · exact ⟨by omega, by omega⟩
    · unfold AdjacentPos; left; exact ⟨rfl, Or.inl (by omega)⟩
  · rename_i hcond
    refine ⟨(x + 1, y), ?_, ?_, ?_⟩
    · have hx' : ((x : ℤ) + 1).toNat = x + 1 := by omega
      have hy' : ((y : ℤ) + 0).toNat = y := by omega
      rw [hx', hy'] at hfd
      exact (Option.some_inj.1 hfd).symm
    · exact ⟨by omega, by omega⟩
    · unfold AdjacentPos; right; exact ⟨rfl, Or.inr (by omega)⟩
  · rename_i hcond
    refine ⟨(x, y + 1), ?_, ?_, ?_⟩
    · have hx' : ((x : ℤ) + 0).toNat = x := by omega
      have hy' : ((y : ℤ) + 1).toNat = y + 1 := by omega
      rw [hx', hy'] at hfd
      exact (Option.some_inj.1 hfd).symm
    · exact ⟨by omega, by omega⟩
    · unfold AdjacentPos; left; exact ⟨rfl, Or.inr (by omega)⟩
  · rename_i hcond
    refine ⟨(x - 1, y), ?_, ?_, ?_⟩
    · have hx' : ((x : ℤ) + -1).toNat = x - 1 := by omega
      have hy' : ((y : ℤ) + 0).toNat = y := by omega
      rw [hx', hy'] at hfd
      exact (Option.some_inj.1 hfd).symm
    · exact ⟨by omega, by omega⟩
    · unfold AdjacentPos; right; exact ⟨rfl, Or.inl (by omega)⟩

theorem mem_getUnvisitedNeighbors {g : GridMap} {w h : ℕ} {c : Cell} {n : Cell}
    (hn : n ∈ getUnvisitedNeighbors c g w h) : n ∈ getNeighbors c g w h :=
  (List.mem_filter.1 hn).1

/-- A cell of a grid with at least two cells has at least one neighbor. -/
theorem getNeighbors_ne_nil {g : GridMap} {w h x y : ℕ} (hwf : WFCells g)
    (hx : x < w) (hy : y < h) (hwh : 2 ≤ w * h) :
    getNeighbors (g x y) g w h ≠ [] := by
  unfold getNeighbors
  simp only [(hwf x y).1, (hwf x y).2]
  intro hnil
  rw [List.filterMap_eq_nil_iff] at hnil
  rcases Nat.lt_or_ge x (w - 1) with hxw | hxw
  · have := hnil (1, 0) (by simp)
    rw [if_pos (by refine ⟨by omega, by omega, by omega, by omega⟩)] at this
    exact absurd this (by simp)
  · rcases Nat.lt_or_ge y (h - 1) with hyh | hyh
    · have := hnil (0, 1) (by simp)
      rw [if_pos (by refine ⟨by omega, by omega, by omega, by omega⟩)] at this
      exact absurd this (by simp)
    · rcases Nat.eq_zero_or_pos x with hx0 | hx0
      · rcases Nat.eq_zero_or_pos y with hy0 | hy0
        · exfalso
          have hw1 : w = 1 := by omega
          have hh1 : h = 1 := by omega
          rw [hw1, hh1] at hwh
          omega
        · have := hnil (0, -1) (by simp)
          rw [if_pos (by refine ⟨by omega, by omega, by omega, by omega⟩)] at this
          exact absurd this (by simp)
      · have := hnil (-1, 0) (by simp)
        rw [if_pos (by refine ⟨by omega, by omega, by omega, by omega⟩)] at this
        exact absurd this (by simp)

/-! ## Invariant base facts -/

theorem gridInv_initializeGrid (w h : ℕ) : GridInv initializeGrid w h :=
  ⟨wfCells_initializeGrid,
   ⟨fun _ _ _ _ => rfl, fun _ _ _ _ => rfl⟩,
   ⟨fun _ _ => rfl, fun _ _ => rfl, fun _ _ => rfl, fun _ _ => rfl⟩⟩

theorem markVisited_walls (g : GridMap) (x y a b : ℕ) :
    ((markVisited g x y) a b).walls = (g a b).walls := by
  unfold markVisited
  by_cases hab : a = x ∧ b = y
  · obtain ⟨h1, h2⟩ := hab
    subst h1; subst h2
    rw [setCell_self]
  · rw [setCell_of_ne _ _ _ _ _ _ hab]

theorem gridInv_markVisited {g : GridMap} {w h : ℕ} (hinv : GridInv g w h) (x y : ℕ) :
    GridInv (markVisited g x y) w h := by
  obtain ⟨hwf, ⟨hsh, hsv⟩, b1, b2, b3, b4⟩ := hinv
  refine ⟨wfCells_markVisited hwf x y, ⟨?_, ?_⟩, ?_, ?_, ?_, ?_⟩
  · intro a b h1 h2
    rw [markVisited_walls, markVisited_walls]
    exact hsh a b h1 h2
  · intro a b h1 h2
    rw [markVisited_walls, markVisited_walls]
    exact hsv a b h1 h2
  · intro a ha
    rw [markVisited_walls]
    exact b1 a ha
  · intro a ha
    rw [markVisited_walls]
    exact b2 a ha
  · intro a ha
    rw [markVisited_walls]
    exact b3 a ha
  · intro a ha
    rw [markVisited_walls]
    exact b4 a ha

/-- Invariant preservation through a `foldl`. -/
theorem foldl_inv {β γ : Type} {I : β → Prop} {f : β → γ → β} {l : List γ}
    (hstep : ∀ st a, a ∈ l → I st → I (f st a)) :
    ∀ st, I st → I (l.foldl f st) := by
  induction l with
  | nil => intro st h; exact h
  | cons c rest ih =>
    intro st h
    exact ih (fun st' a ha h' => hstep st' a (List.mem_cons_of_mem c ha) h') _
      (hstep st c (List.mem_cons_self c rest) h)


/-! ## Per-algorithm invariant preservation -/

theorem mem_btNeighborsToCarve {g : GridMap} {w h : ℕ} {bias : BinaryTreeBias}
    (hwf : WFCells g) {x y : ℕ} {n : Cell}
    (hn : n ∈ btNeighborsToCarve g w h bias (g x y)) (hx : x < w) (hy : y < h) :
    ∃ q : Pos, n = g q.1 q.2 ∧ InBounds q w h ∧ AdjacentPos (x, y) q := by
  unfold btNeighborsToCarve at hn
  simp only [(hwf x y).1, (hwf x y).2] at hn
  rcases List.mem_append.1 hn with hm | hm
  · rcases List.mem_append.1 hm with hm2 | hm2
    · rcases List.mem_append.1 hm2 with hm3 | hm3
      · obtain ⟨⟨-, hc⟩, he⟩ := mem_ite_singleton hm3
        exact ⟨(x, y - 1), he, ⟨hx, by omega⟩, Or.inl ⟨rfl, Or.inl (by omega)⟩⟩
      · obtain ⟨⟨-, hc⟩, he⟩ := mem_ite_singleton hm3
        exact ⟨(x, y + 1), he, ⟨hx, by omega⟩, Or.inl ⟨rfl, Or.inr (by omega)⟩⟩
    · obtain ⟨⟨-, hc⟩, he⟩ := mem_ite_singleton hm2
      exact ⟨(x - 1, y), he, ⟨by omega, hy⟩, Or.inr ⟨rfl, Or.inl (by omega)⟩⟩
  · obtain ⟨⟨-, hc⟩, he⟩ := mem_ite_singleton hm
    exact ⟨(x + 1, y), he, ⟨by omega, hy⟩, Or.inr ⟨rfl, Or.inr (by omega)⟩⟩

theorem btCellStep_inv {w h : ℕ} {bias : BinaryTreeBias} {s : RandStream}
    (hv : ValidStream s) {st : GridMap × ℕ} {x y : ℕ}
    (hx : x < w) (hy : y < h) (hinv : GridInv st.1 w h) :
    GridInv (btCellStep w h bias s st x y).1 w h := by
  obtain ⟨g, k⟩ := st
  have hwf := hinv.1
  unfold btCellStep
  dsimp only
  split_ifs with hemp
  · exact hinv
  · simp only
    have hmem : (pickRand s k (btNeighborsToCarve g w h bias (g x y))).1 ∈
        btNeighborsToCarve g w h bias (g x y) :=
      pickRand_mem hv k (by simpa [List.isEmpty_iff] using hemp)
    obtain ⟨q, hqe, hqb, hqa⟩ := mem_btNeighborsToCarve hwf hmem hx hy
    rw [hqe]
    exact carve_adj_inv hinv ⟨hx, hy⟩ hqb hqa

theorem generateWithBinaryTree_inv {w h : ℕ} {bias : BinaryTreeBias} {s : RandStream}
    (hv : ValidStream s) : GridInv (generateWithBinaryTree w h bias s) w h := by
  unfold generateWithBinaryTree
  have houter : ∀ st : GridMap × ℕ, GridInv st.1 w h →
      GridInv ((List.range h).foldl
        (fun st y => (List.range w).foldl (fun st x => btCellStep w h bias s st x y) st)
        st).1 w h := by
    apply foldl_inv
    intro st y hy hst
    have hyh : y < h := List.mem_range.1 hy
    exact foldl_inv
      (I := fun st : GridMap × ℕ => GridInv st.1 w h)
      (f := fun st x => btCellStep w h bias s st x y)
      (l := List.range w)
      (fun st' x hxm hst' => btCellStep_inv hv (List.mem_range.1 hxm) hyh hst') st hst
  exact houter (initializeGrid, 0) (gridInv_initializeGrid w h)

theorem swCellStep_inv {w h : ℕ} {s : RandStream} (hv : ValidStream s) {y : ℕ}
    {st : GridMap × ℕ × List Pos} {x : ℕ} (hx : x < w) (hy : y < h)
    (hinv : GridInv st.1 w h) (hrun : ∀ p ∈ st.2.2, p.1 < w ∧ p.2 = y) :
    GridInv (swCellStep w s y st x).1 w h ∧
      ∀ p ∈ (swCellStep w s y st x).2.2, p.1 < w ∧ p.2 = y := by
  obtain ⟨g, k, run⟩ := st
  simp only at hinv hrun
  have hrun' : ∀ p ∈ run ++ [((x, y) : Pos)], p.1 < w ∧ p.2 = y := by
    intro p hp
    rcases List.mem_append.1 hp with hp | hp
    · exact hrun p hp
    · simp at hp
      subst hp
      exact ⟨hx, rfl⟩
  have hcarveN : ∀ K : ℕ, y ≠ 0 → GridInv (carve g
      (g ((run ++ [((x, y) : Pos)]).getD
            (randIndex (s K) (run ++ [((x, y) : Pos)]).length) default).1
         ((run ++ [((x, y) : Pos)]).getD
            (randIndex (s K) (run ++ [((x, y) : Pos)]).length) default).2)
      (g ((run ++ [((x, y) : Pos)]).getD
            (randIndex (s K) (run ++ [((x, y) : Pos)]).length) default).1
         (((run ++ [((x, y) : Pos)]).getD
            (randIndex (s K) (run ++ [((x, y) : Pos)]).length) default).2 - 1))) w h := by
    intro K hN
    have hlen : 0 < (run ++ [((x, y) : Pos)]).length := by simp
    set pc : Pos := (run ++ [((x, y) : Pos)]).getD
      (randIndex (s K) (run ++ [((x, y) : Pos)]).length) default with hpc
    have hmem := getD_mem (randIndex_lt (hv K).1 (hv K).2 hlen) (default : Pos)
    rw [← hpc] at hmem
    obtain ⟨hpw, hpy⟩ := hrun' _ hmem
    refine carve_adj_inv (p := pc) (q := (pc.1, pc.2 - 1)) hinv ⟨hpw, by omega⟩
      ⟨hpw, by omega⟩ ?_
    left
    exact ⟨rfl, Or.inl (by omega)⟩
  have hcarveE : x ≠ w - 1 → GridInv (carve g (g x y) (g (x + 1) y)) w h := by
    intro hne
    refine carve_adj_inv (p := (x, y)) (q := (x + 1, y)) hinv ⟨hx, hy⟩
      ⟨by omega, hy⟩ ?_
    right
    exact ⟨rfl, Or.inr rfl⟩
  unfold swCellStep
  dsimp only
  by_cases hE : x = w - 1
  · by_cases hN : y = 0
    · simp only [if_pos hE, if_pos hN]
      exact ⟨hinv, by intro p hp; simp at hp⟩
    · simp only [if_pos hE, if_neg hN]
      exact ⟨hcarveN k hN, by intro p hp; simp at hp⟩
  · by_cases hN : y = 0
    · simp only [if_neg hE, if_pos hN]
      exact ⟨hcarveE hE, hrun'⟩
    · simp only [if_neg hE, if_neg hN, decide_eq_true_eq]
      by_cases hC : s k < 1 / 2
      · simp only [if_pos hC]
        exact ⟨hcarveN (k + 1) hN, by intro p hp; simp at hp⟩
      · simp only [if_neg hC]
        exact ⟨hcarveE hE, hrun'⟩


theorem generateWithSidewinder_inv {w h : ℕ} {s : RandStream} (hv : ValidStream s) :
    GridInv (generateWithSidewinder w h s) w h := by
  unfold generateWithSidewinder
  refine foldl_inv (I := fun st : GridMap × ℕ => GridInv st.1 w h) ?_
    (initializeGrid, 0) (gridInv_initializeGrid w h)
  intro st y hym hst
  have hy : y < h := List.mem_range.1 hym
  dsimp only
  have hinner := foldl_inv
    (I := fun st2 : GridMap × ℕ × List Pos =>
      GridInv st2.1 w h ∧ ∀ p ∈ st2.2.2, p.1 < w ∧ p.2 = y)
    (f := swCellStep w s y) (l := List.range w)
    (fun st2 x hxm hst2 =>
      swCellStep_inv hv (List.mem_range.1 hxm) hy hst2.1 hst2.2)
    (st.1, st.2, []) ⟨hst, by intro p hp; simp at hp⟩
  exact hinner.1

theorem abLoop_inv {w h : ℕ} {s : RandStream} (hv : ValidStream s) :
    ∀ (fuel : ℕ) (g : GridMap) (cur : Pos) (count k : ℕ), GridInv g w h →
      InBounds cur w h → (count ≠ 0 → 2 ≤ w * h) →
      GridInv (abLoop w h s fuel g cur count k) w h := by
  intro fuel
  induction fuel with
  | zero => intro g cur count k hinv _ _; exact hinv
  | succ n ih =>
    intro g cur count k hinv hcur hcount
    unfold abLoop
    dsimp only
    by_cases hc : count = 0
    · rw [if_pos hc]
      exact hinv
    · rw [if_neg hc]
      have hwh := hcount hc
      have hwf := hinv.1
      have hne : getNeighbors (g cur.1 cur.2) g w h ≠ [] :=
        getNeighbors_ne_nil hwf hcur.1 hcur.2 hwh
      have hmem : (getNeighbors (g cur.1 cur.2) g w h).getD
          (randIndex (s k) (getNeighbors (g cur.1 cur.2) g w h).length) default ∈
          getNeighbors (g cur.1 cur.2) g w h :=
        getD_mem (randIndex_lt (hv k).1 (hv k).2 (List.length_pos.2 hne)) _
      obtain ⟨q, hqe, hqb, hqa⟩ := mem_getNeighbors hwf hmem
      rw [hqe]
      simp only [(hwf q.1 q.2).1, (hwf q.1 q.2).2]
      split_ifs with hvst
      · exact ih g q count (k + 1) hinv hqb hcount
      · exact ih _ q (count - 1) (k + 1)
          (gridInv_markVisited (carve_adj_inv hinv hcur hqb hqa) q.1 q.2)
          hqb (fun _ => hwh)

theorem generateWithAldousBroder_inv {w h : ℕ} {s : RandStream} (hv : ValidStream s)
    (hw : 0 < w) (hh : 0 < h) (fuel : ℕ) :
    GridInv (generateWithAldousBroder w h s fuel) w h := by
  unfold generateWithAldousBroder
  refine abLoop_inv hv fuel _ _ _ 2
    (gridInv_markVisited (gridInv_initializeGrid w h) _ _)
    ⟨randIndex_lt (hv 1).1 (hv 1).2 hw, randIndex_lt (hv 0).1 (hv 0).2 hh⟩ ?_
  intro hcnt
  by_contra hlt
  have : w = 1 ∧ h = 1 := by
    constructor <;> nlinarith
  obtain ⟨h1, h2⟩ := this
  rw [h1, h2] at hcnt
  exact hcnt rfl

theorem rbChooseNext_mem {biased : Bool} {bias : ℚ} {s : RandStream}
    (hv : ValidStream s) {k : ℕ} {neighbors : List Cell} {current : Cell}
    {prev : Option Pos} (hne : neighbors ≠ []) :
    (rbChooseNext biased bias s k neighbors current prev).1 ∈ neighbors := by
  unfold rbChooseNext
  by_cases hb : biased = true
  · rw [if_pos hb]
    have key : ∀ straight : Option Cell, (∀ sn, straight = some sn → sn ∈ neighbors) →
        ((match straight with
          | some sn => if s k < bias then (sn, k + 1) else pickRand s (k + 1) neighbors
          | none => pickRand s k neighbors) : Cell × ℕ).1 ∈ neighbors := by
      intro st hst
      rcases st with _ | sn
      · exact pickRand_mem hv k hne
      · dsimp only
        split_ifs
        · exact hst sn rfl
        · exact pickRand_mem hv (k + 1) hne
    rcases prev with _ | p
    · exact key none (fun sn hcon => absurd hcon (by simp))
    · exact key _ (fun sn hfind => List.mem_of_find?_eq_some hfind)
  · rw [if_neg hb]
    exact pickRand_mem hv k hne

theorem rbLoop_inv {w h : ℕ} {biased : Bool} {bias : ℚ} {s : RandStream}
    (hv : ValidStream s) :
    ∀ (fuel : ℕ) (g : GridMap) (stack : List Pos) (k : ℕ), GridInv g w h →
      (∀ p ∈ stack, InBounds p w h) →
      GridInv (rbLoop w h biased bias s fuel g stack k) w h := by
  intro fuel
  induction fuel with
  | zero => intro g stack k hinv _; exact hinv
  | succ n ih =>
    intro g stack k hinv hstack
    unfold rbLoop
    rcases stack with _ | ⟨top, rest⟩
    · exact hinv
    · dsimp only
      have hrest : ∀ p ∈ rest, InBounds p w h :=
        fun p hp => hstack p (List.mem_cons_of_mem top hp)
      split_ifs with hemp
      · exact ih g rest k hinv hrest
      · have hwf := hinv.1
        have hne : getUnvisitedNeighbors (g top.1 top.2) g w h ≠ [] := by
          simpa [List.isEmpty_iff] using hemp
        have hmem := mem_getUnvisitedNeighbors
          (@rbChooseNext_mem biased bias s hv k _ (g top.1 top.2) rest.head? hne)
        obtain ⟨q, hqe, hqb, hqa⟩ := mem_getNeighbors hwf hmem
        rw [hqe]
        simp only [(hwf q.1 q.2).1, (hwf q.1 q.2).2]
        refine ih _ (q :: top :: rest) _ ?_ ?_
        · exact gridInv_markVisited
            (carve_adj_inv hinv (hstack top (List.mem_cons_self top rest)) hqb hqa) q.1 q.2
        · intro p hp
          rcases List.mem_cons.1 hp with hp | hp
          · subst hp; exact hqb
          · exact hstack p hp

theorem generateWithRecursiveBacktracker_inv {w h : ℕ} {biased : Bool} {bias : ℚ}
    {s : RandStream} (hv : ValidStream s) (hw : 0 < w) (hh : 0 < h) (fuel : ℕ) :
    GridInv (generateWithRecursiveBacktracker w h biased bias s fuel) w h := by
  unfold generateWithRecursiveBacktracker
  refine rbLoop_inv hv fuel _ _ 0
    (gridInv_markVisited (gridInv_initializeGrid w h) 0 0) ?_
  intro p hp
  simp at hp
  subst hp
  exact ⟨hw, hh⟩



theorem gtSelect_lt {strategy : GrowingTreeStrategy} {s : RandStream}
    (hv : ValidStream s) {k len : ℕ} (hlen : 0 < len) :
    (gtSelect strategy s k len).1 < len := by
  rcases strategy <;> unfold gtSelect <;> dsimp only
  · omega
  · exact randIndex_lt (hv k).1 (hv k).2 hlen
  · exact hlen

theorem gtLoop_inv {w h : ℕ} {strategy : GrowingTreeStrategy} {s : RandStream}
    (hv : ValidStream s) :
    ∀ (fuel : ℕ) (g : GridMap) (active : List Pos) (k : ℕ), GridInv g w h →
      (∀ p ∈ active, InBounds p w h) →
      GridInv (gtLoop w h strategy s fuel g active k) w h := by
  intro fuel
  induction fuel with
  | zero => intro g active k hinv _; exact hinv
  | succ n ih =>
    intro g active k hinv hactive
    unfold gtLoop
    rcases active with _ | ⟨a0, arest⟩
    · exact hinv
    · dsimp only
      have hwf := hinv.1
      have hlen : 0 < (a0 :: arest).length := by simp
      have hsel := @gtSelect_lt strategy s hv k _ hlen
      have hcmem : (a0 :: arest).getD (gtSelect strategy s k (a0 :: arest).length).1
          default ∈ a0 :: arest := getD_mem hsel _
      have hcb := hactive _ hcmem
      split_ifs with hemp
      · exact ih g _ _ hinv (fun p hp => hactive p (List.mem_of_mem_eraseIdx hp))
      · have hne : getUnvisitedNeighbors
            (g ((a0 :: arest).getD (gtSelect strategy s k (a0 :: arest).length).1
              default).1
              ((a0 :: arest).getD (gtSelect strategy s k (a0 :: arest).length).1
              default).2) g w h ≠ [] := by
          simpa [List.isEmpty_iff] using hemp
        have hmem := mem_getUnvisitedNeighbors (pickRand_mem hv
          (gtSelect strategy s k (a0 :: arest).length).2 hne)
        obtain ⟨q, hqe, hqb, hqa⟩ := mem_getNeighbors hwf hmem
        rw [hqe]
        simp only [(hwf q.1 q.2).1, (hwf q.1 q.2).2]
        refine ih _ _ _ (gridInv_markVisited (carve_adj_inv hinv hcb hqb hqa) q.1 q.2) ?_
        intro p hp
        rcases List.mem_append.1 hp with hp | hp
        · exact hactive p hp
        · simp at hp
          subst hp
          exact hqb

theorem generateWithGrowingTree_inv {w h : ℕ} {strategy : GrowingTreeStrategy}
    {s : RandStream} (hv : ValidStream s) (hw : 0 < w) (hh : 0 < h) (fuel : ℕ) :
    GridInv (generateWithGrowingTree w h strategy s fuel) w h := by
  unfold generateWithGrowingTree
  refine gtLoop_inv hv fuel _ _ 2
    (gridInv_markVisited (gridInv_initializeGrid w h) _ _) ?_
  intro p hp
  simp at hp
  subst hp
  exact ⟨randIndex_lt (hv 1).1 (hv 1).2 hw, randIndex_lt (hv 0).1 (hv 0).2 hh⟩

theorem mem_primFrontierOf {x y w h : ℕ} {e : Pos × Pos}
    (he : e ∈ primFrontierOf x y w h) (hx : x < w) (hy : y < h) :
    InBounds e.1 w h ∧ InBounds e.2 w h ∧ AdjacentPos e.1 e.2 := by
  unfold primFrontierOf at he
  rcases List.mem_append.1 he with hm | hm
  · rcases List.mem_append.1 hm with hm2 | hm2
    · rcases List.mem_append.1 hm2 with hm3 | hm3
      · obtain ⟨hc, he⟩ := mem_ite_singleton hm3
        subst he
        refine ⟨⟨hx, hy⟩, ⟨hx, ?_⟩, Or.inl ⟨rfl, Or.inl ?_⟩⟩ <;> (dsimp only; try omega)
      · obtain ⟨hc, he⟩ := mem_ite_singleton hm3
        subst he
        refine ⟨⟨hx, hy⟩, ⟨?_, hy⟩, Or.inr ⟨rfl, Or.inr ?_⟩⟩ <;> (dsimp only; try omega)
    · obtain ⟨hc, he⟩ := mem_ite_singleton hm2
      subst he
      refine ⟨⟨hx, hy⟩, ⟨hx, ?_⟩, Or.inl ⟨rfl, Or.inr ?_⟩⟩ <;> (dsimp only; try omega)
  · obtain ⟨hc, he⟩ := mem_ite_singleton hm
    subst he
    refine ⟨⟨hx, hy⟩, ⟨?_, hy⟩, Or.inr ⟨rfl, Or.inl ?_⟩⟩ <;> (dsimp only; try omega)

theorem primLoop_inv {w h : ℕ} {s : RandStream} (hv : ValidStream s) :
    ∀ (fuel : ℕ) (g : GridMap) (frontier : List (Pos × Pos)) (k : ℕ), GridInv g w h →
      (∀ e ∈ frontier, InBounds e.1 w h ∧ InBounds e.2 w h ∧ AdjacentPos e.1 e.2) →
      GridInv (primLoop w h s fuel g frontier k) w h := by
  intro fuel
  induction fuel with
  | zero => intro g frontier k hinv _; exact hinv
  | succ n ih =>
    intro g frontier k hinv hfront
    unfold primLoop
    rcases frontier with _ | ⟨e0, erest⟩
    · exact hinv
    · dsimp only
      have hlen : 0 < (e0 :: erest).length := by simp
      have hemem : (e0 :: erest).getD (randIndex (s k) (e0 :: erest).length)
          (default, default) ∈ e0 :: erest :=
        getD_mem (randIndex_lt (hv k).1 (hv k).2 hlen) _
      obtain ⟨hb1, hb2, hadj⟩ := hfront _ hemem
      have herase : ∀ e ∈ (e0 :: erest).eraseIdx (randIndex (s k) (e0 :: erest).length),
          InBounds e.1 w h ∧ InBounds e.2 w h ∧ AdjacentPos e.1 e.2 :=
        fun e he => hfront e (List.mem_of_mem_eraseIdx he)
      split_ifs with hvst
      · exact ih g _ _ hinv herase
      · refine ih _ _ _
          (gridInv_markVisited (carve_adj_inv hinv hb1 hb2 hadj) _ _) ?_
        intro e he
        rcases List.mem_append.1 he with he | he
        · exact herase e he
        · exact mem_primFrontierOf he hb2.1 hb2.2

theorem generateWithPrim_inv {w h : ℕ} {s : RandStream} (hv : ValidStream s)
    (hw : 0 < w) (hh : 0 < h) (fuel : ℕ) :
    GridInv (generateWithPrim w h s fuel) w h := by
  unfold generateWithPrim
  refine primLoop_inv hv fuel _ _ 2
    (gridInv_markVisited (gridInv_initializeGrid w h) _ _) ?_
  intro e he
  exact mem_primFrontierOf he (randIndex_lt (hv 1).1 (hv 1).2 hw)
    (randIndex_lt (hv 0).1 (hv 0).2 hh)

theorem mem_kruskalWalls {w h : ℕ} {e : Pos × Pos} (he : e ∈ kruskalWalls w h) :
    InBounds e.1 w h ∧ InBounds e.2 w h ∧ AdjacentPos e.1 e.2 := by
  unfold kruskalWalls at he
  rw [List.mem_flatMap] at he
  obtain ⟨y, hy, he⟩ := he
  rw [List.mem_flatMap] at he
  obtain ⟨x, hx, he⟩ := he
  have hxw : x < w := List.mem_range.1 hx
  have hyh : y < h := List.mem_range.1 hy
  rcases List.mem_append.1 he with hm | hm
  · obtain ⟨hc, hee⟩ := mem_ite_singleton hm
    subst hee
    refine ⟨⟨hxw, hyh⟩, ⟨hxw, ?_⟩, Or.inl ⟨rfl, Or.inr ?_⟩⟩ <;> (dsimp only; try omega)
  · obtain ⟨hc, hee⟩ := mem_ite_singleton hm
    subst hee
    refine ⟨⟨hxw, hyh⟩, ⟨?_, hyh⟩, Or.inr ⟨rfl, Or.inr ?_⟩⟩ <;> (dsimp only; try omega)

theorem kruskalLoop_inv {w h : ℕ} {dsuFuel : ℕ} :
    ∀ (walls : List (Pos × Pos)) (g : GridMap) (parent : Pos → Pos) (rank : Pos → ℕ),
      GridInv g w h →
      (∀ e ∈ walls, InBounds e.1 w h ∧ InBounds e.2 w h ∧ AdjacentPos e.1 e.2) →
      GridInv (kruskalLoop dsuFuel walls g parent rank) w h := by
  intro walls
  induction walls with
  | nil => intro g parent rank hinv _; exact hinv
  | cons e rest ih =>
    intro g parent rank hinv hws
    unfold kruskalLoop
    dsimp only
    obtain ⟨hb1, hb2, hadj⟩ := hws e (List.mem_cons_self e rest)
    have hrest := fun e' he' => hws e' (List.mem_cons_of_mem e he')
    split_ifs with hconn
    · exact ih g _ _ hinv hrest
    · exact ih _ _ _ (carve_adj_inv hinv hb1 hb2 hadj) hrest

theorem generateWithKruskal_inv {w h : ℕ} {s : RandStream} :
    GridInv (generateWithKruskal w h s) w h := by
  unfold generateWithKruskal
  refine kruskalLoop_inv _ _ _ _ (gridInv_initializeGrid w h) ?_
  intro e he
  exact mem_kruskalWalls (mem_shuffleList he)


theorem getLast?_take_of_get? {α : Type} {l : List α} {i : ℕ} {a : α}
    (h : l.get? i = some a) : (l.take (i + 1)).getLast? = some a := by
  have hi : i < l.length := by
    by_contra hge
    rw [List.get?_eq_none.2 (by omega)] at h
    exact Option.noConfusion h
  rw [List.getLast?_eq_getElem?]
  have hlen : (l.take (i + 1)).length = i + 1 := by
    rw [List.length_take]
    omega
  rw [hlen]
  simp only [Nat.add_sub_cancel]
  rw [List.getElem?_take, if_pos (by omega), ← List.get?_eq_getElem?]
  exact h

theorem indexOf?_get? {α : Type} [BEq α] [LawfulBEq α] {l : List α} {a : α} {i : ℕ}
    (h : l.indexOf? a = some i) : l.get? i = some a := by
  unfold List.indexOf? at h
  rw [List.findIdx?_eq_some_iff_getElem] at h
  obtain ⟨hi, hp, -⟩ := h
  rw [List.get?_eq_getElem?, List.getElem?_eq_getElem hi]
  exact congrArg some (eq_of_beq hp)

theorem wilsonWalk_spec {w h : ℕ} {s : RandStream} (hv : ValidStream s) {g : GridMap}
    (hwf : WFCells g) (hwh : 2 ≤ w * h) :
    ∀ (fuel : ℕ) (path : List Pos) (cur : Pos) (k : ℕ) (path' : List Pos) (k' : ℕ),
      (∀ q ∈ path, InBounds q w h) → List.Chain' AdjacentPos path →
      path.getLast? = some cur → InBounds cur w h →
      wilsonWalk w h s g fuel path cur k = some (path', k') →
      (∀ q ∈ path', InBounds q w h) ∧ List.Chain' AdjacentPos path' := by
  intro fuel
  induction fuel with
  | zero =>
    intro path cur k path' k' _ _ _ _ heq
    exact Option.noConfusion heq
  | succ n ih =>
    intro path cur k path' k' hpath hchain hlast hcur heq
    unfold wilsonWalk at heq
    dsimp only at heq
    split_ifs at heq with hvst
    · obtain ⟨h1, h2⟩ := Prod.mk.injEq _ _ _ _ ▸ Option.some_inj.1 heq
      subst h1
      exact ⟨hpath, hchain⟩
    · have hne : getNeighbors (g cur.1 cur.2) g w h ≠ [] :=
        getNeighbors_ne_nil hwf hcur.1 hcur.2 hwh
      have hmem : (getNeighbors (g cur.1 cur.2) g w h).getD
          (randIndex (s k) (getNeighbors (g cur.1 cur.2) g w h).length) default ∈
          getNeighbors (g cur.1 cur.2) g w h :=
        getD_mem (randIndex_lt (hv k).1 (hv k).2 (List.length_pos.2 hne)) _
      obtain ⟨q, hqe, hqb, hqa⟩ := mem_getNeighbors hwf hmem
      rw [hqe] at heq
      simp only [(hwf q.1 q.2).1, (hwf q.1 q.2).2] at heq
      rcases hidx : path.indexOf? q with _ | i
      · rw [hidx] at heq
        dsimp only at heq
        refine ih _ q (k + 1) path' k' ?_ ?_ ?_ hqb heq
        · intro p hp
          rcases List.mem_append.1 hp with hp | hp
          · exact hpath p hp
          · simp at hp
            subst hp
            exact hqb
        · rw [List.chain'_append]
          refine ⟨hchain, List.chain'_singleton q, ?_⟩
          intro a ha b hb
          rw [hlast] at ha
          simp at ha hb
          subst ha
          subst hb
          exact hqa
        · exact List.getLast?_concat _
      · rw [hidx] at heq
        dsimp only at heq
        have hget := indexOf?_get? hidx
        refine ih _ q (k + 1) path' k' ?_ (hchain.take _) ?_ hqb heq
        · intro p hp
          exact hpath p (List.take_subset _ _ hp)
        · exact getLast?_take_of_get? hget

theorem wilsonCarve_inv {w h : ℕ} :
    ∀ (path : List Pos) (g : GridMap), GridInv g w h →
      (∀ q ∈ path, InBounds q w h) → List.Chain' AdjacentPos path →
      GridInv (wilsonCarve g path) w h := by
  intro path
  induction path with
  | nil => intro g hinv _ _; exact hinv
  | cons p rest ih =>
    intro g hinv hb hchain
    rcases rest with _ | ⟨q, rest'⟩
    · exact hinv
    · unfold wilsonCarve
      refine ih _ ?_ (fun r hr => hb r (List.mem_cons_of_mem p hr)) ?_
      · refine gridInv_markVisited (carve_adj_inv hinv ?_ ?_ ?_) p.1 p.2
        · exact hb p (List.mem_cons_self _ _)
        · exact hb q (List.mem_cons_of_mem p (List.mem_cons_self _ _))
        · exact (List.chain'_cons.1 hchain).1
      · exact (List.chain'_cons.1 hchain).2

theorem wilsonOuter_inv {w h : ℕ} {s : RandStream} (hv : ValidStream s)
    (hwh : 2 ≤ w * h) (walkFuel : ℕ) :
    ∀ (l : List Pos) (g : GridMap) (k : ℕ), GridInv g w h →
      (∀ p ∈ l, InBounds p w h) →
      GridInv (wilsonOuter w h s walkFuel l g k) w h := by
  intro l
  induction l with
  | nil => intro g k hinv _; exact hinv
  | cons p rest ih =>
    intro g k hinv hl
    unfold wilsonOuter
    have hpb : InBounds p w h := hl p (List.mem_cons_self _ _)
    have hrest : ∀ q ∈ rest, InBounds q w h :=
      fun q hq => hl q (List.mem_cons_of_mem p hq)
    split_ifs with hvst
    · exact ih g k hinv hrest
    · rcases hwalk : wilsonWalk w h s g walkFuel [p] p k with _ | ⟨path, k'⟩
      · exact hinv
      · obtain ⟨hpb', hchain⟩ := wilsonWalk_spec hv hinv.1 hwh walkFuel [p] p k path k'
          (by intro q hq; simp at hq; subst hq; exact hpb)
          (List.chain'_singleton p) rfl hpb hwalk
        exact ih _ k' (wilsonCarve_inv path g hinv hpb' hchain) hrest

theorem generateWithWilson_inv {w h : ℕ} {s : RandStream} (hv : ValidStream s)
    (hw : 0 < w) (hh : 0 < h) (walkFuel : ℕ) :
    GridInv (generateWithWilson w h s walkFuel) w h := by
  unfold generateWithWilson
  have hg0 : GridInv (markVisited initializeGrid (randIndex (s 1) w)
      (randIndex (s 0) h)) w h :=
    gridInv_markVisited (gridInv_initializeGrid w h) _ _
  rcases Nat.lt_or_ge (w * h) 2 with hlt | hge
  · -- a 1×1 grid: the single cell is visited, so the walk list is empty
    have hw1 : w = 1 := by nlinarith
    have hh1 : h = 1 := by nlinarith
    subst hw1; subst hh1
    have hx0 : randIndex (s 1) 1 = 0 := by
      have := randIndex_lt (hv 1).1 (hv 1).2 (by omega : (0:ℕ) < 1)
      omega
    have hy0 : randIndex (s 0) 1 = 0 := by
      have := randIndex_lt (hv 0).1 (hv 0).2 (by omega : (0:ℕ) < 1)
      omega
    rw [hx0, hy0]
    have hfilter : (((List.range 1).flatMap fun y =>
        (List.range 1).map fun x => ((x, y) : Pos)).filter
          fun p => !((markVisited initializeGrid 0 0) p.1 p.2).visited) = [] := by
      simp [List.range_succ, markVisited, setCell_self]
    dsimp only
    rw [hfilter]
    unfold shuffleList shuffleAux
    try dsimp only
    try unfold wilsonOuter
    rw [hx0, hy0] at hg0
    exact hg0
  · refine wilsonOuter_inv hv hge walkFuel _ _ _ hg0 ?_
    intro p hp
    have hmem := mem_shuffleList hp
    rw [List.mem_filter] at hmem
    have := hmem.1
    rw [List.mem_flatMap] at this
    obtain ⟨y, hy, hx⟩ := this
    rw [List.mem_map] at hx
    obtain ⟨x, hxm, hpe⟩ := hx
    subst hpe
    exact ⟨List.mem_range.1 hxm, List.mem_range.1 hy⟩


/-- Wall symmetry alone is preserved by one adjacent carve (no boundary or
bundling needed beyond cell well-formedness). -/
theorem carve_adj_symm {g : GridMap} {w h : ℕ} (hwf : WFCells g)
    (hs : SymmetricWalls g w h) {p q : Pos}
    (hp : InBounds p w h) (hq : InBounds q w h) (hadj : AdjacentPos p q) :
    SymmetricWalls (carve g (g p.1 p.2) (g q.1 q.2)) w h := by
  obtain ⟨a, b⟩ := p
  obtain ⟨c, d⟩ := q
  unfold InBounds at hp hq
  unfold AdjacentPos at hadj
  simp only at hp hq hadj
  rcases hadj with ⟨hcol, hv | hv⟩ | ⟨hrow, hh | hh⟩
  · subst hcol; subst hv
    rw [carve_toUp hwf a d]
    exact symmetricWalls_open_v hs hp.1 hp.2
  · subst hcol; subst hv
    rw [carve_toDown hwf a b]
    exact symmetricWalls_open_v hs hp.1 hq.2
  · subst hrow; subst hh
    rw [carve_toLeft hwf c b]
    exact symmetricWalls_open_h hs hp.1 hp.2
  · subst hrow; subst hh
    rw [carve_toRight hwf a b]
    exact symmetricWalls_open_h hs hq.1 hp.2

/-- The bundled invariant holds for the grid returned by `generate()` for
every algorithm, provided the generator's random stream is `[0,1)`-valued
and the dimensions are positive. -/
theorem MazeGenerator.generate_inv (mg : MazeGenerator) (fuel : ℕ)
    (hv : ValidStream mg.random) (hw : 0 < mg.width) (hh : 0 < mg.height) :
    GridInv (mg.generate fuel) mg.width mg.height := by
  unfold MazeGenerator.generate
  cases halg : mg.algorithm <;> dsimp only
  · exact generateWithRecursiveBacktracker_inv hv hw hh fuel
  · exact generateWithRecursiveBacktracker_inv hv hw hh fuel
  · exact generateWithPrim_inv hv hw hh fuel
  · exact generateWithKruskal_inv
  · exact generateWithWilson_inv hv hw hh fuel
  · exact generateWithGrowingTree_inv hv hw hh fuel
  · exact generateWithBinaryTree_inv hv
  · exact generateWithAldousBroder_inv hv hw hh fuel
  · exact generateWithSidewinder_inv hv


/-! ## Claim C4 — wall symmetry -/

/-- C4: wall flags across every shared boundary of adjacent cells agree:
the all-walls initial grid is symmetric, one `removeWalls` call on two
in-bounds grid-adjacent cells preserves symmetry, and consequently the grid
produced by any generation run (every algorithm, every `[0,1)`-valued
random stream, any fuel) is symmetric. -/
theorem C4_wall_symmetry :
    (∀ w h : ℕ, SymmetricWalls initializeGrid w h) ∧
    (∀ (g : GridMap) (w h : ℕ) (p q : Pos), WFCells g → SymmetricWalls g w h →
      InBounds p w h → InBounds q w h → AdjacentPos p q →
      SymmetricWalls (carve g (g p.1 p.2) (g q.1 q.2)) w h) ∧
    (∀ (mg : MazeGenerator) (fuel : ℕ), ValidStream mg.random →
      0 < mg.width → 0 < mg.height →
      SymmetricWalls (mg.generate fuel) mg.width mg.height) :=
  ⟨fun w h => (gridInv_initializeGrid w h).2.1,
   fun _ _ _ _ _ hwf hs hp hq hadj => carve_adj_symm hwf hs hp hq hadj,
   fun mg fuel hv hw hh => (mg.generate_inv fuel hv hw hh).2.1⟩

/-- Witness for C4 at concrete inputs: the initial 2×2 grid, one concrete
adjacent carve on it, and a full seeded sidewinder generation run. -/
theorem C4_wall_symmetry_witness :
    SymmetricWalls initializeGrid 2 2 ∧
    SymmetricWalls (carve initializeGrid (initializeGrid 0 0) (initializeGrid 1 0)) 2 2 ∧
    SymmetricWalls (MazeGenerator.generate
      ⟨2, 2, .sidewinder, ⟨some 42, .random, 3 / 4, .northWest⟩,
        createSeededRandom 42⟩ 10) 2 2 :=
  ⟨C4_wall_symmetry.1 2 2,
   C4_wall_symmetry.2.1 initializeGrid 2 2 (0, 0) (1, 0) wfCells_initializeGrid
     (C4_wall_symmetry.1 2 2) ⟨by decide, by decide⟩ ⟨by decide, by decide⟩
     (Or.inr ⟨rfl, Or.inr rfl⟩),
   C4_wall_symmetry.2.2
     ⟨2, 2, .sidewinder, ⟨some 42, .random, 3 / 4, .northWest⟩, createSeededRandom 42⟩
     10 (createSeededRandom_valid 42) (by decide) (by decide)⟩

/-! ## Claim C8 — boundary walls (amended theorem) -/

/-- C8 (amended): the multi-algorithm `MazeGenerator.generate` of
`src/maze-generator.ts` never opens a boundary wall — for every algorithm,
every `[0,1)`-valued random stream (in particular every seed) and any fuel,
all top walls of row 0, bottom walls of the last row, left walls of column
0 and right walls of the last column are still present.  (The legacy
`src/maze.ts` generator instead carves the entrance and exit boundary
walls itself: see `C8_boundary_counterexample`.) -/
theorem C8_boundary_preserved (mg : MazeGenerator) (fuel : ℕ)
    (hv : ValidStream mg.random) (hw : 0 < mg.width) (hh : 0 < mg.height) :
    BoundaryIntact (mg.generate fuel) mg.width mg.height :=
  (mg.generate_inv fuel hv hw hh).2.2

/-- Witness for C8 on a concrete seeded Prim generation. -/
theorem C8_boundary_preserved_witness :
    BoundaryIntact (MazeGenerator.generate
      ⟨2, 2, .prim, ⟨some 7, .random, 3 / 4, .northWest⟩, createSeededRandom 7⟩ 64) 2 2 :=
  C8_boundary_preserved
    ⟨2, 2, .prim, ⟨some 7, .random, 3 / 4, .northWest⟩, createSeededRandom 7⟩ 64
    (createSeededRandom_valid 7) (by decide) (by decide)


/-! ## Claim C9 — sidewinder run behavior -/

/-- C9: an exhaustive characterization of the sidewinder per-cell step.
The run closes exactly when the cell is at the east boundary, or the cell
is not in the north row and the next RNG draw is below `0.5` (JavaScript
short-circuiting: no coin is drawn at the east boundary or on the north
row).  On the north row, runs extend east until the boundary and no north
passage is ever carved (the boundary close carves nothing, though it still
consumes the passage-selection draw).  A close in any other row carves
exactly one north passage from the run cell selected by the uniform index
`⌊r·len⌋` over the just-closed run, then starts a new run; a non-close
carves east and extends the run. -/
theorem C9_sidewinder_step (w : ℕ) (s : RandStream) (y x : ℕ) (g : GridMap)
    (k : ℕ) (run : List Pos) :
    (x = w - 1 → y = 0 →
      swCellStep w s y (g, k, run) x = (g, k + 1, [])) ∧
    (x = w - 1 → y ≠ 0 →
      swCellStep w s y (g, k, run) x =
        (carve g
          (g ((run ++ [(x, y)]).getD
                (randIndex (s k) (run ++ [(x, y)]).length) default).1
             ((run ++ [(x, y)]).getD
                (randIndex (s k) (run ++ [(x, y)]).length) default).2)
          (g ((run ++ [(x, y)]).getD
                (randIndex (s k) (run ++ [(x, y)]).length) default).1
             (((run ++ [(x, y)]).getD
                (randIndex (s k) (run ++ [(x, y)]).length) default).2 - 1)),
         k + 1, [])) ∧
    (x ≠ w - 1 → y = 0 →
      swCellStep w s y (g, k, run) x =
        (carve g (g x y) (g (x + 1) y), k, run ++ [(x, y)])) ∧
    (x ≠ w - 1 → y ≠ 0 → s k < 1 / 2 →
      swCellStep w s y (g, k, run) x =
        (carve g
          (g ((run ++ [(x, y)]).getD
                (randIndex (s (k + 1)) (run ++ [(x, y)]).length) default).1
             ((run ++ [(x, y)]).getD
                (randIndex (s (k + 1)) (run ++ [(x, y)]).length) default).2)
          (g ((run ++ [(x, y)]).getD
                (randIndex (s (k + 1)) (run ++ [(x, y)]).length) default).1
             (((run ++ [(x, y)]).getD
                (randIndex (s (k + 1)) (run ++ [(x, y)]).length) default).2 - 1)),
         k + 2, [])) ∧
    (x ≠ w - 1 → y ≠ 0 → ¬(s k < 1 / 2) →
      swCellStep w s y (g, k, run) x =
        (carve g (g x y) (g (x + 1) y), k + 1, run ++ [(x, y)])) := by
  refine ⟨?_, ?_, ?_, ?_, ?_⟩
  · intro hE hN
    unfold swCellStep
    dsimp only
    simp only [if_pos hE, if_pos hN]
    exact if_pos trivial
  · intro hE hN
    unfold swCellStep
    dsimp only
    simp only [if_pos hE, if_neg hN]
    exact if_pos trivial
  · intro hE hN
    unfold swCellStep
    dsimp only
    simp only [if_neg hE, if_pos hN]
    exact if_neg (by simp)
  · intro hE hN hC
    unfold swCellStep
    dsimp only
    simp only [if_neg hE, if_neg hN, decide_eq_true_eq, if_pos hC]
  · intro hE hN hC
    unfold swCellStep
    dsimp only
    simp only [if_neg hE, if_neg hN, decide_eq_true_eq, if_neg hC]

/-- Witness for C9: a concrete interior coin-close step (`x = 1`, `y = 1`,
`w = 3`, constant-zero stream, so the coin is below `0.5`). -/
theorem C9_sidewinder_step_witness :
    swCellStep 3 (fun _ => 0) 1 (initializeGrid, 0, []) 1 =
      (carve initializeGrid
        (initializeGrid (([] ++ [((1 : ℕ), (1 : ℕ))]).getD
            (randIndex ((fun _ => (0 : ℚ)) 1) ([] ++ [((1 : ℕ), (1 : ℕ))]).length)
            default).1
          (([] ++ [((1 : ℕ), (1 : ℕ))]).getD
            (randIndex ((fun _ => (0 : ℚ)) 1) ([] ++ [((1 : ℕ), (1 : ℕ))]).length)
            default).2)
        (initializeGrid (([] ++ [((1 : ℕ), (1 : ℕ))]).getD
            (randIndex ((fun _ => (0 : ℚ)) 1) ([] ++ [((1 : ℕ), (1 : ℕ))]).length)
            default).1
          ((([] ++ [((1 : ℕ), (1 : ℕ))]).getD
            (randIndex ((fun _ => (0 : ℚ)) 1) ([] ++ [((1 : ℕ), (1 : ℕ))]).length)
            default).2 - 1)),
       2, []) :=
  (C9_sidewinder_step 3 (fun _ => 0) 1 1 initializeGrid 0 []).2.2.2.1
    (by decide) (by decide) (by norm_num)


/-! ## Claim C10 — single-direction solve on start = end -/

/-- Inserting into the empty heap yields the one-node heap. -/
theorem pqInsert_nil {α P : Type} [LinearOrder P] (a : α) (pr : P) :
    pqInsert ([] : List (α × P)) a pr = [(a, pr)] := by
  unfold pqInsert siftUp
  rw [dif_neg (fun hcon => absurd hcon.1 (by simp))]
  rfl

/-- Extracting from a one-node heap returns its item and the empty heap. -/
theorem pqExtractMin_singleton {α P : Type} [LinearOrder P] (x : α × P) :
    pqExtractMin [x] = (some x.1, []) := by
  unfold pqExtractMin listSwap
  simp

/-- One step of `solveLoop` from a fresh one-entry heap whose entry is the
goal itself: the goal is popped, closed, and reconstructed immediately. -/
theorem solveLoop_goal_first (grid : GridMap) (w h : ℕ) (p : Pos) (pr : ℕ∞)
    (fuel : ℕ) (st : SearchState)
    (hheap : st.openHeap = [(p, pr)]) (hclosed : st.closed = [])
    (hcame : st.cameFrom = fun _ => none) :
    solveLoop grid w h p (fuel + 1) st = [p] := by
  unfold solveLoop
  rw [hheap, pqExtractMin_singleton]
  dsimp only
  rw [if_neg (by rw [hclosed]; exact List.not_mem_nil p), if_pos rfl]
  show reconstructPath st.cameFrom (w * h + 1) p = [p]
  rw [hcame]
  unfold reconstructPath
  rfl

/-- C10: the single-direction A* solver called with `start = end` returns
the one-cell path `[start]`, for every grid, every bounds and every
in-bounds or out-of-bounds position: the first node popped from the open
heap is the start, it equals the goal, and reconstruction from an empty
`cameFrom` map yields the single cell. -/
theorem C10_solve_start_eq_end (grid : GridMap) (w h : ℕ) (p : Pos) :
    solve grid w h p p = [p] := by
  unfold solve
  dsimp only
  rw [pqInsert_nil]
  exact solveLoop_goal_first grid w h p _ (4 * (w * h) + 1)
    { openHeap := [(p, ((heuristic p p : ℕ) : ℕ∞))]
      closed := []
      cameFrom := fun _ => none
      gScore := fun q => if q = p then 0 else ⊤ } rfl rfl rfl


/-! ### The A* loop invariants behind claims C5 and C3 -/

theorem nodup_inbounds_len_le {w h : ℕ} (l : List Pos) (hnd : l.Nodup)
    (hin : ∀ p ∈ l, InBounds p w h) : l.length ≤ w * h := by
  have hsub : l.toFinset ⊆ (Finset.range w) ×ˢ (Finset.range h) := by
    intro p hp
    rw [List.mem_toFinset] at hp
    obtain ⟨h1, h2⟩ := hin p hp
    rw [Finset.mem_product, Finset.mem_range, Finset.mem_range]
    exact ⟨h1, h2⟩
  have hcard := Finset.card_le_card hsub
  rw [List.toFinset_card_of_nodup hnd] at hcard
  simpa [Finset.card_product] using hcard

theorem mem_traversableNeighbors_inbounds {grid : GridMap} {w h : ℕ} {p nb : Pos}
    (hp : InBounds p w h) (hnb : nb ∈ traversableNeighbors grid w h p) :
    InBounds nb w h := by
  unfold traversableNeighbors at hnb
  dsimp only at hnb
  obtain ⟨hp1, hp2⟩ := hp
  simp only [List.mem_append] at hnb
  rcases hnb with ((h1 | h2) | h3) | h4
  · split_ifs at h1 with hc
    · simp at h1
      subst h1
      exact ⟨hp1, by omega⟩
    · simp at h1
  · split_ifs at h2 with hc
    · simp at h2
      subst h2
      exact ⟨by omega, hp2⟩
    · simp at h2
  · split_ifs at h3 with hc
    · simp at h3
      subst h3
      exact ⟨hp1, by omega⟩
    · simp at h3
  · split_ifs at h4 with hc
    · simp at h4
      subst h4
      exact ⟨by omega, hp2⟩
    · simp at h4

theorem traversableNeighbors_length_le (grid : GridMap) (w h : ℕ) (p : Pos) :
    (traversableNeighbors grid w h p).length ≤ 4 := by
  unfold traversableNeighbors
  dsimp only
  split_ifs <;> simp

theorem chain_to_rtg {R : Pos → Pos → Prop} :
    ∀ (l : List Pos) (a b : Pos), List.Chain' R l → l.head? = some a →
      l.getLast? = some b → Relation.ReflTransGen R a b := by
  intro l
  induction l with
  | nil => intro a b _ ha; simp at ha
  | cons x t ih =>
    intro a b hchain ha hb
    rw [List.head?_cons] at ha
    injection ha with ha
    subst ha
    match t with
    | [] =>
      rw [List.getLast?_singleton] at hb
      injection hb with hb
      subst hb
      exact Relation.ReflTransGen.refl
    | y :: t2 =>
      rw [List.chain'_cons] at hchain
      rw [List.getLast?_cons_cons] at hb
      exact Relation.ReflTransGen.head hchain.1 (ih y b hchain.2 rfl hb)

theorem relaxStep_core {grid : GridMap} {w h : ℕ} {start endP cur : Pos}
    {st : SearchState} (hc : SolveInvCore grid w h start endP st)
    (hcur : cur ∈ st.closed)
    (hgb : st.gScore cur + 1 ≤ (st.closed.length : ℕ∞))
    {nb : Pos} (hnb : nb ∈ traversableNeighbors grid w h cur) :
    SolveInvCore grid w h start endP (relaxStep endP cur st nb) ∧
    (relaxStep endP cur st nb).closed = st.closed ∧
    (relaxStep endP cur st nb).openHeap.length ≤ st.openHeap.length + 1 ∧
    (∀ p, (relaxStep endP cur st nb).gScore p ≤ st.gScore p) ∧
    (relaxStep endP cur st nb).gScore nb ≠ ⊤ := by
  have hgcur : st.gScore cur ≠ ⊤ := hc.closed_reached cur hcur
  have htent : st.gScore cur + 1 ≠ ⊤ := by
    rw [WithTop.add_ne_top]
    exact ⟨hgcur, (by simp : (1 : ℕ∞) ≠ ⊤)⟩
  have hcurlt : st.gScore cur < st.gScore cur + 1 :=
    (ENat.lt_add_one_iff hgcur).mpr le_rfl
  unfold relaxStep
  dsimp only
  by_cases hlt : st.gScore cur + 1 < st.gScore nb
  · simp only [if_pos hlt]
    have hnbs : nb ≠ start := by
      intro hcon
      rw [hcon, hc.gstart] at hlt
      simp at hlt
    have hnbc : nb ≠ cur := by
      intro hcon
      rw [hcon] at hlt
      exact absurd (hcurlt.trans hlt) (lt_irrefl _)
    have hcurne : cur ≠ nb := fun hcon => hnbc hcon.symm
    have hstartne : start ≠ nb := fun hcon => hnbs hcon.symm
    refine ⟨⟨?_, ?_, ?_, ?_, ?_, ?_, ?_, ?_, ?_, ?_, ?_, ?_⟩, trivial, ?_, ?_, ?_⟩
    · dsimp only
      rw [if_neg hstartne]
      exact hc.gstart
    · dsimp only
      rw [if_neg hstartne]
      exact hc.cstart
    · intro p q hpq
      dsimp only at hpq ⊢
      by_cases hp : p = nb
      · rw [if_pos hp] at hpq
        injection hpq with hpq
        subst hpq
        subst hp
        rw [if_pos rfl, if_neg hcurne]
        exact ⟨hnb, hcurlt, htent⟩
      · rw [if_neg hp] at hpq
        obtain ⟨hmem, hltq, hpt⟩ := hc.came_step p q hpq
        rw [if_neg hp]
        by_cases hq : q = nb
        · subst hq
          rw [if_pos rfl]
          exact ⟨hmem, hlt.trans hltq, hpt⟩
        · rw [if_neg hq]
          exact ⟨hmem, hltq, hpt⟩
    · intro p hps hpt
      dsimp only at hpt ⊢
      by_cases hp : p = nb
      · rw [if_pos hp]
        rfl
      · rw [if_neg hp] at hpt
        rw [if_neg hp]
        exact hc.came_ex p hps hpt
    · intro p hpt
      dsimp only at hpt
      by_cases hp : p = nb
      · subst hp
        exact mem_traversableNeighbors_inbounds (hc.reach_in cur hgcur) hnb
      · rw [if_neg hp] at hpt
        exact hc.reach_in p hpt
    · intro e he
      dsimp only at he ⊢
      have hmem := (pqInsert_perm st.openHeap nb
        (st.gScore cur + 1 + (heuristic nb endP : ℕ∞))).mem_iff.mp he
      by_cases hp : e.1 = nb
      · rw [if_pos hp]
        exact htent
      · rw [if_neg hp]
        rcases List.mem_cons.mp hmem with rfl | hold
        · simp at hp
        · exact hc.heap_reached e hold
    · exact hc.closed_nodup
    · intro p hp
      dsimp only
      by_cases hpn : p = nb
      · rw [if_pos hpn]; exact htent
      · rw [if_neg hpn]; exact hc.closed_reached p hp
    · intro p hpt
      dsimp only at hpt ⊢
      by_cases hp : p = nb
      · subst hp
        right
        refine ⟨st.gScore cur + 1 + (heuristic p endP : ℕ∞), ?_⟩
        exact (pqInsert_perm _ _ _).mem_iff.mpr (List.mem_cons_self _ _)
      · rw [if_neg hp] at hpt
        rcases hc.reached_loc p hpt with h | ⟨pr, hpr⟩
        · exact Or.inl h
        · exact Or.inr ⟨pr, (pqInsert_perm _ _ _).mem_iff.mpr (List.mem_cons_of_mem _ hpr)⟩
    · intro p hpt
      dsimp only at hpt ⊢
      by_cases hp : p = nb
      · rw [if_pos hp]
        exact hgb
      · rw [if_neg hp] at hpt
        rw [if_neg hp]
        exact hc.g_bound p hpt
    · intro p q hpq
      dsimp only at hpq
      by_cases hp : p = nb
      · rw [if_pos hp] at hpq
        injection hpq with hpq
        rw [← hpq]
        exact hcur
      · rw [if_neg hp] at hpq
        exact hc.came_closed p q hpq
    · exact hc.end_open
    · dsimp only
      rw [(pqInsert_perm _ _ _).length_eq]
      simp
    · intro p
      by_cases hp : p = nb
      · rw [if_pos hp, hp]
        exact hlt.le
      · rw [if_neg hp]
    · simpa using htent
  · simp only [if_neg hlt]
    refine ⟨hc, trivial, by omega, fun p => le_refl _, ?_⟩
    exact ne_top_of_le_ne_top htent (not_lt.mp hlt)

theorem relaxFold_core {grid : GridMap} {w h : ℕ} {start endP cur : Pos} :
    ∀ (nbs : List Pos) (st : SearchState),
      SolveInvCore grid w h start endP st →
      cur ∈ st.closed →
      st.gScore cur + 1 ≤ (st.closed.length : ℕ∞) →
      (∀ nb ∈ nbs, nb ∈ traversableNeighbors grid w h cur) →
      SolveInvCore grid w h start endP (nbs.foldl (relaxStep endP cur) st) ∧
      (nbs.foldl (relaxStep endP cur) st).closed = st.closed ∧
      (nbs.foldl (relaxStep endP cur) st).openHeap.length ≤
        st.openHeap.length + nbs.length ∧
      (∀ p, (nbs.foldl (relaxStep endP cur) st).gScore p ≤ st.gScore p) ∧
      (∀ nb ∈ nbs, (nbs.foldl (relaxStep endP cur) st).gScore nb ≠ ⊤) := by
  intro nbs
  induction nbs with
  | nil =>
    intro st hc _ _ _
    refine ⟨hc, rfl, by simp, fun p => le_refl _, ?_⟩
    intro nb hnb
    simp at hnb
  | cons nb nbs ih =>
    intro st hc hcur hgb hnbs
    have hnbm : nb ∈ traversableNeighbors grid w h cur :=
      hnbs nb (List.mem_cons_self nb nbs)
    obtain ⟨hc1, hcl1, hhl1, hdec1, hnbt1⟩ := relaxStep_core hc hcur hgb hnbm
    have hcur1 : cur ∈ (relaxStep endP cur st nb).closed := by rw [hcl1]; exact hcur
    have hgb1 : (relaxStep endP cur st nb).gScore cur + 1 ≤
        ((relaxStep endP cur st nb).closed.length : ℕ∞) := by
      rw [hcl1]
      exact le_trans (add_le_add_right (hdec1 cur) 1) hgb
    obtain ⟨hc2, hcl2, hhl2, hdec2, hnbt2⟩ := ih (relaxStep endP cur st nb) hc1 hcur1 hgb1
      (fun q hq => hnbs q (List.mem_cons_of_mem nb hq))
    have hfold : (nb :: nbs).foldl (relaxStep endP cur) st =
        nbs.foldl (relaxStep endP cur) (relaxStep endP cur st nb) := rfl
    rw [hfold]
    refine ⟨hc2, by rw [hcl2, hcl1], ?_, ?_, ?_⟩
    · calc (nbs.foldl (relaxStep endP cur) (relaxStep endP cur st nb)).openHeap.length ≤
          (relaxStep endP cur st nb).openHeap.length + nbs.length := hhl2
      _ ≤ st.openHeap.length + 1 + nbs.length := by omega
      _ = st.openHeap.length + (nb :: nbs).length := by simp; omega
    · exact fun p => le_trans (hdec2 p) (hdec1 p)
    · intro q hq
      rcases List.mem_cons.mp hq with rfl | hq2
      · exact ne_top_of_le_ne_top hnbt1 (hdec2 q)
      · exact hnbt2 q hq2

theorem reconstruct_full {grid : GridMap} {w h : ℕ} {start : Pos}
    (came : Pos → Option Pos) (gg : Pos → ℕ∞) (CL : List Pos)
    (hstep : ∀ p q, came p = some q →
      p ∈ traversableNeighbors grid w h q ∧ gg q < gg p ∧ gg p ≠ ⊤)
    (hex : ∀ p, p ≠ start → gg p ≠ ⊤ → (came p).isSome = true)
    (hCL : ∀ p q, came p = some q → q ∈ CL) :
    ∀ (n fuel : ℕ) (p : Pos), gg p = (n : ℕ∞) → n < fuel →
      (reconstructPath came fuel p).head? = some start ∧
      (reconstructPath came fuel p).getLast? = some p ∧
      List.Chain' (stepRel grid w h) (reconstructPath came fuel p) ∧
      List.Chain' (fun a b => gg a < gg b) (reconstructPath came fuel p) ∧
      (∀ x ∈ reconstructPath came fuel p, x = p ∨ x ∈ CL) := by
  intro n
  induction n using Nat.strong_induction_on with
  | _ n ih =>
    intro fuel p hgp hnf
    match fuel with
    | fuel + 1 =>
      rcases hcp : came p with _ | q
      · have hp : p = start := by
          by_contra hne
          have hs := hex p hne (by rw [hgp]; exact ENat.coe_ne_top n)
          rw [hcp] at hs
          simp at hs
        have hred : reconstructPath came (fuel + 1) p = [p] := by
          conv_lhs => rw [reconstructPath]
          rw [hcp]
        rw [hred, hp]
        refine ⟨rfl, rfl, List.chain'_singleton start, List.chain'_singleton start, ?_⟩
        intro x hx
        simp at hx
        exact Or.inl hx
      · obtain ⟨hmem, hltq, hpt⟩ := hstep p q hcp
        have hltn : gg q < (n : ℕ∞) := by
          rw [← hgp]
          exact hltq
        obtain ⟨m, hgq, hmn⟩ : ∃ m : ℕ, gg q = (m : ℕ∞) ∧ m < n := by
          rcases hq : gg q with _ | m
          · rw [hq] at hltn
            exact absurd hltn not_top_lt
          · rw [hq] at hltn
            refine ⟨m, rfl, ?_⟩
            have h2 : ((m : ℕ) : ℕ∞) < ((n : ℕ) : ℕ∞) := hltn
            exact_mod_cast h2
        obtain ⟨ih1, ih2, ih3, ih4, ih5⟩ := ih m hmn fuel q hgq (by omega)
        have hred : reconstructPath came (fuel + 1) p =
            reconstructPath came fuel q ++ [p] := by
          conv_lhs => rw [reconstructPath]
          rw [hcp]
        rw [hred]
        refine ⟨?_, ?_, ?_, ?_, ?_⟩
        · rcases hl : reconstructPath came fuel q with _ | ⟨z, zs⟩
          · rw [hl] at ih1
            simp at ih1
          · rw [hl] at ih1
            simpa using ih1
        · exact List.getLast?_concat _
        · rw [List.chain'_append]
          refine ⟨ih3, List.chain'_singleton p, ?_⟩
          intro x hx y hy
          rw [ih2] at hx
          simp at hx hy
          rw [← hx, ← hy]
          exact hmem
        · rw [List.chain'_append]
          refine ⟨ih4, List.chain'_singleton p, ?_⟩
          intro x hx y hy
          rw [ih2] at hx
          simp at hx hy
          rw [← hx, ← hy]
          rw [hgq, hgp]
          exact_mod_cast hmn
        · intro x hx
          rcases List.mem_append.mp hx with hx1 | hx2
          · rcases ih5 x hx1 with rfl | hcl
            · exact Or.inr (hCL p x hcp)
            · exact Or.inr hcl
          · simp at hx2
            exact Or.inl hx2

theorem chain_lt_nodup {β : Type} [Preorder β] (f : Pos → β) :
    ∀ (l : List Pos), List.Chain' (fun a b => f a < f b) l → l.Nodup := by
  intro l hl
  haveI : IsTrans Pos (fun a b => f a < f b) := ⟨fun a b c h1 h2 => h1.trans h2⟩
  have hp : List.Pairwise (fun a b => f a < f b) l :=
    List.chain'_iff_pairwise.mp hl
  exact hp.imp (fun hlt heq => absurd (heq ▸ hlt) (lt_irrefl _))

theorem solveLoop_spec {grid : GridMap} {w h : ℕ} {start endP : Pos} :
    ∀ (fuel : ℕ) (st : SearchState),
      SolveInvCore grid w h start endP st →
      ExpAll grid w h st →
      solvePhi w h st < fuel →
      ((solveLoop grid w h endP fuel st).head? = some start ∧
       (solveLoop grid w h endP fuel st).getLast? = some endP ∧
       List.Chain' (stepRel grid w h) (solveLoop grid w h endP fuel st) ∧
       (solveLoop grid w h endP fuel st).Nodup) ∨
      (solveLoop grid w h endP fuel st = [] ∧
       ¬ Relation.ReflTransGen (stepRel grid w h) start endP) := by
  intro fuel
  induction fuel with
  | zero =>
    intro st _ _ hphi
    exact absurd hphi (by omega)
  | succ fuel ih =>
    intro st hc hexp hphi
    rcases hheap : st.openHeap with _ | ⟨e, tail⟩
    · have hred : solveLoop grid w h endP (fuel + 1) st = [] := by
        conv_lhs => rw [solveLoop]
        rw [hheap]
        rfl
      refine Or.inr ⟨hred, ?_⟩
      intro hrtg
      have hstart_reached : st.gScore start ≠ ⊤ := by
        rw [hc.gstart]
        simp
      have hall : ∀ p, Relation.ReflTransGen (stepRel grid w h) start p → p ∈ st.closed := by
        intro p hp
        induction hp with
        | refl =>
          rcases hc.reached_loc start hstart_reached with hcl | ⟨pr, hpr⟩
          · exact hcl
          · rw [hheap] at hpr
            simp at hpr
        | tail hab hbc ihb =>
          have hreach := hexp _ ihb _ hbc
          rcases hc.reached_loc _ hreach with hcl | ⟨pr, hpr⟩
          · exact hcl
          · rw [hheap] at hpr
            simp at hpr
      exact hc.end_open (hall endP hrtg)
    · have hpmf : (pqExtractMin st.openHeap).1 = some e.1 := by
        rw [hheap]
        exact pqExtractMin_cons_fst e tail
      have hpm : pqExtractMin st.openHeap = (some e.1, (pqExtractMin st.openHeap).2) := by
        rw [← hpmf]
      have hrestperm : List.Perm (pqExtractMin st.openHeap).2 tail := by
        rw [hheap]
        exact pqExtractMin_rest_perm e tail
      have hrestlen : (pqExtractMin st.openHeap).2.length = tail.length := hrestperm.length_eq
      have hrest_entries : ∀ x ∈ (pqExtractMin st.openHeap).2, x ∈ st.openHeap := by
        intro x hx
        rw [hheap]
        exact List.mem_cons_of_mem e (hrestperm.mem_iff.mp hx)
      have hcurreach : st.gScore e.1 ≠ ⊤ :=
        hc.heap_reached e (by rw [hheap]; exact List.mem_cons_self e tail)
      have hphi0 : tail.length + 1 + 4 * (w * h - st.closed.length) < fuel + 1 := by
        unfold solvePhi at hphi
        rw [hheap] at hphi
        simpa using hphi
      by_cases hclm : e.1 ∈ st.closed
      · have hred : solveLoop grid w h endP (fuel + 1) st =
            solveLoop grid w h endP fuel { st with openHeap := (pqExtractMin st.openHeap).2 } := by
          conv_lhs => rw [solveLoop]
          rw [hpm]
          dsimp only
          rw [if_pos hclm]
        rw [hred]
        have hc1 : SolveInvCore grid w h start endP
            { st with openHeap := (pqExtractMin st.openHeap).2 } :=
          ⟨hc.gstart, hc.cstart, hc.came_step, hc.came_ex, hc.reach_in,
            fun x hx => hc.heap_reached x (hrest_entries x hx),
            hc.closed_nodup, hc.closed_reached,
            (by
              intro p hpt
              rcases hc.reached_loc p hpt with hcl | ⟨pr, hpr⟩
              · exact Or.inl hcl
              · rw [hheap] at hpr
                rcases List.mem_cons.mp hpr with heq | htl
                · refine Or.inl ?_
                  have : p = e.1 := congrArg Prod.fst heq
                  rw [this]
                  exact hclm
                · exact Or.inr ⟨pr, hrestperm.mem_iff.mpr htl⟩),
            hc.g_bound, hc.came_closed, hc.end_open⟩
        have hexp1 : ExpAll grid w h { st with openHeap := (pqExtractMin st.openHeap).2 } := hexp
        have hphi1 : solvePhi w h { st with openHeap := (pqExtractMin st.openHeap).2 } < fuel := by
          unfold solvePhi
          dsimp only
          rw [hrestlen]
          omega
        exact ih _ hc1 hexp1 hphi1
      · have hnodup1 : (e.1 :: st.closed).Nodup := by
          rw [List.nodup_cons]
          exact ⟨hclm, hc.closed_nodup⟩
        have hinb : ∀ p ∈ e.1 :: st.closed, InBounds p w h := by
          intro p hp
          rcases List.mem_cons.mp hp with rfl | hp2
          · exact hc.reach_in _ hcurreach
          · exact hc.reach_in p (hc.closed_reached p hp2)
        have hLle : st.closed.length + 1 ≤ w * h := by
          have := nodup_inbounds_len_le _ hnodup1 hinb
          simpa using this
        by_cases hend : e.1 = endP
        · have hred : solveLoop grid w h endP (fuel + 1) st =
              reconstructPath st.cameFrom (w * h + 1) endP := by
            conv_lhs => rw [solveLoop]
            rw [hpm]
            dsimp only
            rw [if_neg hclm, if_pos hend]
          have hgend : st.gScore endP ≠ ⊤ := by
            rw [← hend]
            exact hcurreach
          obtain ⟨n, hgn⟩ : ∃ n : ℕ, st.gScore endP = (n : ℕ∞) := by
            rcases hg : st.gScore endP with _ | n
            · exact absurd hg hgend
            · exact ⟨n, rfl⟩
          have hnle : n < w * h + 1 := by
            have hb := hc.g_bound endP hgend
            rw [hgn] at hb
            have hcast : n ≤ st.closed.length := by exact_mod_cast hb
            omega
          obtain ⟨r1, r2, r3, r4, r5⟩ := reconstruct_full st.cameFrom st.gScore st.closed
            hc.came_step hc.came_ex hc.came_closed n (w * h + 1) endP hgn hnle
          rw [hred]
          exact Or.inl ⟨r1, r2, r3, chain_lt_nodup st.gScore _ r4⟩
        · have hred : solveLoop grid w h endP (fuel + 1) st =
              solveLoop grid w h endP fuel (expandNeighbors grid w h e.1 endP
                { st with openHeap := (pqExtractMin st.openHeap).2,
                          closed := e.1 :: st.closed }) := by
            conv_lhs => rw [solveLoop]
            rw [hpm]
            dsimp only
            rw [if_neg hclm, if_neg hend]
          rw [hred]
          have hc2 : SolveInvCore grid w h start endP
              { st with openHeap := (pqExtractMin st.openHeap).2,
                        closed := e.1 :: st.closed } :=
            ⟨hc.gstart, hc.cstart, hc.came_step, hc.came_ex, hc.reach_in,
              fun x hx => hc.heap_reached x (hrest_entries x hx),
              hnodup1,
              (by
                intro p hp
                rcases List.mem_cons.mp hp with rfl | hp2
                · exact hcurreach
                · exact hc.closed_reached p hp2),
              (by
                intro p hpt
                rcases hc.reached_loc p hpt with hcl | ⟨pr, hpr⟩
                · exact Or.inl (List.mem_cons_of_mem _ hcl)
                · rw [hheap] at hpr
                  rcases List.mem_cons.mp hpr with heq | htl
                  · refine Or.inl ?_
                    have : p = e.1 := congrArg Prod.fst heq
                    rw [this]
                    exact List.mem_cons_self _ _
                  · exact Or.inr ⟨pr, hrestperm.mem_iff.mpr htl⟩),
              (by
                intro p hpt
                have hb := hc.g_bound p hpt
                refine le_trans hb ?_
                have : ((st.closed.length : ℕ) : ℕ∞) ≤ ((st.closed.length + 1 : ℕ) : ℕ∞) := by
                  exact_mod_cast Nat.le_succ _
                simpa using this),
              (fun p q hpq => List.mem_cons_of_mem _ (hc.came_closed p q hpq)),
              (by
                intro hcon
                rcases List.mem_cons.mp hcon with heq | htl
                · exact hend heq.symm
                · exact hc.end_open htl)⟩
          have hgb2 : st.gScore e.1 + 1 ≤ (((e.1 :: st.closed).length : ℕ) : ℕ∞) := by
            have hb := hc.g_bound e.1 hcurreach
            calc st.gScore e.1 + 1 ≤ (st.closed.length : ℕ∞) + 1 := add_le_add_right hb 1
            _ = ((st.closed.length + 1 : ℕ) : ℕ∞) := by push_cast; ring
            _ = (((e.1 :: st.closed).length : ℕ) : ℕ∞) := by rw [List.length_cons]
          obtain ⟨core3, hcl3, hhl3, hdec3, hnb3⟩ :=
            relaxFold_core (traversableNeighbors grid w h e.1)
              { st with openHeap := (pqExtractMin st.openHeap).2,
                        closed := e.1 :: st.closed }
              hc2 (List.mem_cons_self _ _) hgb2 (fun nb hnb => hnb)
          have hfold : expandNeighbors grid w h e.1 endP
              { st with openHeap := (pqExtractMin st.openHeap).2,
                        closed := e.1 :: st.closed } =
              (traversableNeighbors grid w h e.1).foldl (relaxStep endP e.1)
              { st with openHeap := (pqExtractMin st.openHeap).2,
                        closed := e.1 :: st.closed } := rfl
          rw [hfold]
          have hexp3 : ExpAll grid w h ((traversableNeighbors grid w h e.1).foldl
              (relaxStep endP e.1)
              { st with openHeap := (pqExtractMin st.openHeap).2,
                        closed := e.1 :: st.closed }) := by
            intro p hp nb hnb
            rw [hcl3] at hp
            rcases List.mem_cons.mp hp with rfl | hp2
            · exact hnb3 nb hnb
            · exact ne_top_of_le_ne_top (hexp p hp2 nb hnb) (hdec3 nb)
          have hphi3 : solvePhi w h ((traversableNeighbors grid w h e.1).foldl
              (relaxStep endP e.1)
              { st with openHeap := (pqExtractMin st.openHeap).2,
                        closed := e.1 :: st.closed }) < fuel := by
            unfold solvePhi
            rw [hcl3]
            have htn4 := traversableNeighbors_length_le grid w h e.1
            have hlen3 := hhl3
            dsimp only at hlen3
            rw [hrestlen] at hlen3
            have hclen : (e.1 :: st.closed).length = st.closed.length + 1 :=
              List.length_cons _ _
            rw [hclen]
            omega
          exact ih _ core3 hexp3 hphi3

theorem relaxStep_closed (goal cur : Pos) (st : SearchState) (nb : Pos) :
    (relaxStep goal cur st nb).closed = st.closed := by
  unfold relaxStep
  dsimp only
  split <;> rfl

theorem relaxFold_closed (goal cur : Pos) :
    ∀ (nbs : List Pos) (st : SearchState),
      (nbs.foldl (relaxStep goal cur) st).closed = st.closed := by
  intro nbs
  induction nbs with
  | nil => intro st; rfl
  | cons nb nbs ih =>
    intro st
    show (nbs.foldl (relaxStep goal cur) (relaxStep goal cur st nb)).closed = st.closed
    rw [ih, relaxStep_closed]

theorem skipPop_core {grid : GridMap} {w h : ℕ} {start endP : Pos}
    {st : SearchState} {R : List (Pos × ℕ∞)}
    (hc : SolveInvCore grid w h start endP st)
    (hsub : ∀ x ∈ R, x ∈ st.openHeap)
    (hsplit : ∀ x ∈ st.openHeap, x.1 ∈ st.closed ∨ x ∈ R) :
    SolveInvCore grid w h start endP { st with openHeap := R } :=
  ⟨hc.gstart, hc.cstart, hc.came_step, hc.came_ex, hc.reach_in,
    fun x hx => hc.heap_reached x (hsub x hx),
    hc.closed_nodup, hc.closed_reached,
    (by
      intro p hpt
      rcases hc.reached_loc p hpt with hcl | ⟨pr, hpr⟩
      · exact Or.inl hcl
      · rcases hsplit (p, pr) hpr with hcl | hR
        · exact Or.inl hcl
        · exact Or.inr ⟨pr, hR⟩),
    hc.g_bound, hc.came_closed, hc.end_open⟩

theorem closeExpand_core {grid : GridMap} {w h : ℕ} {start endP : Pos}
    {st : SearchState} {cur : Pos} {R : List (Pos × ℕ∞)}
    (hc : SolveInvCore grid w h start endP st)
    (hexp : ExpAll grid w h st)
    (hsub : ∀ x ∈ R, x ∈ st.openHeap)
    (hsplit : ∀ x ∈ st.openHeap, x.1 = cur ∨ x ∈ R)
    (hreach : st.gScore cur ≠ ⊤)
    (hclm : cur ∉ st.closed)
    (hnend : cur ≠ endP) :
    SolveInvCore grid w h start endP (expandNeighbors grid w h cur endP
      { st with openHeap := R, closed := cur :: st.closed }) ∧
    ExpAll grid w h (expandNeighbors grid w h cur endP
      { st with openHeap := R, closed := cur :: st.closed }) ∧
    (expandNeighbors grid w h cur endP
      { st with openHeap := R, closed := cur :: st.closed }).closed = cur :: st.closed ∧
    (expandNeighbors grid w h cur endP
      { st with openHeap := R, closed := cur :: st.closed }).openHeap.length ≤
      R.length + 4 := by
  have hc2 : SolveInvCore grid w h start endP
      { st with openHeap := R, closed := cur :: st.closed } :=
    ⟨hc.gstart, hc.cstart, hc.came_step, hc.came_ex, hc.reach_in,
      fun x hx => hc.heap_reached x (hsub x hx),
      (by rw [List.nodup_cons]; exact ⟨hclm, hc.closed_nodup⟩),
      (by
        intro p hp
        rcases List.mem_cons.mp hp with rfl | hp2
        · exact hreach
        · exact hc.closed_reached p hp2),
      (by
        intro p hpt
        rcases hc.reached_loc p hpt with hcl | ⟨pr, hpr⟩
        · exact Or.inl (List.mem_cons_of_mem _ hcl)
        · rcases hsplit (p, pr) hpr with heq | hR
          · refine Or.inl ?_
            have hp : p = cur := heq
            rw [hp]
            exact List.mem_cons_self _ _
          · exact Or.inr ⟨pr, hR⟩),
      (by
        intro p hpt
        have hb := hc.g_bound p hpt
        refine le_trans hb ?_
        have hcast : ((st.closed.length : ℕ) : ℕ∞) ≤ ((st.closed.length + 1 : ℕ) : ℕ∞) := by
          exact_mod_cast Nat.le_succ _
        simpa using hcast),
      (fun p q hpq => List.mem_cons_of_mem _ (hc.came_closed p q hpq)),
      (by
        intro hcon
        rcases List.mem_cons.mp hcon with heq | htl
        · exact hnend heq.symm
        · exact hc.end_open htl)⟩
  have hgb2 : st.gScore cur + 1 ≤ (((cur :: st.closed).length : ℕ) : ℕ∞) := by
    have hb := hc.g_bound cur hreach
    calc st.gScore cur + 1 ≤ (st.closed.length : ℕ∞) + 1 := add_le_add_right hb 1
    _ = ((st.closed.length + 1 : ℕ) : ℕ∞) := by push_cast; ring
    _ = (((cur :: st.closed).length : ℕ) : ℕ∞) := by rw [List.length_cons]
  obtain ⟨core3, hcl3, hhl3, hdec3, hnb3⟩ :=
    relaxFold_core (traversableNeighbors grid w h cur)
      { st with openHeap := R, closed := cur :: st.closed }
      hc2 (List.mem_cons_self _ _) hgb2 (fun nb hnb => hnb)
  have hfold : expandNeighbors grid w h cur endP
      { st with openHeap := R, closed := cur :: st.closed } =
      (traversableNeighbors grid w h cur).foldl (relaxStep endP cur)
      { st with openHeap := R, closed := cur :: st.closed } := rfl
  rw [hfold]
  refine ⟨core3, ?_, hcl3, ?_⟩
  · intro p hp nb hnb
    rw [hcl3] at hp
    rcases List.mem_cons.mp hp with rfl | hp2
    · exact hnb3 nb hnb
    · exact ne_top_of_le_ne_top (hexp p hp2 nb hnb) (hdec3 nb)
  · have htn4 := traversableNeighbors_length_le grid w h cur
    have := hhl3
    dsimp only at this
    omega

theorem rtg_symm_inbounds {grid : GridMap} {w h : ℕ}
    (hsym : ∀ p q, InBounds p w h → stepRel grid w h p q → stepRel grid w h q p)
    {a b : Pos} (ha : InBounds a w h)
    (hab : Relation.ReflTransGen (stepRel grid w h) a b) :
    InBounds b w h ∧ Relation.ReflTransGen (stepRel grid w h) b a := by
  induction hab with
  | refl => exact ⟨ha, Relation.ReflTransGen.refl⟩
  | tail hxy hyz ih =>
    obtain ⟨hy_in, hyx⟩ := ih
    refine ⟨mem_traversableNeighbors_inbounds hy_in hyz, ?_⟩
    exact Relation.ReflTransGen.head (hsym _ _ hy_in hyz) hyx

theorem empty_heap_unreachable {grid : GridMap} {w h : ℕ} {a b : Pos}
    {st : SearchState}
    (hc : SolveInvCore grid w h a b st)
    (hexp : ExpAll grid w h st)
    (hheap : st.openHeap = []) :
    ¬ Relation.ReflTransGen (stepRel grid w h) a b := by
  intro hrtg
  have hstart_reached : st.gScore a ≠ ⊤ := by
    rw [hc.gstart]
    simp
  have hall : ∀ p, Relation.ReflTransGen (stepRel grid w h) a p → p ∈ st.closed := by
    intro p hp
    induction hp with
    | refl =>
      rcases hc.reached_loc a hstart_reached with hcl | ⟨pr, hpr⟩
      · exact hcl
      · rw [hheap] at hpr
        simp at hpr
    | tail hab hbc ihb =>
      have hreach := hexp _ ihb _ hbc
      rcases hc.reached_loc _ hreach with hcl | ⟨pr, hpr⟩
      · exact hcl
      · rw [hheap] at hpr
        simp at hpr
  exact hc.end_open (hall b hrtg)

theorem chain_imp_of_mem {R S : Pos → Pos → Prop} :
    ∀ (l : List Pos), List.Chain' S l →
      (∀ a b, a ∈ l → b ∈ l → S a b → R a b) → List.Chain' R l := by
  intro l
  induction l with
  | nil => intro _ _; exact List.chain'_nil
  | cons x t ih =>
    intro hch himp
    rw [List.chain'_cons'] at hch ⊢
    refine ⟨?_, ih hch.2 (fun a b ha hb hs =>
      himp a b (List.mem_cons_of_mem x ha) (List.mem_cons_of_mem x hb) hs)⟩
    intro y hy
    have hy_mem : y ∈ t := List.mem_of_mem_head? hy
    exact himp x y (List.mem_cons_self x t) (List.mem_cons_of_mem x hy_mem) (hch.1 y hy)

theorem meeting_path {grid : GridMap} {w h : ℕ} {start endP m : Pos}
    {stF stB : SearchState}
    (hcF : SolveInvCore grid w h start endP stF)
    (hcB : SolveInvCore grid w h endP start stB)
    (hsym : ∀ p q, InBounds p w h → stepRel grid w h p q → stepRel grid w h q p)
    (hmF : stF.gScore m ≠ ⊤)
    (hmB : stB.gScore m ≠ ⊤)
    (hdisj : ∀ p ∈ stF.closed, p ∉ stB.closed) :
    SimplePath grid w h
      (reconstructPath stF.cameFrom (w * h + 1) m ++
       (reconstructPath stB.cameFrom (w * h + 1) m).reverse.drop 1) start endP := by
  obtain ⟨nF, hgFn⟩ : ∃ n : ℕ, stF.gScore m = (n : ℕ∞) := by
    rcases hg : stF.gScore m with _ | n
    · exact absurd hg hmF
    · exact ⟨n, rfl⟩
  obtain ⟨nB, hgBn⟩ : ∃ n : ℕ, stB.gScore m = (n : ℕ∞) := by
    rcases hg : stB.gScore m with _ | n
    · exact absurd hg hmB
    · exact ⟨n, rfl⟩
  have hFlen : stF.closed.length ≤ w * h :=
    nodup_inbounds_len_le stF.closed hcF.closed_nodup
      (fun p hp => hcF.reach_in p (hcF.closed_reached p hp))
  have hBlen : stB.closed.length ≤ w * h :=
    nodup_inbounds_len_le stB.closed hcB.closed_nodup
      (fun p hp => hcB.reach_in p (hcB.closed_reached p hp))
  have hnF : nF < w * h + 1 := by
    have hb := hcF.g_bound m hmF
    rw [hgFn] at hb
    have : nF ≤ stF.closed.length := by exact_mod_cast hb
    omega
  have hnB : nB < w * h + 1 := by
    have hb := hcB.g_bound m hmB
    rw [hgBn] at hb
    have : nB ≤ stB.closed.length := by exact_mod_cast hb
    omega
  obtain ⟨f1, f2, f3, f4, f5⟩ :=
    @reconstruct_full grid w h start stF.cameFrom stF.gScore stF.closed
      hcF.came_step hcF.came_ex hcF.came_closed nF (w * h + 1) m hgFn hnF
  obtain ⟨b1, b2, b3, b4, b5⟩ :=
    @reconstruct_full grid w h endP stB.cameFrom stB.gScore stB.closed
      hcB.came_step hcB.came_ex hcB.came_closed nB (w * h + 1) m hgBn hnB
  set Fp := reconstructPath stF.cameFrom (w * h + 1) m with hFp
  set Bp := reconstructPath stB.cameFrom (w * h + 1) m with hBp
  have hFnodup : Fp.Nodup := chain_lt_nodup stF.gScore Fp f4
  have hBnodup : Bp.Nodup := chain_lt_nodup stB.gScore Bp b4
  have hBin : ∀ x ∈ Bp, InBounds x w h := by
    intro x hx
    rcases b5 x hx with rfl | hcl
    · exact hcB.reach_in x hmB
    · exact hcB.reach_in x (hcB.closed_reached x hcl)
  obtain ⟨rest, hrest⟩ : ∃ rest, Bp.reverse = m :: rest := by
    rcases hrev : Bp.reverse with _ | ⟨z, zs⟩
    · have : Bp.reverse.head? = some m := by
        rw [List.head?_reverse]
        exact b2
      rw [hrev] at this
      simp at this
    · have hhead : Bp.reverse.head? = some m := by
        rw [List.head?_reverse]
        exact b2
      rw [hrev] at hhead
      simp at hhead
      exact ⟨zs, by rw [hhead]⟩
  have hrevchain_flip : List.Chain' (fun a b => stepRel grid w h b a) Bp.reverse := by
    rw [List.chain'_reverse]
    exact b3
  have hrevchain : List.Chain' (stepRel grid w h) Bp.reverse := by
    refine chain_imp_of_mem Bp.reverse hrevchain_flip ?_
    intro a b ha hb hflip
    exact hsym b a (hBin b (List.mem_reverse.mp hb)) hflip
  rw [hrest] at hrevchain
  have hrestchain : List.Chain' (stepRel grid w h) rest := hrevchain.tail
  have hjunc : ∀ y ∈ rest.head?, stepRel grid w h m y :=
    (List.chain'_cons'.mp hrevchain).1
  have hBrev_nodup : (m :: rest).Nodup := by
    rw [← hrest]
    exact List.nodup_reverse.mpr hBnodup
  have hm_notin_rest : m ∉ rest := (List.nodup_cons.mp hBrev_nodup).1
  have hrest_nodup : rest.Nodup := (List.nodup_cons.mp hBrev_nodup).2
  have hrest_sub : ∀ x ∈ rest, x ∈ stB.closed := by
    intro x hx
    have hxB : x ∈ Bp := by
      rw [← List.mem_reverse, hrest]
      exact List.mem_cons_of_mem m hx
    rcases b5 x hxB with rfl | hcl
    · exact absurd hx hm_notin_rest
    · exact hcl
  have hdisjFR : List.Disjoint Fp rest := by
    intro a haF haR
    rcases f5 a haF with rfl | hclF
    · exact hm_notin_rest haR
    · exact hdisj a hclF (hrest_sub a haR)
  have hdrop : Bp.reverse.drop 1 = rest := by
    rw [hrest]
    rfl
  refine ⟨?_, ?_, ?_, ?_⟩
  · rw [hdrop, List.chain'_append]
    refine ⟨f3, hrestchain, ?_⟩
    intro x hx y hy
    rw [f2] at hx
    simp at hx
    rw [← hx]
    exact hjunc y hy
  · rw [hdrop]
    rcases hl : Fp with _ | ⟨z, zs⟩
    · rw [hl] at f1
      simp at f1
    · rw [hl] at f1
      simpa using f1
  · rw [hdrop]
    have hc2 : (m :: rest).getLast? = some endP := by
      rw [← hrest, List.getLast?_reverse]
      exact b1
    cases hre : rest with
    | nil =>
      rw [hre] at hc2
      simp at hc2
      rw [List.append_nil, f2, hc2]
    | cons r rs =>
      rw [hre] at hc2
      rw [List.getLast?_cons_cons] at hc2
      rw [List.getLast?_append_of_ne_nil Fp (List.cons_ne_nil r rs)]
      exact hc2
  · rw [hdrop]
    exact List.Nodup.append hFnodup hrest_nodup hdisjFR

theorem bidirLoop_spec {grid : GridMap} {w h : ℕ} {start endP : Pos}
    (hsym : ∀ p q, InBounds p w h → stepRel grid w h p q → stepRel grid w h q p) :
    ∀ (fuel : ℕ) (stF stB : SearchState),
      SolveInvCore grid w h start endP stF →
      SolveInvCore grid w h endP start stB →
      ExpAll grid w h stF →
      ExpAll grid w h stB →
      (∀ p ∈ stF.closed, p ∉ stB.closed) →
      start ∈ stF.closed →
      endP ∈ stB.closed →
      solvePhi w h stF + solvePhi w h stB < fuel →
      SimplePath grid w h (bidirLoop grid w h start endP fuel stF stB) start endP ∨
      (bidirLoop grid w h start endP fuel stF stB = [] ∧
       ¬ Relation.ReflTransGen (stepRel grid w h) start endP) := by
  intro fuel
  induction fuel with
  | zero =>
    intro stF stB _ _ _ _ _ _ _ hphi
    exact absurd hphi (by omega)
  | succ fuel ih =>
    intro stF stB hcF hcB hexpF hexpB hdisj hsF heB hphi
    rcases hheapF : stF.openHeap with _ | ⟨eF, tailF⟩
    · have hred : bidirLoop grid w h start endP (fuel + 1) stF stB = [] := by
        conv_lhs => rw [bidirLoop]
        rw [hheapF]
        rw [if_pos (Or.inl (by simp : ([] : List (Pos × ℕ∞)).isEmpty = true))]
      exact Or.inr ⟨hred, empty_heap_unreachable hcF hexpF hheapF⟩
    · rcases hheapB : stB.openHeap with _ | ⟨eB, tailB⟩
      · have hred : bidirLoop grid w h start endP (fuel + 1) stF stB = [] := by
          conv_lhs => rw [bidirLoop]
          rw [hheapB]
          rw [if_pos (Or.inr (by simp : ([] : List (Pos × ℕ∞)).isEmpty = true))]
        refine Or.inr ⟨hred, ?_⟩
        intro hrtg
        have hs_in : InBounds start w h :=
          hcF.reach_in start (hcF.closed_reached start hsF)
        obtain ⟨-, hback⟩ := rtg_symm_inbounds hsym hs_in hrtg
        exact empty_heap_unreachable hcB hexpB hheapB hback
      · have hcond : ¬ (stF.openHeap.isEmpty = true ∨ stB.openHeap.isEmpty = true) := by
          rw [hheapF, hheapB]
          simp
        have hpmfF : (pqExtractMin stF.openHeap).1 = some eF.1 := by
          rw [hheapF]
          exact pqExtractMin_cons_fst eF tailF
        have hpmF : pqExtractMin stF.openHeap = (some eF.1, (pqExtractMin stF.openHeap).2) := by
          rw [← hpmfF]
        have hrestpermF : List.Perm (pqExtractMin stF.openHeap).2 tailF := by
          rw [hheapF]
          exact pqExtractMin_rest_perm eF tailF
        have hsubF : ∀ x ∈ (pqExtractMin stF.openHeap).2, x ∈ stF.openHeap := by
          intro x hx
          rw [hheapF]
          exact List.mem_cons_of_mem eF (hrestpermF.mem_iff.mp hx)
        have hsplitF : ∀ x ∈ stF.openHeap, x.1 = eF.1 ∨ x ∈ (pqExtractMin stF.openHeap).2 := by
          intro x hx
          rw [hheapF] at hx
          rcases List.mem_cons.mp hx with rfl | htl
          · exact Or.inl rfl
          · exact Or.inr (hrestpermF.mem_iff.mpr htl)
        have hcurreachF : stF.gScore eF.1 ≠ ⊤ :=
          hcF.heap_reached eF (by rw [hheapF]; exact List.mem_cons_self eF tailF)
        have hFclosed_le : stF.closed.length ≤ w * h :=
          nodup_inbounds_len_le stF.closed hcF.closed_nodup
            (fun p hp => hcF.reach_in p (hcF.closed_reached p hp))
        have hBclosed_le : stB.closed.length ≤ w * h :=
          nodup_inbounds_len_le stB.closed hcB.closed_nodup
            (fun p hp => hcB.reach_in p (hcB.closed_reached p hp))
        have hphiF0 : solvePhi w h stF = tailF.length + 1 + 4 * (w * h - stF.closed.length) := by
          unfold solvePhi
          rw [hheapF]
          simp
        have hphiB0 : solvePhi w h stB = tailB.length + 1 + 4 * (w * h - stB.closed.length) := by
          unfold solvePhi
          rw [hheapB]
          simp
        by_cases hclmF : eF.1 ∈ stF.closed
        · have hred : bidirLoop grid w h start endP (fuel + 1) stF stB =
              bidirLoop grid w h start endP fuel
                { stF with openHeap := (pqExtractMin stF.openHeap).2 } stB := by
            conv_lhs => rw [bidirLoop]
            rw [if_neg hcond, hpmF]
            dsimp only
            rw [if_pos hclmF]
          rw [hred]
          have hcF1 := skipPop_core hcF hsubF
            (fun x hx => (hsplitF x hx).imp (fun heq => by rw [← heq] at hclmF; exact hclmF) id)
          have hphi1 : solvePhi w h { stF with openHeap := (pqExtractMin stF.openHeap).2 } +
              solvePhi w h stB < fuel := by
            rw [hphiF0, hphiB0] at hphi
            unfold solvePhi
            dsimp only
            rw [hrestpermF.length_eq]
            have hBlen1 : stB.openHeap.length = tailB.length + 1 := by
              rw [hheapB]
              rfl
            omega
          exact ih _ stB hcF1 hcB hexpF hexpB hdisj hsF heB hphi1
        · by_cases hmeetF : eF.1 ∈ stB.closed
          · have hred : bidirLoop grid w h start endP (fuel + 1) stF stB =
                reconstructPath stF.cameFrom (w * h + 1) eF.1 ++
                (reconstructPath stB.cameFrom (w * h + 1) eF.1).reverse.drop 1 := by
              conv_lhs => rw [bidirLoop]
              rw [if_neg hcond, hpmF]
              dsimp only
              rw [if_neg hclmF, if_pos hmeetF]
            rw [hred]
            exact Or.inl (meeting_path hcF hcB hsym hcurreachF
              (hcB.closed_reached _ hmeetF) hdisj)
          · have hnendF : eF.1 ≠ endP := by
              intro hcon
              rw [hcon] at hmeetF
              exact hmeetF heB
            obtain ⟨coreF3, expF3, hclF3, hlenF3⟩ :=
              closeExpand_core hcF hexpF hsubF hsplitF hcurreachF hclmF hnendF
            have hdisjF3 : ∀ p ∈ (expandNeighbors grid w h eF.1 endP
                { stF with openHeap := (pqExtractMin stF.openHeap).2,
                           closed := eF.1 :: stF.closed }).closed, p ∉ stB.closed := by
              rw [hclF3]
              intro p hp
              rcases List.mem_cons.mp hp with rfl | hp2
              · exact hmeetF
              · exact hdisj p hp2
            have hsF3 : start ∈ (expandNeighbors grid w h eF.1 endP
                { stF with openHeap := (pqExtractMin stF.openHeap).2,
                           closed := eF.1 :: stF.closed }).closed := by
              rw [hclF3]
              exact List.mem_cons_of_mem _ hsF
            have hpmfB : (pqExtractMin stB.openHeap).1 = some eB.1 := by
              rw [hheapB]
              exact pqExtractMin_cons_fst eB tailB
            have hpmB : pqExtractMin stB.openHeap = (some eB.1, (pqExtractMin stB.openHeap).2) := by
              rw [← hpmfB]
            have hrestpermB : List.Perm (pqExtractMin stB.openHeap).2 tailB := by
              rw [hheapB]
              exact pqExtractMin_rest_perm eB tailB
            have hsubB : ∀ x ∈ (pqExtractMin stB.openHeap).2, x ∈ stB.openHeap := by
              intro x hx
              rw [hheapB]
              exact List.mem_cons_of_mem eB (hrestpermB.mem_iff.mp hx)
            have hsplitB : ∀ x ∈ stB.openHeap, x.1 = eB.1 ∨ x ∈ (pqExtractMin stB.openHeap).2 := by
              intro x hx
              rw [hheapB] at hx
              rcases List.mem_cons.mp hx with rfl | htl
              · exact Or.inl rfl
              · exact Or.inr (hrestpermB.mem_iff.mpr htl)
            have hcurreachB : stB.gScore eB.1 ≠ ⊤ :=
              hcB.heap_reached eB (by rw [hheapB]; exact List.mem_cons_self eB tailB)
            have hlenF3' : (expandNeighbors grid w h eF.1 endP
                { stF with openHeap := (pqExtractMin stF.openHeap).2,
                           closed := eF.1 :: stF.closed }).openHeap.length ≤
                tailF.length + 4 := by
              rw [hrestpermF.length_eq] at hlenF3
              exact hlenF3
            have hclF3len : (expandNeighbors grid w h eF.1 endP
                { stF with openHeap := (pqExtractMin stF.openHeap).2,
                           closed := eF.1 :: stF.closed }).closed.length =
                stF.closed.length + 1 := by
              rw [hclF3]
              exact List.length_cons _ _
            have hFclosed1_le : stF.closed.length + 1 ≤ w * h := by
              have hnd : (eF.1 :: stF.closed).Nodup := by
                rw [List.nodup_cons]
                exact ⟨hclmF, hcF.closed_nodup⟩
              have hin : ∀ p ∈ eF.1 :: stF.closed, InBounds p w h := by
                intro p hp
                rcases List.mem_cons.mp hp with rfl | hp2
                · exact hcF.reach_in _ hcurreachF
                · exact hcF.reach_in p (hcF.closed_reached p hp2)
              have := nodup_inbounds_len_le _ hnd hin
              simpa using this
            by_cases hclmB : eB.1 ∈ stB.closed
            · have hred : bidirLoop grid w h start endP (fuel + 1) stF stB =
                  bidirLoop grid w h start endP fuel
                    (expandNeighbors grid w h eF.1 endP
                      { stF with openHeap := (pqExtractMin stF.openHeap).2,
                                 closed := eF.1 :: stF.closed })
                    { stB with openHeap := (pqExtractMin stB.openHeap).2 } := by
                conv_lhs => rw [bidirLoop]
                rw [if_neg hcond, hpmF]
                dsimp only
                rw [if_neg hclmF, if_neg hmeetF, hpmB]
                dsimp only
                rw [if_pos hclmB]
              rw [hred]
              have hcB1 := skipPop_core hcB hsubB
                (fun x hx => (hsplitB x hx).imp (fun heq => by rw [← heq] at hclmB; exact hclmB) id)
              have hphi1 : solvePhi w h (expandNeighbors grid w h eF.1 endP
                  { stF with openHeap := (pqExtractMin stF.openHeap).2,
                             closed := eF.1 :: stF.closed }) +
                  solvePhi w h { stB with openHeap := (pqExtractMin stB.openHeap).2 } < fuel := by
                rw [hphiF0, hphiB0] at hphi
                unfold solvePhi
                dsimp only
                rw [hrestpermB.length_eq, hclF3len]
                omega
              exact ih _ _ coreF3 hcB1 expF3 hexpB hdisjF3 hsF3 heB hphi1
            · by_cases hmeetB : eB.1 ∈ (expandNeighbors grid w h eF.1 endP
                  { stF with openHeap := (pqExtractMin stF.openHeap).2,
                             closed := eF.1 :: stF.closed }).closed
              · have hred : bidirLoop grid w h start endP (fuel + 1) stF stB =
                    reconstructPath (expandNeighbors grid w h eF.1 endP
                      { stF with openHeap := (pqExtractMin stF.openHeap).2,
                                 closed := eF.1 :: stF.closed }).cameFrom (w * h + 1) eB.1 ++
                    (reconstructPath stB.cameFrom (w * h + 1) eB.1).reverse.drop 1 := by
                  conv_lhs => rw [bidirLoop]
                  rw [if_neg hcond, hpmF]
                  dsimp only
                  rw [if_neg hclmF, if_neg hmeetF, hpmB]
                  dsimp only
                  rw [if_neg hclmB, if_pos hmeetB]
                rw [hred]
                exact Or.inl (meeting_path coreF3 hcB hsym
                  (coreF3.closed_reached _ hmeetB) hcurreachB hdisjF3)
              · have hnendB : eB.1 ≠ start := by
                  intro hcon
                  rw [hcon] at hmeetB
                  exact hmeetB hsF3
                obtain ⟨coreB3, expB3, hclB3, hlenB3⟩ :=
                  closeExpand_core hcB hexpB hsubB hsplitB hcurreachB hclmB hnendB
                have hred : bidirLoop grid w h start endP (fuel + 1) stF stB =
                    bidirLoop grid w h start endP fuel
                      (expandNeighbors grid w h eF.1 endP
                        { stF with openHeap := (pqExtractMin stF.openHeap).2,
                                   closed := eF.1 :: stF.closed })
                      (expandNeighbors grid w h eB.1 start
                        { stB with openHeap := (pqExtractMin stB.openHeap).2,
                                   closed := eB.1 :: stB.closed }) := by
                  conv_lhs => rw [bidirLoop]
                  rw [if_neg hcond, hpmF]
                  dsimp only
                  rw [if_neg hclmF, if_neg hmeetF, hpmB]
                  dsimp only
                  rw [if_neg hclmB, if_neg hmeetB]
                rw [hred]
                have hdisj3 : ∀ p ∈ (expandNeighbors grid w h eF.1 endP
                    { stF with openHeap := (pqExtractMin stF.openHeap).2,
                               closed := eF.1 :: stF.closed }).closed,
                    p ∉ (expandNeighbors grid w h eB.1 start
                      { stB with openHeap := (pqExtractMin stB.openHeap).2,
                                 closed := eB.1 :: stB.closed }).closed := by
                  intro p hp
                  rw [hclB3]
                  intro hcon
                  rcases List.mem_cons.mp hcon with rfl | hp2
                  · exact hmeetB hp
                  · exact hdisjF3 p hp hp2
                have heB3 : endP ∈ (expandNeighbors grid w h eB.1 start
                    { stB with openHeap := (pqExtractMin stB.openHeap).2,
                               closed := eB.1 :: stB.closed }).closed := by
                  rw [hclB3]
                  exact List.mem_cons_of_mem _ heB
                have hBclosed1_le : stB.closed.length + 1 ≤ w * h := by
                  have hnd : (eB.1 :: stB.closed).Nodup := by
                    rw [List.nodup_cons]
                    exact ⟨hclmB, hcB.closed_nodup⟩
                  have hin : ∀ p ∈ eB.1 :: stB.closed, InBounds p w h := by
                    intro p hp
                    rcases List.mem_cons.mp hp with rfl | hp2
                    · exact hcB.reach_in _ hcurreachB
                    · exact hcB.reach_in p (hcB.closed_reached p hp2)
                  have := nodup_inbounds_len_le _ hnd hin
                  simpa using this
                have hphi1 : solvePhi w h (expandNeighbors grid w h eF.1 endP
                    { stF with openHeap := (pqExtractMin stF.openHeap).2,
                               closed := eF.1 :: stF.closed }) +
                    solvePhi w h (expandNeighbors grid w h eB.1 start
                      { stB with openHeap := (pqExtractMin stB.openHeap).2,
                                 closed := eB.1 :: stB.closed }) < fuel := by
                  rw [hphiF0, hphiB0] at hphi
                  unfold solvePhi
                  rw [hclF3len]
                  have hlenB3' : (expandNeighbors grid w h eB.1 start
                      { stB with openHeap := (pqExtractMin stB.openHeap).2,
                                 closed := eB.1 :: stB.closed }).openHeap.length ≤
                      tailB.length + 4 := by
                    rw [hrestpermB.length_eq] at hlenB3
                    exact hlenB3
                  have hclB3len : (expandNeighbors grid w h eB.1 start
                      { stB with openHeap := (pqExtractMin stB.openHeap).2,
                                 closed := eB.1 :: stB.closed }).closed.length =
                      stB.closed.length + 1 := by
                    rw [hclB3]
                    exact List.length_cons _ _
                  rw [hclB3len]
                  omega
                exact ih _ _ coreF3 coreB3 expF3 expB3 hdisj3 hsF3 heB3 hphi1

theorem bidir_first_step (grid : GridMap) (w h : ℕ) (start endP : Pos)
    (hne : start ≠ endP) (fuel : ℕ) :
    bidirLoop grid w h start endP (fuel + 1)
      { openHeap := pqInsert [] start ((heuristic start endP : ℕ∞)),
        closed := [], cameFrom := fun _ => none,
        gScore := fun p => if p = start then 0 else ⊤ }
      { openHeap := pqInsert [] endP ((heuristic endP start : ℕ∞)),
        closed := [], cameFrom := fun _ => none,
        gScore := fun p => if p = endP then 0 else ⊤ } =
    bidirLoop grid w h start endP fuel
      (expandNeighbors grid w h start endP
        { openHeap := [], closed := [start], cameFrom := fun _ => none,
          gScore := fun p => if p = start then 0 else ⊤ })
      (expandNeighbors grid w h endP start
        { openHeap := [], closed := [endP], cameFrom := fun _ => none,
          gScore := fun p => if p = endP then 0 else ⊤ }) := by
  have hclF3 : (expandNeighbors grid w h start endP
      { openHeap := [], closed := [start], cameFrom := fun _ => none,
        gScore := fun p => if p = start then 0 else ⊤ }).closed = [start] :=
    relaxFold_closed endP start (traversableNeighbors grid w h start) _
  conv_lhs => rw [bidirLoop]
  rw [pqInsert_nil, pqInsert_nil]
  rw [if_neg (by simp)]
  rw [pqExtractMin_singleton]
  dsimp only
  rw [if_neg (List.not_mem_nil start), if_neg (List.not_mem_nil start)]
  rw [pqExtractMin_singleton]
  dsimp only
  rw [if_neg (List.not_mem_nil endP)]
  rw [hclF3]
  rw [if_neg (by
    intro hcon
    simp at hcon
    exact hne hcon.symm)]

theorem init_core (grid : GridMap) (w h : ℕ) (start endP : Pos)
    (hs : InBounds start w h) :
    SolveInvCore grid w h start endP
      { openHeap := pqInsert [] start ((heuristic start endP : ℕ∞))
        closed := []
        cameFrom := fun _ => none
        gScore := fun p => if p = start then 0 else ⊤ } := by
  have hperm0 := pqInsert_perm ([] : List (Pos × ℕ∞)) start ((heuristic start endP : ℕ∞))
  refine ⟨?_, ?_, ?_, ?_, ?_, ?_, ?_, ?_, ?_, ?_, ?_, ?_⟩
  · dsimp only
    rw [if_pos rfl]
  · rfl
  · intro p q hpq
    exact Option.noConfusion hpq
  · intro p hps hpt
    dsimp only at hpt
    rw [if_neg hps] at hpt
    exact absurd rfl hpt
  · intro p hpt
    dsimp only at hpt
    by_cases hp : p = start
    · rw [hp]
      exact hs
    · rw [if_neg hp] at hpt
      exact absurd rfl hpt
  · intro e hein
    dsimp only
    have hmem := hperm0.mem_iff.mp hein
    rcases List.mem_cons.mp hmem with rfl | habs
    · rw [if_pos rfl]
      simp
    · simp at habs
  · exact List.nodup_nil
  · intro p hp
    simp at hp
  · intro p hpt
    dsimp only at hpt ⊢
    by_cases hp : p = start
    · subst hp
      exact Or.inr ⟨((heuristic p endP : ℕ) : ℕ∞),
        hperm0.mem_iff.mpr (List.mem_cons_self _ _)⟩
    · rw [if_neg hp] at hpt
      exact absurd rfl hpt
  · intro p hpt
    dsimp only at hpt ⊢
    by_cases hp : p = start
    · rw [if_pos hp]
      simp
    · rw [if_neg hp] at hpt
      exact absurd rfl hpt
  · intro p q hpq
    exact Option.noConfusion hpq
  · exact List.not_mem_nil endP

/-- C5: for every grid (including grids no generator produces), every
bounds and every in-bounds start and end: when end is reachable from start
through open walls, the single-direction solver returns a path that begins
at start, ends at end, and where each consecutive pair of cells is joined
by an open wall (`stepRel`, the solver's own traversability relation);
when end is not reachable it returns the empty list.  The solver never
raises an error: `solve` is total and its baked-in fuel `4*(w*h)+2`
provably suffices (the potential `solvePhi` strictly decreases). -/
theorem C5_solver_correct (grid : GridMap) (w h : ℕ) (start endP : Pos)
    (hs : InBounds start w h) (he : InBounds endP w h) :
    (Relation.ReflTransGen (stepRel grid w h) start endP →
      (solve grid w h start endP).head? = some start ∧
      (solve grid w h start endP).getLast? = some endP ∧
      List.Chain' (stepRel grid w h) (solve grid w h start endP)) ∧
    (¬ Relation.ReflTransGen (stepRel grid w h) start endP →
      solve grid w h start endP = []) := by
  unfold solve
  dsimp only
  have hperm0 := pqInsert_perm ([] : List (Pos × ℕ∞)) start ((heuristic start endP : ℕ) : ℕ∞)
  have hcore : SolveInvCore grid w h start endP
      { openHeap := pqInsert [] start ((heuristic start endP : ℕ) : ℕ∞)
        closed := []
        cameFrom := fun _ => none
        gScore := fun p => if p = start then 0 else ⊤ } := by
    refine ⟨?_, ?_, ?_, ?_, ?_, ?_, ?_, ?_, ?_, ?_, ?_, ?_⟩
    · dsimp only
      rw [if_pos rfl]
    · rfl
    · intro p q hpq
      exact Option.noConfusion hpq
    · intro p hps hpt
      dsimp only at hpt
      rw [if_neg hps] at hpt
      exact absurd rfl hpt
    · intro p hpt
      dsimp only at hpt
      by_cases hp : p = start
      · rw [hp]
        exact hs
      · rw [if_neg hp] at hpt
        exact absurd rfl hpt
    · intro e hein
      dsimp only
      have hmem := hperm0.mem_iff.mp hein
      rcases List.mem_cons.mp hmem with rfl | habs
      · rw [if_pos rfl]
        simp
      · simp at habs
    · exact List.nodup_nil
    · intro p hp
      simp at hp
    · intro p hpt
      dsimp only at hpt ⊢
      by_cases hp : p = start
      · subst hp
        exact Or.inr ⟨((heuristic p endP : ℕ) : ℕ∞),
          hperm0.mem_iff.mpr (List.mem_cons_self _ _)⟩
      · rw [if_neg hp] at hpt
        exact absurd rfl hpt
    · intro p hpt
      dsimp only at hpt ⊢
      by_cases hp : p = start
      · rw [if_pos hp]
        simp
      · rw [if_neg hp] at hpt
        exact absurd rfl hpt
    · intro p q hpq
      exact Option.noConfusion hpq
    · exact List.not_mem_nil endP
  have hexp0 : ExpAll grid w h
      { openHeap := pqInsert [] start ((heuristic start endP : ℕ) : ℕ∞)
        closed := []
        cameFrom := fun _ => none
        gScore := fun p => if p = start then 0 else ⊤ } := by
    intro p hp
    simp at hp
  have hphi0 : solvePhi w h
      { openHeap := pqInsert [] start ((heuristic start endP : ℕ) : ℕ∞)
        closed := []
        cameFrom := fun _ => none
        gScore := fun p => if p = start then 0 else ⊤ } < 4 * (w * h) + 2 := by
    unfold solvePhi
    dsimp only
    rw [hperm0.length_eq]
    simp
    omega
  rcases solveLoop_spec (4 * (w * h) + 2) _ hcore hexp0 hphi0 with ⟨h1, h2, h3, h4⟩ | ⟨h1, h2⟩
  · refine ⟨fun _ => ⟨h1, h2, h3⟩, ?_⟩
    intro hnconn
    exact absurd (chain_to_rtg _ start endP h3 h1 h2) hnconn
  · refine ⟨?_, fun _ => h1⟩
    intro hconn
    exact absurd hconn h2

/-- Witness for C5: on the freshly initialised 1×1 grid with
`start = end = (0, 0)`, both hypotheses hold by computation. -/
theorem C5_solver_correct_witness :
    (Relation.ReflTransGen (stepRel initializeGrid 1 1) (0, 0) (0, 0) →
      (solve initializeGrid 1 1 (0, 0) (0, 0)).head? = some (0, 0) ∧
      (solve initializeGrid 1 1 (0, 0) (0, 0)).getLast? = some (0, 0) ∧
      List.Chain' (stepRel initializeGrid 1 1) (solve initializeGrid 1 1 (0, 0) (0, 0))) ∧
    (¬ Relation.ReflTransGen (stepRel initializeGrid 1 1) (0, 0) (0, 0) →
      solve initializeGrid 1 1 (0, 0) (0, 0) = []) :=
  C5_solver_correct initializeGrid 1 1 (0, 0) (0, 0) ⟨by decide, by decide⟩ ⟨by decide, by decide⟩

/-! ## Claim C3 — bidirectional versus single-direction A* on perfect mazes -/

theorem simplePath_self_eq {grid : GridMap} {w h : ℕ} {l : List Pos} {a : Pos}
    (hsp : SimplePath grid w h l a a) : l = [a] := by
  obtain ⟨hch, hh, hl, hnd⟩ := hsp
  match l with
  | [] => simp at hh
  | [x] =>
    rw [List.head?_cons] at hh
    injection hh with hh
    rw [hh]
  | x :: y :: s =>
    rw [List.head?_cons] at hh
    injection hh with hh
    rw [List.getLast?_cons_cons] at hl
    have hmem : a ∈ y :: s := List.mem_of_mem_getLast? hl
    rw [List.nodup_cons] at hnd
    rw [hh] at hnd
    exact absurd hmem hnd.1

theorem perfectMaze_unit : PerfectMaze initializeGrid 1 1 := by
  have htn : traversableNeighbors initializeGrid 1 1 (0, 0) = [] := by decide
  constructor
  · intro p q hp hstep
    obtain ⟨p1, p2⟩ := p
    obtain ⟨hp1, hp2⟩ := hp
    have h1 : p1 = 0 := by omega
    have h2 : p2 = 0 := by omega
    subst h1
    subst h2
    unfold stepRel at hstep
    rw [htn] at hstep
    simp at hstep
  · intro a b ha hb
    obtain ⟨a1, a2⟩ := a
    obtain ⟨b1, b2⟩ := b
    obtain ⟨ha1, ha2⟩ := ha
    obtain ⟨hb1, hb2⟩ := hb
    have h1 : a1 = 0 := by omega
    have h2 : a2 = 0 := by omega
    have h3 : b1 = 0 := by omega
    have h4 : b2 = 0 := by omega
    subst h1
    subst h2
    subst h3
    subst h4
    refine ⟨[(0, 0)], ⟨List.chain'_singleton _, rfl, rfl, List.nodup_singleton _⟩, ?_⟩
    intro y hy
    exact simplePath_self_eq hy

/-- C3: on any perfect maze — a grid whose open-wall adjacency is
symmetric and in which every pair of in-bounds cells is joined by exactly
one simple path — `solveBidirectional` returns exactly the same sequence
of cells as the single-direction A* `solve`, for every in-bounds start and
end; in particular, when `start = end` it returns the single-cell path
`[start]` without searching. -/
theorem C3_bidirectional_matches_single (grid : GridMap) (w h : ℕ) (start endP : Pos)
    (hpm : PerfectMaze grid w h) (hs : InBounds start w h) (he : InBounds endP w h) :
    solveBidirectional grid w h start endP = solve grid w h start endP ∧
    (start = endP → solveBidirectional grid w h start endP = [start]) := by
  have hshort : start = endP → solveBidirectional grid w h start endP = [start] := by
    intro heq
    subst heq
    unfold solveBidirectional
    rw [if_pos rfl]
  refine ⟨?_, hshort⟩
  obtain ⟨hsym, huniq⟩ := hpm
  by_cases hse : start = endP
  · subst hse
    have h1 : solveBidirectional grid w h start start = [start] := by
      unfold solveBidirectional
      rw [if_pos rfl]
    have h2 : solve grid w h start start = [start] := by
      unfold solve
      dsimp only
      rw [pqInsert_nil]
      exact solveLoop_goal_first grid w h start _ (4 * (w * h) + 1) _ rfl rfl rfl
    rw [h1, h2]
  · obtain ⟨L, hL, hLuniq⟩ := huniq start endP hs he
    have hconn : Relation.ReflTransGen (stepRel grid w h) start endP :=
      chain_to_rtg L start endP hL.1 hL.2.1 hL.2.2.1
    have hwh : 1 ≤ w * h := by
      obtain ⟨h1, h2⟩ := hs
      have : 0 < w := by omega
      have : 0 < h := by omega
      exact Nat.one_le_iff_ne_zero.mpr (by positivity)
    -- single-direction side
    have hcore0 := init_core grid w h start endP hs
    have hexp0 : ExpAll grid w h
        { openHeap := pqInsert [] start ((heuristic start endP : ℕ∞))
          closed := []
          cameFrom := fun _ => none
          gScore := fun p => if p = start then 0 else ⊤ } := by
      intro p hp
      simp at hp
    have hphi0 : solvePhi w h
        { openHeap := pqInsert [] start ((heuristic start endP : ℕ∞))
          closed := []
          cameFrom := fun _ => none
          gScore := fun p => if p = start then 0 else ⊤ } < 4 * (w * h) + 2 := by
      unfold solvePhi
      dsimp only
      rw [(pqInsert_perm ([] : List (Pos × ℕ∞)) start _).length_eq]
      simp
      omega
    have hseq : solve grid w h start endP = solveLoop grid w h endP (4 * (w * h) + 2)
        { openHeap := pqInsert [] start ((heuristic start endP : ℕ∞))
          closed := []
          cameFrom := fun _ => none
          gScore := fun p => if p = start then 0 else ⊤ } := rfl
    have hsolve_simple : SimplePath grid w h (solve grid w h start endP) start endP := by
      rcases solveLoop_spec (4 * (w * h) + 2) _ hcore0 hexp0 hphi0 with ⟨s1, s2, s3, s4⟩ | ⟨_, hnc⟩
      · rw [hseq]
        exact ⟨s3, s1, s2, s4⟩
      · exact absurd hconn hnc
    -- bidirectional side: first iteration
    have hbeq : solveBidirectional grid w h start endP =
        bidirLoop grid w h start endP (8 * (w * h) + 4)
          { openHeap := pqInsert [] start ((heuristic start endP : ℕ∞))
            closed := []
            cameFrom := fun _ => none
            gScore := fun p => if p = start then 0 else ⊤ }
          { openHeap := pqInsert [] endP ((heuristic endP start : ℕ∞))
            closed := []
            cameFrom := fun _ => none
            gScore := fun p => if p = endP then 0 else ⊤ } := by
      unfold solveBidirectional
      rw [if_neg hse]
    have hstep1 := bidir_first_step grid w h start endP hse (8 * (w * h) + 3)
    -- invariants after iteration 1
    have hsubF : ∀ x ∈ ([] : List (Pos × ℕ∞)),
        x ∈ ({ openHeap := pqInsert [] start ((heuristic start endP : ℕ∞)), closed := [], cameFrom := fun _ => none, gScore := fun p => if p = start then 0 else ⊤ } : SearchState).openHeap := by
      intro x hx
      simp at hx
    have hsplitF : ∀ x, x ∈ ({ openHeap := pqInsert [] start ((heuristic start endP : ℕ∞)), closed := [], cameFrom := fun _ => none, gScore := fun p => if p = start then 0 else ⊤ } : SearchState).openHeap →
        x.1 = start ∨ x ∈ ([] : List (Pos × ℕ∞)) := by
      intro x hx
      dsimp only at hx
      rw [pqInsert_nil] at hx
      rcases List.mem_cons.mp hx with rfl | habs
      · exact Or.inl rfl
      · simp at habs
    have hreachF : ({ openHeap := pqInsert [] start ((heuristic start endP : ℕ∞)), closed := [], cameFrom := fun _ => none, gScore := fun p => if p = start then 0 else ⊤ } : SearchState).gScore start ≠ ⊤ := by
      dsimp only
      rw [if_pos rfl]
      simp
    obtain ⟨coreF3, expF3, hclF3, hlenF3⟩ :=
      closeExpand_core hcore0 hexp0 hsubF hsplitF hreachF (List.not_mem_nil start) hse
    have hcore0B := init_core grid w h endP start he
    have hexp0B : ExpAll grid w h
        { openHeap := pqInsert [] endP ((heuristic endP start : ℕ∞))
          closed := []
          cameFrom := fun _ => none
          gScore := fun p => if p = endP then 0 else ⊤ } := by
      intro p hp
      simp at hp
    have hsubB : ∀ x ∈ ([] : List (Pos × ℕ∞)),
        x ∈ ({ openHeap := pqInsert [] endP ((heuristic endP start : ℕ∞)), closed := [], cameFrom := fun _ => none, gScore := fun p => if p = endP then 0 else ⊤ } : SearchState).openHeap := by
      intro x hx
      simp at hx
    have hsplitB : ∀ x, x ∈ ({ openHeap := pqInsert [] endP ((heuristic endP start : ℕ∞)), closed := [], cameFrom := fun _ => none, gScore := fun p => if p = endP then 0 else ⊤ } : SearchState).openHeap →
        x.1 = endP ∨ x ∈ ([] : List (Pos × ℕ∞)) := by
      intro x hx
      dsimp only at hx
      rw [pqInsert_nil] at hx
      rcases List.mem_cons.mp hx with rfl | habs
      · exact Or.inl rfl
      · simp at habs
    have hreachB : ({ openHeap := pqInsert [] endP ((heuristic endP start : ℕ∞)), closed := [], cameFrom := fun _ => none, gScore := fun p => if p = endP then 0 else ⊤ } : SearchState).gScore endP ≠ ⊤ := by
      dsimp only
      rw [if_pos rfl]
      simp
    obtain ⟨coreB3, expB3, hclB3, hlenB3⟩ :=
      closeExpand_core hcore0B hexp0B hsubB hsplitB hreachB (List.not_mem_nil endP)
        (fun hcon => hse hcon.symm)
    have hdisj3 : ∀ p, p ∈ (expandNeighbors grid w h start endP
        { openHeap := [], closed := [start], cameFrom := fun _ => none,
          gScore := fun p => if p = start then 0 else ⊤ }).closed →
        p ∉ (expandNeighbors grid w h endP start
          { openHeap := [], closed := [endP], cameFrom := fun _ => none,
            gScore := fun p => if p = endP then 0 else ⊤ }).closed := by
      rw [hclF3, hclB3]
      intro p hp
      simp at hp
      rw [hp]
      intro hcon
      simp at hcon
      exact hse hcon
    have hsF3 : start ∈ (expandNeighbors grid w h start endP
        { openHeap := [], closed := [start], cameFrom := fun _ => none,
          gScore := fun p => if p = start then 0 else ⊤ }).closed := by
      rw [hclF3]
      simp
    have heB3 : endP ∈ (expandNeighbors grid w h endP start
        { openHeap := [], closed := [endP], cameFrom := fun _ => none,
          gScore := fun p => if p = endP then 0 else ⊤ }).closed := by
      rw [hclB3]
      simp
    have hphi3 : solvePhi w h (expandNeighbors grid w h start endP
        { openHeap := [], closed := [start], cameFrom := fun _ => none,
          gScore := fun p => if p = start then 0 else ⊤ }) +
        solvePhi w h (expandNeighbors grid w h endP start
          { openHeap := [], closed := [endP], cameFrom := fun _ => none,
            gScore := fun p => if p = endP then 0 else ⊤ }) < 8 * (w * h) + 3 := by
      unfold solvePhi
      have hc1 : (expandNeighbors grid w h start endP
          { openHeap := [], closed := [start], cameFrom := fun _ => none,
            gScore := fun p => if p = start then 0 else ⊤ }).closed.length = 1 := by
        rw [hclF3]
        rfl
      have hc2 : (expandNeighbors grid w h endP start
          { openHeap := [], closed := [endP], cameFrom := fun _ => none,
            gScore := fun p => if p = endP then 0 else ⊤ }).closed.length = 1 := by
        rw [hclB3]
        rfl
      rw [hc1, hc2]
      simp only [List.length_nil] at hlenF3 hlenB3
      omega
    have hbid_simple : SimplePath grid w h (solveBidirectional grid w h start endP) start endP := by
      rcases bidirLoop_spec hsym (8 * (w * h) + 3) _ _ coreF3 coreB3 expF3 expB3
        hdisj3 hsF3 heB3 hphi3 with hsimple | ⟨_, hnc⟩
      · rw [hbeq, hstep1]
        exact hsimple
      · exact absurd hconn hnc
    exact (hLuniq _ hbid_simple).trans (hLuniq _ hsolve_simple).symm

/-- Witness for C3: the 1×1 freshly initialised grid is a perfect maze
(its single cell is joined to itself by exactly the one-cell path), and the
theorem applies to it with start and end both `(0, 0)`. -/
theorem C3_bidirectional_matches_single_witness :
    (solveBidirectional initializeGrid 1 1 (0, 0) (0, 0) =
      solve initializeGrid 1 1 (0, 0) (0, 0)) ∧
    (((0, 0) : Pos) = (0, 0) →
      solveBidirectional initializeGrid 1 1 (0, 0) (0, 0) = [(0, 0)]) :=
  C3_bidirectional_matches_single initializeGrid 1 1 (0, 0) (0, 0) perfectMaze_unit
    ⟨by decide, by decide⟩ ⟨by decide, by decide⟩

/-! ## Claim C6 — the priority queue -/

/-- C6: for any sequence of `insert(item, priority)` calls on the priority
queue (starting from the empty queue) followed by repeated `extractMin`
calls until the queue is empty: the sequence of extracted nodes is
non-decreasing in priority, the extracted nodes are a permutation of the
inserted ones (every inserted item is extracted exactly once), and
`extractMin` on the empty queue returns the defined empty result (`null`,
modelled as `none`) rather than raising an error.  The final conjunct
identifies each extracted item with the root of the heap at the moment of
the pop, which is how `pqDrain` records the extraction sequence. -/
theorem C6_priority_queue {α P : Type} [LinearOrder P] (xs : List (α × P)) :
    pqExtractMin ([] : List (α × P)) = (none, []) ∧
    List.Chain' (fun a b : α × P => a.2 ≤ b.2) (pqDrain (pqInsertAll xs)) ∧
    List.Perm (pqDrain (pqInsertAll xs)) xs ∧
    (∀ l : List (α × P), (pqExtractMin l).1 = l.head?.map (fun ab => ab.1)) := by
  obtain ⟨hheap, hperm⟩ := pqInsertAll_spec xs
  obtain ⟨hchain, hdperm⟩ := pqDrain_spec hheap
  exact ⟨rfl, hchain, hdperm.trans hperm, pqExtractMin_fst⟩

/-! ## Claim C7 — constructor validation -/

/-- C7: constructing a generator with non-positive dimensions fails with the
descriptive dimension error, constructing one whose merged `straightBias`
lies outside `[0, 1]` fails with the descriptive bias error, and with valid
inputs construction succeeds.  The error results are literal constants: no
grid exists in the constructor and the random stream is never sampled, so
failure happens before any grid allocation and before any random draw. -/
theorem C7_constructor_validation :
    (∀ (w h : ℤ) (alg : MazeGenerationAlgorithm) (opts : MazeGeneratorOptions)
        (amb : RandStream), w ≤ 0 ∨ h ≤ 0 →
      MazeGenerator.make w h alg opts amb =
        .error "Width and height must be greater than 0.") ∧
    (∀ (w h : ℤ) (alg : MazeGenerationAlgorithm) (opts : MazeGeneratorOptions)
        (amb : RandStream) (b : ℚ), 0 < w → 0 < h → opts.straightBias = some b →
        (b < 0 ∨ 1 < b) →
      MazeGenerator.make w h alg opts amb =
        .error "straightBias option must be between 0.0 and 1.0.") ∧
    (∀ (w h : ℤ) (alg : MazeGenerationAlgorithm) (opts : MazeGeneratorOptions)
        (amb : RandStream) (b : ℚ), 0 < w → 0 < h → opts.straightBias = some b →
        0 ≤ b → b ≤ 1 →
      ∃ mg, MazeGenerator.make w h alg opts amb = .ok mg) ∧
    (∀ (w h : ℤ) (alg : MazeGenerationAlgorithm) (opts : MazeGeneratorOptions)
        (amb : RandStream), 0 < w → 0 < h → opts.straightBias = none →
      ∃ mg, MazeGenerator.make w h alg opts amb = .ok mg) := by
  refine ⟨?_, ?_, ?_, ?_⟩
  · intro w h alg opts amb hwh
    unfold MazeGenerator.make
    rw [if_pos hwh]
  · intro w h alg opts amb b hw hh hb hout
    unfold MazeGenerator.make
    rw [if_neg (by omega), hb]
    simp only [Option.getD_some]
    rw [if_pos hout]
  · intro w h alg opts amb b hw hh hb h0 h1
    apply Exists.intro
    unfold MazeGenerator.make
    rw [if_neg (by omega), hb]
    simp only [Option.getD_some]
    rw [if_neg (by push_neg; exact ⟨h0, h1⟩)]
  · intro w h alg opts amb hw hh hb
    apply Exists.intro
    unfold MazeGenerator.make
    rw [if_neg (by omega), hb]
    simp only [Option.getD_none]
    rw [if_neg (by norm_num)]

/-- Witness for C7 at the spec's concrete inputs: `width = 0`,
`height = -5`, `straightBias = -0.1` and `1.1`, plus a valid construction. -/
theorem C7_constructor_validation_witness :
    (MazeGenerator.make 0 10 .recursiveBacktracker {} (fun _ => 0) =
      .error "Width and height must be greater than 0.") ∧
    (MazeGenerator.make 10 (-5) .recursiveBacktracker {} (fun _ => 0) =
      .error "Width and height must be greater than 0.") ∧
    (MazeGenerator.make 10 10 .recursiveBacktrackerBiased
        { straightBias := some (-1 / 10) } (fun _ => 0) =
      .error "straightBias option must be between 0.0 and 1.0.") ∧
    (MazeGenerator.make 10 10 .recursiveBacktrackerBiased
        { straightBias := some (11 / 10) } (fun _ => 0) =
      .error "straightBias option must be between 0.0 and 1.0.") ∧
    (∃ mg, MazeGenerator.make 5 5 .recursiveBacktrackerBiased
        { straightBias := some (1 / 2) } (fun _ => 0) = .ok mg) :=
  ⟨C7_constructor_validation.1 0 10 _ _ _ (Or.inl (by norm_num)),
   C7_constructor_validation.1 10 (-5) _ _ _ (Or.inr (by norm_num)),
   C7_constructor_validation.2.1 10 10 _ _ _ (-1 / 10) (by norm_num) (by norm_num) rfl
     (Or.inl (by norm_num)),
   C7_constructor_validation.2.1 10 10 _ _ _ (11 / 10) (by norm_num) (by norm_num) rfl
     (Or.inr (by norm_num)),
   C7_constructor_validation.2.2.1 5 5 _ _ _ (1 / 2) (by norm_num) (by norm_num) rfl
     (by norm_num) (by norm_num)⟩

/-! ## Claim C2 — seeded determinism -/

/-- C2: with a seed supplied, the constructed generator and hence the grid
produced by `generate()` do not depend on the ambient `Math.random` source
at all: every random draw comes from the single Mulberry32 stream
`createSeededRandom seed`, which is a pure function of the seed.  Two
independent runs with identical `(width, height, algorithm, options, seed)`
therefore produce identical wall layouts. -/
theorem C2_seeded_determinism (w h : ℤ) (alg : MazeGenerationAlgorithm)
    (opts : MazeGeneratorOptions) (sd : ℕ) (amb1 amb2 : RandStream) (fuel : ℕ)
    (hseed : opts.seed = some sd) :
    ((MazeGenerator.make w h alg opts amb1).map fun mg => mg.generate fuel) =
    ((MazeGenerator.make w h alg opts amb2).map fun mg => mg.generate fuel) := by
  unfold MazeGenerator.make
  rw [hseed]

/-- Witness for C2: a concrete seeded 2×2 binary-tree construction is
independent of two different ambient streams. -/
theorem C2_seeded_determinism_witness :
    ((MazeGenerator.make 2 2 .binaryTree { seed := some 5 } (fun _ => 0)).map
      fun mg => mg.generate 10) =
    ((MazeGenerator.make 2 2 .binaryTree { seed := some 5 } (fun _ => 1 / 2)).map
      fun mg => mg.generate 10) :=
  C2_seeded_determinism 2 2 .binaryTree { seed := some 5 } 5 _ _ 10 rfl

/-! ## Claim C8 — boundary walls (counterexample part) -/

/-- Counterexample to C8 as stated: the legacy `MazeGenerator.generate` in
`src/maze.ts` (cited by the claim) finishes by carving the entrance and the
exit, so on a 1×1 grid the returned cell has its top wall (row 0) and its
bottom wall (last row) open — not "still present". -/
theorem C8_boundary_counterexample :
    ((mazeTsGenerate 1 1 (fun _ => 0) 5) 0 0).walls.top = false ∧
    ((mazeTsGenerate 1 1 (fun _ => 0) 5) 0 0).walls.bottom = false := by
  constructor <;> rfl

end MazeRepo
